import Mathlib

/-!
# Verification of the Flowy.Blazor tree engine

A shallow embedding of the tree model and the algorithms of the
VIOVNL.Flowy.Blazor repository, together with proofs about them.

* `FlowyTreeService` (C#, `Services/FlowyTreeService.cs`) is embedded as pure
  functions over a `TreeState`.  C# `Guid`s are modelled as `Nat` drawn from a
  fresh-id counter (`nextId`); `Guid.NewGuid()` always returns a value distinct
  from every id already in the model, which the counter reproduces.
  In-place mutation of a node object found by `GetNodeById` is modelled by
  rewriting the node with that id in the node list; since the service only
  hands out nodes that live in its `_nodes` list, the two views agree.
* The JavaScript side (`flowy-drag-drop.js`, `flowy-zoom-pan.js`,
  `flowy-connections.js`, `flowy-tree-layout.js`, `flowy-interop.js`) is
  embedded over the same id-indexed node representation, or over an inductive
  tree where the JS walks a nested object graph.  JS numbers are modelled as
  rationals (ℚ): the claims under study are exact algebraic identities of the
  formulas, not floating-point statements.
-/

namespace Flowy

/-- Embedding of `FlowyNode` (Models/FlowyNode.cs): `Id`, `Name`,
`ComponentId`, `Color`, `ParentId`, `ChildrenIds`, `IsDraggable`,
`CanHaveChildren`.  The runtime-only fields (`Data`, `Order`, position) play
no role in the claims about the C# service. -/
structure FlowyNode where
  id : Nat
  name : String
  componentId : String
  color : String
  parent : Option Nat
  children : List Nat
  isDraggable : Bool
  canHaveChildren : Bool
deriving Repr, DecidableEq

/-- The state owned by `FlowyTreeService`: the `_nodes` list, the `_rootNode`
reference (by id), and the fresh-id counter standing in for `Guid.NewGuid`. -/
structure TreeState where
  nodes : List FlowyNode
  rootId : Option Nat
  nextId : Nat
deriving Repr, DecidableEq

/-- The empty tree (`new FlowyTreeService()`). -/
def TreeState.empty : TreeState := ⟨[], none, 0⟩

/-- `GetNodeById`: `_nodes.FirstOrDefault(n => n.Id == id)`. -/
def getNodeById (s : TreeState) (i : Nat) : Option FlowyNode :=
  s.nodes.find? (fun n => n.id = i)

/-- Ids present in the model. -/
def ids (s : TreeState) : List Nat := s.nodes.map (·.id)

/-- Rewrite the node with the given id (in-place object mutation of a node
obtained from `_nodes`); leaves the id itself unchanged by construction of the
callers (`setParent`, `modChildren`). -/
def updateNode (s : TreeState) (i : Nat) (f : FlowyNode → FlowyNode) : TreeState :=
  { s with nodes := s.nodes.map (fun n => if n.id = i then f n else n) }

/-- `node.ParentId = p` on the node with id `i`. -/
def setParent (s : TreeState) (i : Nat) (p : Option Nat) : TreeState :=
  updateNode s i (fun n => { n with parent := p })

/-- Mutation of `node.ChildrenIds` on the node with id `i`. -/
def modChildren (s : TreeState) (i : Nat) (f : List Nat → List Nat) : TreeState :=
  updateNode s i (fun n => { n with children := f n.children })

/-- `string.IsNullOrWhiteSpace` (a `string` reference is never null in the
model, so only the all-whitespace check remains). -/
def isNullOrWhiteSpace (s : String) : Bool := s.data.all Char.isWhitespace

/-- `FlowyTreeService.AddNode` (part_004, lines 45–77).  Throwing
`ArgumentException` on a whitespace-empty required field leaves the state
unchanged and yields no node, hence the `none` result.  `parent` is the id of
the caller-supplied parent node object (`parent?.Id`); `parent.ChildrenIds.Add`
only changes the model when that object lives in `_nodes`, which `modChildren`
reproduces.  The fresh `Guid` is the counter value. -/
def addNode (s : TreeState) (name componentId color : String)
    (parent : Option Nat) (isDraggable : Bool := true)
    (canHaveChildren : Bool := true) : TreeState × Option Nat :=
  if isNullOrWhiteSpace name ∨ isNullOrWhiteSpace componentId ∨
      isNullOrWhiteSpace color then (s, none)
  else
    let node : FlowyNode :=
      { id := s.nextId, name := name, componentId := componentId, color := color,
        parent := parent, children := [], isDraggable := isDraggable,
        canHaveChildren := canHaveChildren }
    let s1 : TreeState := { s with nodes := s.nodes ++ [node], nextId := s.nextId + 1 }
    match parent with
    | some pid => (modChildren s1 pid (fun cs => cs ++ [node.id]), some node.id)
    | none =>
      if s.rootId = none then ({ s1 with rootId := some node.id }, some node.id)
      else (s1, some node.id)

/-- `FlowyTreeService.GetChildren` (part_004, lines 233–240). -/
def getChildren (s : TreeState) (node : FlowyNode) : List FlowyNode :=
  node.children.filterMap (getNodeById s)

/-- `FlowyTreeService.GetDescendants` (part_004, lines 245–257), with explicit
recursion fuel standing in for the C# call stack; on a well-formed tree any
fuel ≥ the number of nodes is enough (`getDescendantsFuel_eq_of_le` below). -/
def getDescendantsFuel (s : TreeState) : Nat → FlowyNode → List FlowyNode
  | 0, _ => []
  | fuel + 1, node =>
    (getChildren s node).flatMap (fun c => c :: getDescendantsFuel s fuel c)

/-- `GetDescendants` at the canonical fuel. -/
def getDescendants (s : TreeState) (node : FlowyNode) : List FlowyNode :=
  getDescendantsFuel s s.nodes.length node

/-- `List<T>.Remove` of a node object held in the list: removes the first
element with the given id. -/
def removeById (nodes : List FlowyNode) (i : Nat) : List FlowyNode :=
  nodes.eraseP (fun n => n.id = i)

/-- `FlowyTreeService.RemoveNode` (part_004, lines 111–137): collect
descendants, remove each, unlink from the parent's children (or clear the
root), then remove the node itself. -/
def removeNode (s : TreeState) (nodeId : Nat) : TreeState × Bool :=
  match getNodeById s nodeId with
  | none => (s, false)
  | some node =>
    let descendants := getDescendants s node
    let s1 : TreeState :=
      { s with nodes := descendants.foldl (fun ns d => removeById ns d.id) s.nodes }
    let s2 : TreeState :=
      match node.parent with
      | some p => modChildren s1 p (fun cs => cs.erase nodeId)
      | none => if s.rootId = some nodeId then { s1 with rootId := none } else s1
    ({ s2 with nodes := removeById s2.nodes nodeId }, true)

/-- The `while` loop of `FlowyTreeService.IsDescendant` (part_004, lines
273–300): walk the parent chain from `current`, returning `true` on meeting
`ancestorId`, `false` on reaching a parentless node, on detecting a repeated
parent id (corrupted cyclic data), or on an unresolvable parent reference
(orphaned node).  `fuel` counts remaining loop iterations; `none` means the
iteration budget ran out, and `isDescendantLoop_isSome` below shows a budget
of `|nodes| + 1` always suffices, i.e. the C# loop terminates on every input. -/
def isDescendantLoop (s : TreeState) (ancestorId : Nat) :
    FlowyNode → List Nat → Nat → Option Bool
  | _, _, 0 => none
  | current, visited, fuel + 1 =>
    match current.parent with
    | none => some false
    | some p =>
      if p = ancestorId then some true
      else if p ∈ visited then some false
      else
        match getNodeById s p with
        | none => some false
        | some next => isDescendantLoop s ancestorId next (p :: visited) fuel

/-- `FlowyTreeService.IsDescendant`: the loop starting from `node` with
`visited = { ancestor.Id }`. -/
def isDescendant (s : TreeState) (ancestor node : FlowyNode) : Bool :=
  (isDescendantLoop s ancestor.id node [ancestor.id] (s.nodes.length + 1)).getD false

/-- The "Remove from old parent" block of `MoveNode` (part_004, lines
169–174): `oldParent?.ChildrenIds.Remove(nodeId)`. -/
def detachFromOldParent (s : TreeState) (nodeId : Nat) (oldParent : Option Nat) : TreeState :=
  match oldParent with
  | some op => modChildren s op (fun cs => cs.erase nodeId)
  | none => s

/-- The "Add to new parent" block of `MoveNode` (part_004, lines 178–194):
insert at a valid index, append otherwise. -/
def insertIntoParent (s2 : TreeState) (nodeId pid : Nat) (position : Int) : TreeState :=
  match getNodeById s2 pid with
  | none => s2
  | some newParent =>
    if 0 ≤ position ∧ position < (newParent.children.length : Int) then
      modChildren s2 pid (fun cs => cs.insertIdx position.toNat nodeId)
    else
      modChildren s2 pid (fun cs => cs ++ [nodeId])

/-- The cycle validation of `MoveNode` (part_004, lines 163–167). -/
def moveCircularOk (s : TreeState) (node : FlowyNode) (newParentId : Option Nat) : Bool :=
  match newParentId with
  | none => true
  | some pid =>
    match getNodeById s pid with
    | none => false
    | some newParent => !(isDescendant s node newParent)

/-- `FlowyTreeService.MoveNode` (part_004, lines 154–198). -/
def moveNode (s : TreeState) (nodeId : Nat) (newParentId : Option Nat)
    (position : Int) : TreeState × Bool :=
  match getNodeById s nodeId with
  | none => (s, false)
  | some node =>
    if newParentId = some nodeId then (s, false)
    else if !(moveCircularOk s node newParentId) then (s, false)
    else
      let s1 := detachFromOldParent s nodeId node.parent
      let s2 := setParent s1 nodeId newParentId
      let s3 :=
        match newParentId with
        | none => s2
        | some pid => insertIntoParent s2 nodeId pid position
      (s3, true)

/-- `children[children.IndexOf(oldId)] = newId` guarded by `IndexOf ≥ 0`, as
in `PromoteNode`/`DemoteNode`. -/
def replaceFirst (l : List Nat) (oldId newId : Nat) : List Nat :=
  match l.findIdx? (fun x => x = oldId) with
  | some i => l.set i newId
  | none => l

/-- The re-parenting loops of `PromoteNode`/`DemoteNode`: for each id in
`childIds` that resolves, set its parent to `parentId` and append it to
`parentId`'s children (part_004, lines 340–359 and 406–425). -/
def adoptChildren (s : TreeState) (parentId : Nat) (childIds : List Nat) : TreeState :=
  childIds.foldl
    (fun t c =>
      match getNodeById t c with
      | none => t
      | some _ => modChildren (setParent t c (some parentId)) parentId (fun cs => cs ++ [c]))
    s

/-- `FlowyTreeService.PromoteNode` (part_004, lines 308–363). -/
def promoteNode (s : TreeState) (nodeId : Nat) : TreeState × Bool :=
  match getNodeById s nodeId with
  | none => (s, false)
  | some node =>
    match node.parent with
    | none => (s, false)
    | some oldParentId =>
      match getNodeById s oldParentId with
      | none => (s, false)
      | some oldParent =>
        match oldParent.parent with
        | none => (s, false)
        | some grandParentId =>
          match getNodeById s grandParentId with
          | none => (s, false)
          | some _grandParent =>
            let promotedNodeChildren := node.children
            let promotedNodeSiblings := oldParent.children.filter (fun i => i ≠ nodeId)
            let s1 := modChildren s grandParentId (fun cs => replaceFirst cs oldParentId nodeId)
            let s2 := setParent s1 nodeId (some grandParentId)
            let s3 := modChildren s2 nodeId (fun _ => [])
            let s4 := modChildren s3 oldParentId (fun _ => [])
            let s5 := setParent s4 oldParentId (some nodeId)
            let s6 := modChildren s5 nodeId (fun cs => cs ++ [oldParentId])
            let s7 := adoptChildren s6 nodeId promotedNodeSiblings
            let s8 := adoptChildren s7 oldParentId promotedNodeChildren
            (s8, true)

/-- `FlowyTreeService.DemoteNode` (part_004, lines 371–429). -/
def demoteNode (s : TreeState) (nodeId : Nat) : TreeState × Bool :=
  match getNodeById s nodeId with
  | none => (s, false)
  | some node =>
    match node.parent with
    | none => (s, false)
    | some parentId =>
      match node.children with
      | [] => (s, false)
      | firstChildId :: restChildren =>
        match getNodeById s firstChildId with
        | none => (s, false)
        | some firstChild =>
          match getNodeById s parentId with
          | none => (s, false)
          | some _parent =>
            let grandChildren := firstChild.children
            let demotedNodeSiblings := restChildren
            let s1 := modChildren s parentId (fun cs => replaceFirst cs nodeId firstChildId)
            let s2 := setParent s1 firstChildId (some parentId)
            let s3 := modChildren s2 nodeId (fun _ => [])
            let s4 := modChildren s3 firstChildId (fun _ => [])
            let s5 := setParent s4 nodeId (some firstChildId)
            let s6 := modChildren s5 firstChildId (fun cs => cs ++ [nodeId])
            let s7 := adoptChildren s6 firstChildId demotedNodeSiblings
            let s8 := adoptChildren s7 nodeId grandChildren
            (s8, true)

/-- `ParentRel s p c`: the model contains a node with id `c` whose `ParentId`
is `p`. -/
def ParentRel (s : TreeState) (p c : Nat) : Prop :=
  ∃ n ∈ s.nodes, n.id = c ∧ n.parent = some p

/-- `a` is a strict ancestor of `b` (walking `ParentId` links upward from `b`
reaches `a`). -/
def Ancestor (s : TreeState) (a b : Nat) : Prop :=
  Relation.TransGen (ParentRel s) a b

/-- Every parent chain terminates: each id is accessible for the parent
relation.  This is the acyclicity invariant of the tree model. -/
def Rooted (s : TreeState) : Prop :=
  ∀ i : Nat, Acc (ParentRel s) i

/-- The Tree Model invariants: distinct ids, duplicate-free children lists,
children lists and parent links that resolve and agree with each other,
terminating parent chains (acyclicity), and freshness of the id counter. -/
structure WF (s : TreeState) : Prop where
  nodupIds : (ids s).Nodup
  childNodup : ∀ n ∈ s.nodes, n.children.Nodup
  childParent : ∀ n ∈ s.nodes, ∀ c ∈ n.children,
    ∃ m ∈ s.nodes, m.id = c ∧ m.parent = some n.id
  parentChild : ∀ n ∈ s.nodes, ∀ p, n.parent = some p →
    ∃ m ∈ s.nodes, m.id = p ∧ n.id ∈ m.children
  rooted : Rooted s
  fresh : ∀ n ∈ s.nodes, n.id < s.nextId

/-- Nodes whose id the walk has not visited yet: a bound on the remaining
loop iterations. -/
def remainingCount (s : TreeState) (visited : List Nat) : Nat :=
  (s.nodes.filter (fun n => n.id ∉ visited)).length

/-- `ReachK s k a b`: descending `k` parent-child edges from `a` arrives at
`b`. -/
def ReachK (s : TreeState) : Nat → Nat → Nat → Prop
  | 0, a, b => a = b
  | k + 1, a, b => ∃ c, ParentRel s a c ∧ ReachK s k c b

/-- Effect of "remove from old parent" on a single node. -/
def eraseStep (nodeId : Nat) (oldParent : Option Nat) (m : FlowyNode) : FlowyNode :=
  match oldParent with
  | some op => if m.id = op then { m with children := m.children.erase nodeId } else m
  | none => m

/-- Effect of `node.ParentId = newParentId` on a single node. -/
def parentStep (nodeId : Nat) (np : Option Nat) (m : FlowyNode) : FlowyNode :=
  if m.id = nodeId then { m with parent := np } else m

/-- The new parent's children after the move: insert at a valid index,
append for `-1` and any other out-of-range position. -/
def insFn (nodeId : Nat) (pos : Int) (cs : List Nat) : List Nat :=
  if 0 ≤ pos ∧ pos < (cs.length : Int) then cs.insertIdx pos.toNat nodeId
  else cs ++ [nodeId]

/-- Per-node effect of the promote/demote rotation around one edge: `R` is
the rising node, `F` the falling node, `A` the anchor (the node that keeps
the rotated pair in its children), `sibs` the ids re-parented under `R`
after the pair, `kids` the ids transferred to `F`. -/
def rotateF (R F A : Nat) (sibs kids : List Nat) (m : FlowyNode) : FlowyNode :=
  if m.id = R then { m with parent := some A, children := F :: sibs }
  else if m.id = F then { m with parent := some R, children := kids }
  else if m.id = A then { m with children := replaceFirst m.children F R }
  else if m.id ∈ sibs then { m with parent := some R }
  else if m.id ∈ kids then { m with parent := some F }
  else m

/-- Effect of "insert into new parent at the validated position" on a single
node. -/
def insertStep (nodeId pid : Nat) (pos : Int) (m : FlowyNode) : FlowyNode :=
  if m.id = pid then { m with children := insFn nodeId pos m.children }
  else m

/-- The zoom/pan state of `FlowyZoomPan` (part_007): `zoomLevel`, `panX`,
`panY`.  JS numbers are modelled as exact rationals. -/
structure ZoomState where
  zoomLevel : ℚ
  panX : ℚ
  panY : ℚ
deriving Repr, DecidableEq

/-- `this.minZoom = 0.1` (part_007, line 43). -/
def minZoom : ℚ := 1 / 10

/-- `this.maxZoom = 3.0` (part_007, line 44). -/
def maxZoom : ℚ := 3

/-- `Math.max(this.minZoom, Math.min(this.maxZoom, z))`, the clamp used by
`zoomAtPoint` and `smoothZoomTo`. -/
def clampZoom (z : ℚ) : ℚ := max minZoom (min maxZoom z)

/-- `FlowyZoomPan.zoomAtPoint` (part_007, lines 530–544), with
`smoothZoomTo`/`smoothPanTo` taken at their settled values (`zoomLevel =
targetZoom`, `panX/panY = target pan`): clamp the new zoom, return early if
it did not change, otherwise recompute the pan so the canvas point under the
viewport point is preserved. -/
def zoomAtPoint (st : ZoomState) (viewportX viewportY delta : ℚ) : ZoomState :=
  let oldZoom := st.zoomLevel
  let newZoom := clampZoom (oldZoom + delta)
  if newZoom = oldZoom then st
  else
    let canvasX := (viewportX - st.panX) / oldZoom
    let canvasY := (viewportY - st.panY) / oldZoom
    { zoomLevel := newZoom, panX := viewportX - canvasX * newZoom,
      panY := viewportY - canvasY * newZoom }

inductive JsNode where
  | node (id : Nat) (name componentId color : String) (parentId : Option Nat)
      (isDraggable : Option Bool) (canHaveChildren : Bool)
      (children : List JsNode)
deriving Repr

def JsNode.id : JsNode → Nat
  | .node i _ _ _ _ _ _ _ => i

def JsNode.name : JsNode → String
  | .node _ nm _ _ _ _ _ _ => nm

def JsNode.componentId : JsNode → String
  | .node _ _ cid _ _ _ _ _ => cid

def JsNode.color : JsNode → String
  | .node _ _ _ col _ _ _ _ => col

def JsNode.parentId : JsNode → Option Nat
  | .node _ _ _ _ p _ _ _ => p

def JsNode.isDraggable : JsNode → Option Bool
  | .node _ _ _ _ _ d _ _ => d

def JsNode.canHaveChildren : JsNode → Bool
  | .node _ _ _ _ _ _ c _ => c

def JsNode.children : JsNode → List JsNode
  | .node _ _ _ _ _ _ _ cs => cs

def subNodes : JsNode → List JsNode
  | JsNode.node i nm cid col p d c childs =>
    JsNode.node i nm cid col p d c childs ::
      (childs.attach.map (fun x => subNodes x.1)).flatten
decreasing_by
  have h := List.sizeOf_lt_of_mem x.2
  simp only [JsNode.node.sizeOf_spec]
  omega

structure ExportNode where
  Id : Nat
  Name : String
  ComponentId : String
  Color : String
  ParentId : Option Nat
  ChildrenIds : List Nat
  IsDraggable : Bool
  CanHaveChildren : Bool
deriving Repr, DecidableEq

def buildNodeStructure (n : JsNode) : ExportNode :=
  { Id := n.id, Name := n.name, ComponentId := n.componentId, Color := n.color,
    ParentId := n.parentId,
    ChildrenIds := n.children.map JsNode.id,
    IsDraggable := n.isDraggable != some false,
    CanHaveChildren := true }

def exportNodes : JsNode → List ExportNode
  | JsNode.node i nm cid col p d c childs =>
    buildNodeStructure (JsNode.node i nm cid col p d c childs) ::
      (childs.attach.map (fun x => exportNodes x.1)).flatten
decreasing_by
  have h := List.sizeOf_lt_of_mem x.2
  simp only [JsNode.node.sizeOf_spec]
  omega

def exportTreeStructure (root : JsNode) : Nat × List ExportNode :=
  (root.id, exportNodes root)

def widthSpec (w h : ℚ) : JsNode → ℚ
  | JsNode.node _ _ _ _ _ _ _ childs =>
    if childs.isEmpty then w
    else max ((childs.attach.map (fun x => widthSpec w h x.1)).sum +
      ((childs.length - 1 : Nat) : ℚ) * h) w
decreasing_by
  have hh := List.sizeOf_lt_of_mem x.2
  simp only [JsNode.node.sizeOf_spec]
  omega

def calculateSubtreeWidth (w h : ℚ) : JsNode → List (Nat × ℚ) → ℚ × List (Nat × ℚ)
  | JsNode.node i nm cid col p d c childs, cache =>
    match List.lookup i cache with
    | some v => (v, cache)
    | none =>
      if childs.isEmpty then (w, (i, w) :: cache)
      else
        let r := childs.attach.foldl
          (fun (acc : List ℚ × List (Nat × ℚ)) x =>
            (acc.1 ++ [(calculateSubtreeWidth w h x.1 acc.2).1],
              (calculateSubtreeWidth w h x.1 acc.2).2)) ([], cache)
        let width := max (r.1.sum + ((childs.length - 1 : Nat) : ℚ) * h) w
        (width, (i, width) :: r.2)
decreasing_by
  all_goals
    have hh := List.sizeOf_lt_of_mem x.2
    simp only [JsNode.node.sizeOf_spec]
    omega

def calculateSubtreePositions (w h : ℚ) (n : JsNode) (cache : List (Nat × ℚ)) :
    ℚ × List (Nat × ℚ) :=
  if n.children.isEmpty then (w, cache)
  else
    let r := n.children.foldl
      (fun (acc : List ℚ × List (Nat × ℚ)) c =>
        (acc.1 ++ [(calculateSubtreeWidth w h c acc.2).1],
          (calculateSubtreeWidth w h c acc.2).2)) ([], cache)
    (max (r.1.sum + ((n.children.length - 1 : Nat) : ℚ) * h) w, r.2)

/-- Outcome of the host `ValidateDropTarget` JS-interop call: the callback
returned a verdict, or the `invokeMethodAsync` call threw. -/
inductive HostResult where
  | ok (isValid : Bool)
  | threw
deriving Repr, DecidableEq

/-- `FlowyInstance.addChildToNode` (part_010, lines 396–441), restricted to
its effect on the tree topology.  The tree is the list of `(id, parentId)`
pairs; `hostRef` models `this.dotNetRef` being set; on `HostResult.ok false`
the drop is aborted (`return`), on a thrown callback the code logs and falls
through ("Continue with drop if validation fails"), creating and linking the
child exactly as on acceptance. -/
def addChildToNode (t : List (Nat × Option Nat)) (parentId newId : Nat)
    (hostRef skipNotification : Bool) (validate : HostResult) :
    List (Nat × Option Nat) :=
  if hostRef ∧ ¬skipNotification then
    match validate with
    | HostResult.ok false => t
    | HostResult.ok true => t ++ [(newId, some parentId)]
    | HostResult.threw => t ++ [(newId, some parentId)]
  else t ++ [(newId, some parentId)]

/-- `FlowyDragDrop.getValidDropTargetNode` (part_010, lines 1548–1609),
with the geometric hit test and the structural probes passed in as values:
`hit` is `getNodeAtPosition`'s result (by id), `isDesc` the value of
`this.isDescendant(dragged, hit)`, `parentOfDragged` the dragged node's
parent id, `canHave` the target's `canHaveChildren` flag.  On
`HostResult.ok false` the target is rejected; on a thrown callback the code
logs and falls through ("Continue with drop if validation callback fails"),
returning the target as valid. -/
def getValidDropTargetNode (hit : Option Nat) (draggedId : Nat)
    (isDesc : Bool) (parentOfDragged : Option Nat) (canHave : Bool)
    (hostRef : Bool) (validate : HostResult) : Option Nat :=
  match hit with
  | none => none
  | some tid =>
    if tid = draggedId then none
    else if isDesc then none
    else if parentOfDragged = some tid then none
    else if canHave = false then none
    else if hostRef then
      match validate with
      | HostResult.ok false => none
      | HostResult.ok true => some tid
      | HostResult.threw => some tid
    else some tid

/-- States reachable from the empty tree by the public mutation API.  The
`add` constructor requires the parent argument to be a live node reference
(`FlowyNode? parent` in C# is a node object previously obtained from the
service), matching the C# signature `AddNode(..., FlowyNode? parent, ...)`. -/
inductive Reachable : TreeState → Prop where
  | empty : Reachable TreeState.empty
  | add {s : TreeState} (name componentId color : String) (parent : Option Nat)
      (d c : Bool) (hp : ∀ pid, parent = some pid → pid ∈ ids s)
      (h : Reachable s) : Reachable (addNode s name componentId color parent d c).1
  | move {s : TreeState} (nodeId : Nat) (newParentId : Option Nat) (pos : Int)
      (h : Reachable s) : Reachable (moveNode s nodeId newParentId pos).1
  | remove {s : TreeState} (nodeId : Nat) (h : Reachable s) :
      Reachable (removeNode s nodeId).1
  | promote {s : TreeState} (nodeId : Nat) (h : Reachable s) :
      Reachable (promoteNode s nodeId).1
  | demote {s : TreeState} (nodeId : Nat) (h : Reachable s) :
      Reachable (demoteNode s nodeId).1

/-! ## Claim C8: `findPath` — defs -/

/-- Undirected adjacency used by `findPath`: a node's neighbours are its
parent and its children (a `ParentRel` edge in either direction). -/
def Adj (s : TreeState) (x y : Nat) : Prop :=
  ParentRel s x y ∨ ParentRel s y x

/-- `IsWalk s a b p`: `p` is a walk from `a` to `b` in the undirected tree
graph: it starts at `a`, ends at `b`, and consecutive ids are adjacent. -/
def IsWalk (s : TreeState) (a b : Nat) (p : List Nat) : Prop :=
  p.head? = some a ∧ p.getLast? = some b ∧ p.Chain' (Adj s)

/-- A duplicate-free walk. -/
def SimplePath (s : TreeState) (a b : Nat) (p : List Nat) : Prop :=
  IsWalk s a b p ∧ p.Nodup

/-- One enqueue of `findPath`'s BFS (part_008, lines 207–220): push
`path ++ [c]` and mark `c` visited, unless `c` is already visited. -/
def bfsPush (path : List Nat) (qv : List (List Nat) × List Nat) (c : Nat) :
    List (List Nat) × List Nat :=
  if c ∈ qv.2 then qv else (qv.1 ++ [path ++ [c]], c :: qv.2)

/-- Expansion of a dequeued `findPath` path: enqueue the current node's
unvisited children in order, then its unvisited parent. -/
def bfsExpand (path : List Nat) (children : List Nat) (parent : Option Nat)
    (qv : List (List Nat) × List Nat) : List (List Nat) × List Nat :=
  match parent with
  | none => children.foldl (bfsPush path) qv
  | some p => bfsPush path (children.foldl (bfsPush path) qv) p

/-- The BFS loop of `FlowyConnections.findPath` (part_008, lines 198–222),
with an explicit iteration budget: `none` means the budget ran out (the JS
loop would still be running), `some none` models the loop exiting with
`return null`, and `some (some p)` models `return path`.  Node objects in
queue paths are represented by their ids. -/
def findPathLoop (s : TreeState) (endId : Nat) :
    Nat → List (List Nat) → List Nat → Option (Option (List Nat))
  | 0, _, _ => none
  | _ + 1, [], _ => some none
  | fuel + 1, path :: queue, visited =>
    match path.getLast? with
    | none => findPathLoop s endId fuel queue visited
    | some cur =>
      if cur = endId then some (some path)
      else
        match getNodeById s cur with
        | none => findPathLoop s endId fuel queue visited
        | some node =>
          findPathLoop s endId fuel
            (bfsExpand path node.children node.parent (queue, visited)).1
            (bfsExpand path node.children node.parent (queue, visited)).2

/-- `FlowyConnections.findPath` (part_008, lines 186–224): both endpoints
are resolved first (`null` if either is unknown), then the BFS runs; a
budget of `|nodes| + 1` iterations is enough for the loop to finish on
well-formed trees (`findPathLoop_isSome`). -/
def findPath (s : TreeState) (startId endId : Nat) : Option (List Nat) :=
  match getNodeById s startId, getNodeById s endId with
  | some _, some _ =>
    (findPathLoop s endId (s.nodes.length + 1) [[startId]] [startId]).getD none
  | _, _ => none

/-- The tree `A → [B, C]` of the spec's `findPath` example (ids `0 → [1, 2]`). -/
def pathExampleTree : TreeState :=
  (addNode (addNode (addNode TreeState.empty
    "A" "Person" "#111111" none true true).1
    "B" "Person" "#222222" (some 0) true true).1
    "C" "Person" "#333333" (some 0) true true).1

/-- Loop invariant of the `findPath` BFS relating the queue and the
visited set to the start and end ids. -/
structure BfsInv (s : TreeState) (a endId : Nat) (queue : List (List Nat))
    (visited : List Nat) : Prop where
  nonempty : ∀ p ∈ queue, p ≠ []
  paths : ∀ p ∈ queue, p.head? = some a ∧ p.Chain' (Adj s) ∧ p.Nodup
  inVisited : ∀ p ∈ queue, ∀ x ∈ p, x ∈ visited
  visIds : ∀ v ∈ visited, v ∈ ids s
  startMem : a ∈ visited
  closed : ∀ v ∈ visited, (∃ p ∈ queue, p.getLast? = some v) ∨
    (∀ y, Adj s v y → y ∈ visited)
  endWitness : endId ∈ visited → ∃ p ∈ queue, p.getLast? = some endId

/-- The drag-drop helper `FlowyDragDrop.isDescendant` (part_010, lines
1621–1628) walks the parent chain with NO visited set:
`let current = node.parent; while (current) { if (current.id === ancestor.id)
return true; current = current.parent; } return false;`.  `fuel` counts
remaining loop iterations; `none` means the budget ran out — and
`C6_counterexample` shows that on a parent cycle avoiding the ancestor NO
budget suffices, i.e. the JS loop never terminates there.  A parent id that
resolves to no node has no counterpart in the JS object graph (`current`
would be falsy, ending the loop with `false`). -/
def jsIsDescendantLoop (s : TreeState) (ancestorId : Nat) :
    Option Nat → Nat → Option Bool
  | _, 0 => none
  | none, _ + 1 => some false
  | some cur, fuel + 1 =>
    if cur = ancestorId then some true
    else
      match getNodeById s cur with
      | none => some false
      | some node => jsIsDescendantLoop s ancestorId node.parent fuel

/-- `FlowyDragDrop.isDescendant(ancestor, node)`: the chain walk starting
from `node.parent`. -/
def jsIsDescendant (s : TreeState) (ancestor node : FlowyNode) (fuel : Nat) :
    Option Bool :=
  jsIsDescendantLoop s ancestor.id node.parent fuel

/-- A corrupted model whose parent links form the two-cycle `0 ↔ 1`, with a
third (potential ancestor) node `2` outside the cycle. -/
def cycleTree : TreeState :=
  ⟨[⟨0, "a", "c", "#000000", some 1, [], true, true⟩,
    ⟨1, "b", "c", "#000000", some 0, [], true, true⟩,
    ⟨2, "anc", "c", "#000000", none, [], true, true⟩], none, 3⟩


/-! ## Basic lookup and update lemmas -/

theorem getNodeById_mem {s : TreeState} {i : Nat} {n : FlowyNode}
    (h : getNodeById s i = some n) : n ∈ s.nodes ∧ n.id = i := by
  have h1 := List.mem_of_find?_eq_some h
  have h2 := List.find?_some h
  exact ⟨h1, by simpa using h2⟩

theorem getNodeById_eq_some_self {s : TreeState} {n : FlowyNode}
    (hnodup : (ids s).Nodup) (hn : n ∈ s.nodes) : getNodeById s n.id = some n := by
  rcases h : getNodeById s n.id with _ | m
  · exfalso
    have hmem := List.find?_eq_none.mp h n hn
    simp at hmem
  · rcases getNodeById_mem h with ⟨hm, hmid⟩
    have : m = n := by
      have := List.inj_on_of_nodup_map (f := fun x : FlowyNode => x.id) (by simpa [ids] using hnodup)
      exact this hm hn hmid
    rw [this]

theorem getNodeById_isSome_iff {s : TreeState} {i : Nat} :
    (getNodeById s i).isSome ↔ i ∈ ids s := by
  constructor
  · intro h
    rcases Option.isSome_iff_exists.mp h with ⟨n, hn⟩
    rcases getNodeById_mem hn with ⟨h1, h2⟩
    exact h2 ▸ List.mem_map_of_mem _ h1
  · intro h
    rcases List.mem_map.mp h with ⟨n, hn, hid⟩
    exact List.find?_isSome.mpr ⟨n, hn, by simpa using hid⟩

theorem getNodeById_eq_none_iff {s : TreeState} {i : Nat} :
    getNodeById s i = none ↔ i ∉ ids s := by
  rw [← getNodeById_isSome_iff, Option.not_isSome_iff_eq_none]

/-- Looking a node up after an id-preserving single-node rewrite. -/
theorem getNodeById_updateNode {s : TreeState} {i j : Nat} {f : FlowyNode → FlowyNode}
    (hf : ∀ n, (f n).id = n.id) :
    getNodeById (updateNode s i f) j =
      (getNodeById s j).map (fun n => if n.id = i then f n else n) := by
  unfold getNodeById updateNode
  simp only
  rw [List.find?_map]
  have hpred : ((fun n : FlowyNode => decide (n.id = j)) ∘ fun n => if n.id = i then f n else n)
      = fun n : FlowyNode => decide (n.id = j) := by
    funext n
    by_cases h : n.id = i <;> simp [Function.comp, h, hf]
  rw [hpred]

theorem ids_updateNode {s : TreeState} {i : Nat} {f : FlowyNode → FlowyNode}
    (hf : ∀ n, (f n).id = n.id) : ids (updateNode s i f) = ids s := by
  unfold ids updateNode
  simp only [List.map_map]
  congr 1
  funext n
  by_cases h : n.id = i <;> simp [Function.comp, h, hf]

theorem mem_updateNode_iff {s : TreeState} {i : Nat} {f : FlowyNode → FlowyNode}
    {m : FlowyNode} :
    m ∈ (updateNode s i f).nodes ↔
      ∃ n ∈ s.nodes, m = if n.id = i then f n else n := by
  unfold updateNode
  simp only [List.mem_map]
  constructor
  · rintro ⟨n, hn, rfl⟩; exact ⟨n, hn, rfl⟩
  · rintro ⟨n, hn, rfl⟩; exact ⟨n, hn, rfl⟩

theorem setParent_nodes (s : TreeState) (i : Nat) (p : Option Nat) :
    (setParent s i p).nodes =
      s.nodes.map (fun n => if n.id = i then { n with parent := p } else n) := rfl

theorem modChildren_nodes (s : TreeState) (i : Nat) (f : List Nat → List Nat) :
    (modChildren s i f).nodes =
      s.nodes.map (fun n => if n.id = i then { n with children := f n.children } else n) := rfl

theorem getNodeById_setParent {s : TreeState} {i j : Nat} {p : Option Nat} :
    getNodeById (setParent s i p) j =
      (getNodeById s j).map (fun n => if n.id = i then { n with parent := p } else n) :=
  getNodeById_updateNode (fun _ => rfl)

theorem getNodeById_modChildren {s : TreeState} {i j : Nat} {f : List Nat → List Nat} :
    getNodeById (modChildren s i f) j =
      (getNodeById s j).map
        (fun n => if n.id = i then { n with children := f n.children } else n) :=
  getNodeById_updateNode (fun _ => rfl)

theorem ids_setParent (s : TreeState) (i : Nat) (p : Option Nat) :
    ids (setParent s i p) = ids s := ids_updateNode (fun _ => rfl)

theorem ids_modChildren (s : TreeState) (i : Nat) (f : List Nat → List Nat) :
    ids (modChildren s i f) = ids s := ids_updateNode (fun _ => rfl)

theorem rootId_setParent (s : TreeState) (i : Nat) (p : Option Nat) :
    (setParent s i p).rootId = s.rootId := rfl

theorem rootId_modChildren (s : TreeState) (i : Nat) (f : List Nat → List Nat) :
    (modChildren s i f).rootId = s.rootId := rfl

/-! ## The parent relation, ancestry, and rootedness -/


theorem parentRel_det {s : TreeState} (hnodup : (ids s).Nodup) {p q c : Nat}
    (h1 : ParentRel s p c) (h2 : ParentRel s q c) : p = q := by
  rcases h1 with ⟨n, hn, hnc, hnp⟩
  rcases h2 with ⟨m, hm, hmc, hmp⟩
  have : n = m :=
    List.inj_on_of_nodup_map (f := fun x : FlowyNode => x.id)
      (by simpa [ids] using hnodup) hn hm (by simpa using hnc.trans hmc.symm)
  rw [this] at hnp
  rw [hnp] at hmp
  exact Option.some_injective _ hmp

theorem acc_no_cycle {r : Nat → Nat → Prop} {a : Nat} (h : Acc r a) :
    ¬ Relation.TransGen r a a := by
  induction h with
  | intro x hx ih =>
    intro hcyc
    rcases Relation.TransGen.tail'_iff.mp hcyc with ⟨b, hab, hba⟩
    exact ih b hba (Relation.TransGen.head' hba hab)

/-- An id that is accessible has no self-ancestry. -/
theorem rooted_irrefl {s : TreeState} (h : Rooted s) (a : Nat) : ¬ Ancestor s a a :=
  acc_no_cycle (h a)

/-- Transfer of accessibility to a modified state along an unchanged chain:
if every id lying on the (reflexive) ancestor chain of `i` in `s` keeps the
same set of parent edges in `s'`, then accessibility of `i` carries over. -/
theorem acc_transfer_chain {s s' : TreeState} {i : Nat}
    (hacc : Acc (ParentRel s) i)
    (hsame : ∀ j, Relation.ReflTransGen (ParentRel s) j i →
      ∀ p, ParentRel s' p j ↔ ParentRel s p j) :
    Acc (ParentRel s') i := by
  induction hacc with
  | intro x hx ih =>
    constructor
    intro p hp
    have hpx : ParentRel s p x := (hsame x Relation.ReflTransGen.refl p).mp hp
    exact ih p hpx (fun j hj q =>
      hsame j (hj.trans (Relation.ReflTransGen.single hpx)) q)

/-- Re-rooting lemma: if the parent edges of `s'` differ from those of `s`
only at ids in `M`, and every id of `M` is accessible in `s'`, then every id
is accessible in `s'`. -/
theorem rooted_of_changes {s s' : TreeState} {M : Nat → Prop}
    (hM : ∀ m, M m → Acc (ParentRel s') m)
    (hsame : ∀ c, ¬ M c → ∀ p, ParentRel s' p c ↔ ParentRel s p c)
    (hroot : Rooted s) : Rooted s' := by
  intro i
  induction hroot i with
  | intro x hx ih =>
    by_cases hMx : M x
    · exact hM x hMx
    · constructor
      intro p hp
      exact ih p ((hsame x hMx p).mp hp)

/-- Accessibility survives shrinking the edge set. -/
theorem acc_of_subrel {s s' : TreeState} {i : Nat}
    (hsub : ∀ p c, ParentRel s' p c → ParentRel s p c)
    (hacc : Acc (ParentRel s) i) : Acc (ParentRel s') i := by
  induction hacc with
  | intro x hx ih =>
    constructor
    intro p hp
    exact ih p (hsub p x hp)

/-! ## The well-formedness invariant of the tree model -/


theorem WF.empty : WF TreeState.empty := by
  refine ⟨by simp [ids, TreeState.empty], by simp [TreeState.empty], by simp [TreeState.empty],
    by simp [TreeState.empty], ?_, by simp [TreeState.empty]⟩
  intro i
  constructor
  intro p hp
  rcases hp with ⟨n, hn, _⟩
  simp [TreeState.empty] at hn

/-- Under the invariant the children list of a node is exactly the set of
ids whose node points back at it. -/
theorem mem_children_iff {s : TreeState} (hWF : WF s) {n : FlowyNode}
    (hn : n ∈ s.nodes) {c : Nat} : c ∈ n.children ↔ ParentRel s n.id c := by
  constructor
  · intro hc
    rcases hWF.childParent n hn c hc with ⟨m, hm, hmid, hmp⟩
    exact ⟨m, hm, hmid, hmp⟩
  · rintro ⟨m, hm, hmid, hmp⟩
    rcases hWF.parentChild m hm n.id hmp with ⟨m', hm', hm'id, hmem⟩
    have : m' = n :=
      List.inj_on_of_nodup_map (f := fun x : FlowyNode => x.id)
        (by simpa [ids] using hWF.nodupIds) hm' hn (by simpa using hm'id)
    rw [this] at hmem
    rwa [hmid] at hmem

/-- A node's parent reference resolves (to the node that lists it as child). -/
theorem parent_resolves {s : TreeState} (hWF : WF s) {n : FlowyNode}
    (hn : n ∈ s.nodes) {p : Nat} (hp : n.parent = some p) :
    ∃ m, getNodeById s p = some m ∧ m ∈ s.nodes ∧ m.id = p ∧ n.id ∈ m.children := by
  rcases hWF.parentChild n hn p hp with ⟨m, hm, hmid, hmem⟩
  exact ⟨m, hmid ▸ getNodeById_eq_some_self hWF.nodupIds hm, hm, hmid, hmem⟩

/-- Ancestry of a node with a parent decomposes through that parent. -/
theorem ancestor_iff_parent {s : TreeState} (hWF : WF s) {n : FlowyNode}
    (hn : n ∈ s.nodes) {p : Nat} (hp : n.parent = some p) {a : Nat} :
    Ancestor s a n.id ↔ a = p ∨ Ancestor s a p := by
  constructor
  · intro h
    rcases Relation.TransGen.tail'_iff.mp h with ⟨b, hab, hbn⟩
    have hbp : b = p := by
      rcases hbn with ⟨m, hm, hmid, hmp⟩
      have : m = n :=
        List.inj_on_of_nodup_map (f := fun x : FlowyNode => x.id)
          (by simpa [ids] using hWF.nodupIds) hm hn (by simpa using hmid)
      rw [this, hp] at hmp
      exact (Option.some_injective _ hmp).symm
    subst hbp
    rcases (Relation.reflTransGen_iff_eq_or_transGen.mp hab) with h' | h'
    · exact Or.inl h'.symm
    · exact Or.inr h'
  · intro h
    have hstep : ParentRel s p n.id := ⟨n, hn, rfl, hp⟩
    rcases h with rfl | h
    · exact Relation.TransGen.single hstep
    · exact Relation.TransGen.tail h hstep

/-- A parentless node has no ancestors. -/
theorem no_ancestor_of_root {s : TreeState} (hWF : WF s) {n : FlowyNode}
    (hn : n ∈ s.nodes) (hp : n.parent = none) {a : Nat} : ¬ Ancestor s a n.id := by
  intro h
  rcases Relation.TransGen.tail'_iff.mp h with ⟨b, _, hbn⟩
  rcases hbn with ⟨m, hm, hmid, hmp⟩
  have : m = n :=
    List.inj_on_of_nodup_map (f := fun x : FlowyNode => x.id)
      (by simpa [ids] using hWF.nodupIds) hm hn (by simpa using hmid)
  rw [this, hp] at hmp
  exact Option.noConfusion hmp

/-- Ancestors are ids of live nodes. -/
theorem ancestor_mem_ids {s : TreeState} (hWF : WF s) {a b : Nat}
    (h : Ancestor s a b) : a ∈ ids s := by
  induction h with
  | single h =>
    rcases h with ⟨n, hn, _, hp⟩
    rcases hWF.parentChild n hn _ hp with ⟨m, hm, hmid, _⟩
    exact hmid ▸ List.mem_map_of_mem _ hm
  | tail _ _ ih => exact ih

/-! ## Termination and correctness of the `IsDescendant` walk -/


theorem length_filter_mono {α : Type} (l : List α) (q q' : α → Bool)
    (himp : ∀ a, q a = true → q' a = true) :
    (l.filter q).length ≤ (l.filter q').length := by
  induction l with
  | nil => simp
  | cons a t ih =>
    by_cases hq : q a = true
    · simp [List.filter_cons, hq, himp a hq, Nat.succ_le_succ ih]
    · by_cases hq' : q' a = true
      · have e1 : (a :: t).filter q = t.filter q := by simp [List.filter_cons, hq]
        have e2 : (a :: t).filter q' = a :: t.filter q' := by simp [List.filter_cons, hq']
        rw [e1, e2, List.length_cons]
        exact Nat.le_succ_of_le ih
      · have e1 : (a :: t).filter q = t.filter q := by simp [List.filter_cons, hq]
        have e2 : (a :: t).filter q' = t.filter q' := by simp [List.filter_cons, hq']
        rw [e1, e2]
        exact ih

theorem length_filter_lt {α : Type} (l : List α) (q q' : α → Bool)
    (himp : ∀ a, q a = true → q' a = true) (x : α) (hx : x ∈ l)
    (hq : q x = false) (hq' : q' x = true) :
    (l.filter q).length < (l.filter q').length := by
  induction l with
  | nil => simp at hx
  | cons a t ih =>
    rcases List.mem_cons.mp hx with rfl | hx'
    · have e1 : (x :: t).filter q = t.filter q := by simp [List.filter_cons, hq]
      have e2 : (x :: t).filter q' = x :: t.filter q' := by simp [List.filter_cons, hq']
      rw [e1, e2, List.length_cons]
      exact Nat.lt_succ_of_le (length_filter_mono t q q' himp)
    · by_cases hqa : q a = true
      · simp [List.filter_cons, hqa, himp a hqa, Nat.succ_lt_succ (ih hx')]
      · by_cases hq'a : q' a = true
        · have e1 : (a :: t).filter q = t.filter q := by simp [List.filter_cons, hqa]
          have e2 : (a :: t).filter q' = a :: t.filter q' := by simp [List.filter_cons, hq'a]
          rw [e1, e2, List.length_cons]
          exact Nat.lt_succ_of_lt (ih hx')
        · have e1 : (a :: t).filter q = t.filter q := by simp [List.filter_cons, hqa]
          have e2 : (a :: t).filter q' = t.filter q' := by simp [List.filter_cons, hq'a]
          rw [e1, e2]
          exact ih hx'

theorem remainingCount_lt {s : TreeState} {visited : List Nat} {p : Nat}
    {next : FlowyNode} (hnext : next ∈ s.nodes) (hid : next.id = p)
    (hnotin : p ∉ visited) :
    remainingCount s (p :: visited) < remainingCount s visited := by
  refine length_filter_lt s.nodes _ _ ?_ next hnext (by simp [hid]) (by simp [hid, hnotin])
  intro a ha
  simp only [decide_eq_true_eq] at ha ⊢
  intro hmem
  exact ha (List.mem_cons_of_mem _ hmem)

/-- The `IsDescendant` loop halts within `remainingCount + 1` iterations on
EVERY model, including corrupted ones containing parent cycles or dangling
parent references. -/
theorem isDescendantLoop_isSome (s : TreeState) (ancestorId : Nat) :
    ∀ fuel current visited, remainingCount s visited < fuel →
      (isDescendantLoop s ancestorId current visited fuel).isSome := by
  intro fuel
  induction fuel with
  | zero => intro current visited h; omega
  | succ fuel ih =>
    intro current visited hlt
    unfold isDescendantLoop
    rcases hpar : current.parent with _ | p
    · simp
    · by_cases h1 : p = ancestorId
      · simp [h1]
      · by_cases h2 : p ∈ visited
        · simp [h1, h2]
        · rcases hlook : getNodeById s p with _ | next
          · simp [h1, h2, hlook]
          · simp only [h1, h2, hlook, if_neg, if_pos]
            rcases getNodeById_mem hlook with ⟨hmem, hid⟩
            have : remainingCount s (p :: visited) < fuel :=
              Nat.lt_of_lt_of_le (remainingCount_lt hmem hid h2) (Nat.lt_succ_iff.mp hlt)
            simpa [h1, h2] using ih next (p :: visited) this

/-- On a well-formed model the walk computes exactly strict ancestry. -/
theorem isDescendantLoop_true_iff {s : TreeState} (hWF : WF s) (ancestorId : Nat) :
    ∀ fuel current visited, current ∈ s.nodes →
      (∀ v ∈ visited, v = ancestorId ∨ ¬ Ancestor s v current.id) →
      remainingCount s visited < fuel →
      (isDescendantLoop s ancestorId current visited fuel = some true ↔
        Ancestor s ancestorId current.id) := by
  intro fuel
  induction fuel with
  | zero => intro current visited _ _ h; omega
  | succ fuel ih =>
    intro current visited hcur hvis hlt
    unfold isDescendantLoop
    rcases hpar : current.parent with _ | p
    · simp only [Option.some.injEq]
      constructor
      · intro h; exact absurd h (by simp)
      · intro h; exact absurd h (no_ancestor_of_root hWF hcur hpar)
    · have hstep : ParentRel s p current.id := ⟨current, hcur, rfl, hpar⟩
      by_cases h1 : p = ancestorId
      · subst h1
        simp only [if_pos rfl]
        exact ⟨fun _ => Relation.TransGen.single hstep, fun _ => rfl⟩
      · by_cases h2 : p ∈ visited
        · exfalso
          rcases hvis p h2 with h | h
          · exact h1 h
          · exact h (Relation.TransGen.single hstep)
        · rcases parent_resolves hWF hcur hpar with ⟨m, hlook, hm, hmid, _⟩
          simp only [if_neg h1, if_neg h2, hlook]
          have hrec := ih m (p :: visited) hm ?_ ?_
          · rw [hrec, hmid]
            rw [ancestor_iff_parent hWF hcur hpar]
            constructor
            · exact Or.inr
            · rintro (rfl | h)
              · exact absurd rfl h1
              · exact h
          · intro v hv
            rcases List.mem_cons.mp hv with rfl | hv'
            · right
              rw [hmid]
              exact rooted_irrefl hWF.rooted v
            · rcases hvis v hv' with h | h
              · exact Or.inl h
              · right
                intro hanc
                rw [hmid] at hanc
                exact h (Relation.TransGen.tail hanc hstep)
          · exact Nat.lt_of_lt_of_le (remainingCount_lt hm hmid h2) (Nat.lt_succ_iff.mp hlt)

/-! ## Chains of parent links and the semantics of `GetDescendants` -/


theorem reflTransGen_iff_reachK {s : TreeState} {a b : Nat} :
    Relation.ReflTransGen (ParentRel s) a b ↔ ∃ k, ReachK s k a b := by
  constructor
  · intro h
    induction h using Relation.ReflTransGen.head_induction_on with
    | refl => exact ⟨0, rfl⟩
    | head hstep _ ih =>
      rcases ih with ⟨k, hk⟩
      exact ⟨k + 1, _, hstep, hk⟩
  · rintro ⟨k, hk⟩
    induction k generalizing a with
    | zero => rw [hk]
    | succ k ih =>
      rcases hk with ⟨c, hstep, hrest⟩
      exact Relation.ReflTransGen.head hstep (ih hrest)

theorem ancestor_iff_reachK {s : TreeState} {a b : Nat} :
    Ancestor s a b ↔ ∃ k, ReachK s (k + 1) a b := by
  constructor
  · intro h
    rcases Relation.TransGen.head'_iff.mp h with ⟨c, hstep, hrest⟩
    rcases reflTransGen_iff_reachK.mp hrest with ⟨k, hk⟩
    exact ⟨k, c, hstep, hk⟩
  · rintro ⟨k, c, hstep, hrest⟩
    exact Relation.TransGen.head' hstep (reflTransGen_iff_reachK.mpr ⟨k, hrest⟩)

theorem reachK_chain {s : TreeState} :
    ∀ {k a b}, ReachK s k a b →
      ∃ l : List Nat, List.Chain' (ParentRel s) (a :: l) ∧
        (a :: l).getLast (by simp) = b ∧ l.length = k := by
  intro k
  induction k with
  | zero =>
    intro a b hab
    exact ⟨[], List.chain'_singleton a, hab, rfl⟩
  | succ k ih =>
    intro a b hab
    rcases hab with ⟨c, hstep, hrest⟩
    rcases ih hrest with ⟨l, hchain, hlast, hlen⟩
    refine ⟨c :: l, List.chain'_cons.mpr ⟨hstep, hchain⟩, ?_, by simp [hlen]⟩
    rw [List.getLast_cons_cons]
    exact hlast

theorem chain'_head_transGen {s : TreeState} :
    ∀ {l : List Nat} {a : Nat}, List.Chain' (ParentRel s) (a :: l) →
      ∀ b ∈ l, Relation.TransGen (ParentRel s) a b := by
  intro l
  induction l with
  | nil => intro a _ b hb; simp at hb
  | cons c l' ih =>
    intro a hchain b hb
    rcases List.chain'_cons.mp hchain with ⟨hstep, hchain'⟩
    rcases List.mem_cons.mp hb with rfl | hb'
    · exact Relation.TransGen.single hstep
    · exact Relation.TransGen.head hstep (ih hchain' b hb')

theorem chain'_nodup_of_rooted {s : TreeState} (hroot : Rooted s) :
    ∀ l : List Nat, List.Chain' (ParentRel s) l → l.Nodup := by
  intro l
  induction l with
  | nil => simp
  | cons a l' ih =>
    intro hchain
    have htail : List.Chain' (ParentRel s) l' := hchain.tail
    refine List.nodup_cons.mpr ⟨?_, ih htail⟩
    intro hmem
    exact acc_no_cycle (hroot a) (chain'_head_transGen hchain a hmem)

theorem chain'_tail_mem_ids {s : TreeState} :
    ∀ {l : List Nat} {a : Nat}, List.Chain' (ParentRel s) (a :: l) →
      ∀ b ∈ l, b ∈ ids s := by
  intro l
  induction l with
  | nil => intro a _ b hb; simp at hb
  | cons c l' ih =>
    intro a hchain b hb
    rcases List.chain'_cons.mp hchain with ⟨hstep, hchain'⟩
    rcases List.mem_cons.mp hb with rfl | hb'
    · rcases hstep with ⟨n, hn, hid, _⟩
      exact hid ▸ List.mem_map_of_mem _ hn
    · exact ih hchain' b hb'

theorem nodup_length_le {l L : List Nat} (hl : l.Nodup) (hsub : ∀ x ∈ l, x ∈ L) :
    l.length ≤ L.length := by
  calc l.length = l.toFinset.card := (List.toFinset_card_of_nodup hl).symm
    _ ≤ L.toFinset.card := Finset.card_le_card (fun x hx =>
        List.mem_toFinset.mpr (hsub x (List.mem_toFinset.mp hx)))
    _ ≤ L.length := List.toFinset_card_le L

/-- On a rooted model, any descending path has at most `|nodes|` vertices. -/
theorem reachK_length_bound {s : TreeState} (hWF : WF s) {k : Nat}
    {node : FlowyNode} (hnode : node ∈ s.nodes) {b : Nat}
    (h : ReachK s k node.id b) : k + 1 ≤ s.nodes.length := by
  rcases reachK_chain h with ⟨l, hchain, _, hlen⟩
  have hnodup : (node.id :: l).Nodup := chain'_nodup_of_rooted hWF.rooted _ hchain
  have hsub : ∀ x ∈ node.id :: l, x ∈ ids s := by
    intro x hx
    rcases List.mem_cons.mp hx with rfl | hx'
    · exact List.mem_map_of_mem _ hnode
    · exact chain'_tail_mem_ids hchain x hx'
  have := nodup_length_le hnodup hsub
  simpa [ids, hlen] using this

theorem getDescendantsFuel_sound {s : TreeState} (hWF : WF s) :
    ∀ fuel (node : FlowyNode), node ∈ s.nodes →
      ∀ m ∈ getDescendantsFuel s fuel node, m ∈ s.nodes ∧ Ancestor s node.id m.id := by
  intro fuel
  induction fuel with
  | zero => intro node _ m hm; simp [getDescendantsFuel] at hm
  | succ fuel ih =>
    intro node hnode m hm
    simp only [getDescendantsFuel, List.mem_flatMap] at hm
    rcases hm with ⟨c, hc, hm⟩
    rcases List.mem_filterMap.mp hc with ⟨cid, hcid, hlook⟩
    rcases getNodeById_mem hlook with ⟨hcm, hcidm⟩
    have hrel : ParentRel s node.id c.id :=
      hcidm ▸ (mem_children_iff hWF hnode).mp hcid
    rcases List.mem_cons.mp hm with rfl | hm'
    · exact ⟨hcm, Relation.TransGen.single hrel⟩
    · rcases ih c hcm m hm' with ⟨hmm, hanc⟩
      exact ⟨hmm, Relation.TransGen.head hrel hanc⟩

theorem getDescendantsFuel_complete {s : TreeState} (hWF : WF s) :
    ∀ k fuel (node m : FlowyNode), node ∈ s.nodes → m ∈ s.nodes →
      ReachK s (k + 1) node.id m.id → k + 1 ≤ fuel →
      m ∈ getDescendantsFuel s fuel node := by
  intro k
  induction k with
  | zero =>
    intro fuel node m hnode hm hreach hfuel
    rcases hreach with ⟨c, hstep, hc⟩
    rcases hc with rfl
    rcases fuel with _ | fuel
    · omega
    · have hcid : m.id ∈ node.children := (mem_children_iff hWF hnode).mpr hstep
      simp only [getDescendantsFuel, List.mem_flatMap]
      refine ⟨m, ?_, List.mem_cons_self _ _⟩
      exact List.mem_filterMap.mpr ⟨m.id, hcid, getNodeById_eq_some_self hWF.nodupIds hm⟩
  | succ k ih =>
    intro fuel node m hnode hm hreach hfuel
    rcases hreach with ⟨c, hstep, hrest⟩
    rcases fuel with _ | fuel
    · omega
    · have hcids : c ∈ ids s := by
        rcases hstep with ⟨n, hn, hid, _⟩
        exact hid ▸ List.mem_map_of_mem _ hn
      rcases List.mem_map.mp hcids with ⟨cn, hcn, hcnid⟩
      have hcid : c ∈ node.children := (mem_children_iff hWF hnode).mpr hstep
      simp only [getDescendantsFuel, List.mem_flatMap]
      refine ⟨cn, ?_, ?_⟩
      · exact List.mem_filterMap.mpr ⟨c, hcid,
          hcnid ▸ getNodeById_eq_some_self hWF.nodupIds hcn⟩
      · exact List.mem_cons_of_mem _ (ih fuel cn m hcn hm (hcnid ▸ hrest) (by omega))

/-- `GetDescendants` computes exactly the strict descendants. -/
theorem mem_getDescendants_iff {s : TreeState} (hWF : WF s) {node : FlowyNode}
    (hnode : node ∈ s.nodes) {m : FlowyNode} :
    m ∈ getDescendants s node ↔ m ∈ s.nodes ∧ Ancestor s node.id m.id := by
  constructor
  · exact fun h => getDescendantsFuel_sound hWF _ node hnode m h
  · rintro ⟨hm, hanc⟩
    rcases ancestor_iff_reachK.mp hanc with ⟨k, hk⟩
    have hb := reachK_length_bound hWF hnode hk
    exact getDescendantsFuel_complete hWF k s.nodes.length node m hnode hm hk (by omega)

/-! ## Small consequences of the invariant -/

theorem children_sub_ids {s : TreeState} (hWF : WF s) {n : FlowyNode}
    (hn : n ∈ s.nodes) : ∀ c ∈ n.children, c ∈ ids s := by
  intro c hc
  rcases hWF.childParent n hn c hc with ⟨m, hm, hmid, _⟩
  exact hmid ▸ List.mem_map_of_mem _ hm

theorem mem_ids_lt_nextId {s : TreeState} (hWF : WF s) {i : Nat}
    (h : i ∈ ids s) : i < s.nextId := by
  rcases List.mem_map.mp h with ⟨n, hn, rfl⟩
  exact hWF.fresh n hn

theorem nextId_not_mem_ids {s : TreeState} (hWF : WF s) : s.nextId ∉ ids s := by
  intro h
  exact absurd (mem_ids_lt_nextId hWF h) (by omega)

theorem no_self_parent {s : TreeState} (hWF : WF s) {n : FlowyNode}
    (hn : n ∈ s.nodes) : n.parent ≠ some n.id := by
  intro h
  exact rooted_irrefl hWF.rooted n.id (Relation.TransGen.single ⟨n, hn, rfl, h⟩)

theorem acc_of_parent_edge {s' : TreeState} {i p : Nat}
    (hnode : ∀ n ∈ s'.nodes, n.id = i → n.parent = some p)
    (hacc : Acc (ParentRel s') p) : Acc (ParentRel s') i := by
  constructor
  intro q hq
  rcases hq with ⟨n, hn, hid, hpar⟩
  have := hnode n hn hid
  rw [this] at hpar
  rw [← Option.some_injective _ hpar]
  exact hacc

theorem acc_of_no_parent {s' : TreeState} {i : Nat}
    (hnode : ∀ n ∈ s'.nodes, n.id = i → n.parent = none) :
    Acc (ParentRel s') i := by
  constructor
  intro q hq
  rcases hq with ⟨n, hn, hid, hpar⟩
  rw [hnode n hn hid] at hpar
  exact Option.noConfusion hpar

/-! ## Invariant preservation: `AddNode` -/

/-- Appending a fresh parentless node preserves the invariant. -/
theorem wf_append_root {s : TreeState} (hWF : WF s) {newNode : FlowyNode}
    (hid : newNode.id = s.nextId) (hpar : newNode.parent = none)
    (hch : newNode.children = []) {t : TreeState}
    (ht : t.nodes = s.nodes ++ [newNode]) (htn : t.nextId = s.nextId + 1) : WF t := by
  have hids : ids t = ids s ++ [s.nextId] := by
    simp [ids, ht, hid]
  refine ⟨?_, ?_, ?_, ?_, ?_, ?_⟩
  · rw [hids]
    simp only [List.nodup_append, List.nodup_cons, List.nodup_nil]
    refine ⟨hWF.nodupIds, by simp, ?_⟩
    intro a ha hb
    simp only [List.mem_singleton] at hb
    subst hb
    exact nextId_not_mem_ids hWF ha
  · intro n hn
    rw [ht] at hn
    rcases List.mem_append.mp hn with h | h
    · exact hWF.childNodup n h
    · rcases List.mem_singleton.mp h with rfl
      simp [hch]
  · intro n hn ch hchm
    rw [ht] at hn
    rcases List.mem_append.mp hn with h | h
    · rcases hWF.childParent n h ch hchm with ⟨m, hm, hmid, hmp⟩
      exact ⟨m, by simp [ht, hm], hmid, hmp⟩
    · rcases List.mem_singleton.mp h with rfl
      rw [hch] at hchm
      simp at hchm
  · intro n hn p hpp
    rw [ht] at hn
    rcases List.mem_append.mp hn with h | h
    · rcases hWF.parentChild n h p hpp with ⟨m, hm, hmid, hmm⟩
      exact ⟨m, by simp [ht, hm], hmid, hmm⟩
    · rcases List.mem_singleton.mp h with rfl
      rw [hpar] at hpp
      exact Option.noConfusion hpp
  · have hsub : ∀ p cc, ParentRel t p cc → ParentRel s p cc := by
      rintro p cc ⟨n, hn, hnid, hpp⟩
      rw [ht] at hn
      rcases List.mem_append.mp hn with h | h
      · exact ⟨n, h, hnid, hpp⟩
      · rcases List.mem_singleton.mp h with rfl
        rw [hpar] at hpp
        exact Option.noConfusion hpp
    exact fun i => acc_of_subrel hsub (hWF.rooted i)
  · intro n hn
    rw [ht] at hn
    rw [htn]
    rcases List.mem_append.mp hn with h | h
    · exact Nat.lt_succ_of_lt (hWF.fresh n h)
    · rcases List.mem_singleton.mp h with rfl
      simp [hid]

/-- Appending a fresh node under a live parent (and recording it in the
parent's children) preserves the invariant. -/
theorem wf_append_adopt {s : TreeState} (hWF : WF s) {pid : Nat}
    (hpid : pid ∈ ids s) {newNode : FlowyNode}
    (hid : newNode.id = s.nextId) (hpar : newNode.parent = some pid)
    (hch : newNode.children = []) {t : TreeState}
    (ht : t.nodes = s.nodes.map
      (fun n => if n.id = pid then { n with children := n.children ++ [newNode.id] } else n)
      ++ [newNode])
    (htn : t.nextId = s.nextId + 1) : WF t := by
  set F : FlowyNode → FlowyNode :=
    fun n => if n.id = pid then { n with children := n.children ++ [newNode.id] } else n with hF
  have hFid : ∀ n, (F n).id = n.id := by
    intro n
    by_cases h : n.id = pid <;> simp [hF, h]
  have hFpar : ∀ n, (F n).parent = n.parent := by
    intro n
    by_cases h : n.id = pid <;> simp [hF, h]
  have hmemt : ∀ m ∈ t.nodes, (∃ n ∈ s.nodes, m = F n) ∨ m = newNode := by
    intro m hm
    rw [ht] at hm
    rcases List.mem_append.mp hm with h | h
    · rcases List.mem_map.mp h with ⟨n, hn, rfl⟩
      exact Or.inl ⟨n, hn, rfl⟩
    · exact Or.inr (List.mem_singleton.mp h)
  have hmemF : ∀ n ∈ s.nodes, F n ∈ t.nodes := by
    intro n hn
    rw [ht]
    exact List.mem_append.mpr (Or.inl (List.mem_map.mpr ⟨n, hn, rfl⟩))
  have hmemNew : newNode ∈ t.nodes := by
    rw [ht]; simp
  have hids : ids t = ids s ++ [s.nextId] := by
    simp only [ids, ht, List.map_append, List.map_map, List.map_singleton, hid]
    congr 1
    exact List.map_congr_left (fun n _ => hFid n)
  refine ⟨?_, ?_, ?_, ?_, ?_, ?_⟩
  · rw [hids]
    simp only [List.nodup_append, List.nodup_cons, List.nodup_nil]
    refine ⟨hWF.nodupIds, by simp, ?_⟩
    intro a ha hb
    simp only [List.mem_singleton] at hb
    subst hb
    exact nextId_not_mem_ids hWF ha
  · intro n hn
    rcases hmemt n hn with ⟨m, hm, rfl⟩ | rfl
    · by_cases h : m.id = pid
      · simp only [hF, if_pos h]
        rw [List.nodup_append]
        refine ⟨hWF.childNodup m hm, by simp, ?_⟩
        intro a ha hb
        simp only [List.mem_singleton] at hb
        subst hb
        rw [hid] at ha
        exact absurd (mem_ids_lt_nextId hWF (children_sub_ids hWF hm _ ha)) (by omega)
      · simpa [hF, if_neg h] using hWF.childNodup m hm
    · simp [hch]
  · intro n hn ch hchm
    rcases hmemt n hn with ⟨m, hm, rfl⟩ | rfl
    · rw [hFid m]
      by_cases h : m.id = pid
      · simp only [hF, if_pos h] at hchm
        rcases List.mem_append.mp hchm with hch' | hch'
        · rcases hWF.childParent m hm ch hch' with ⟨w, hw, hwid, hwp⟩
          exact ⟨F w, hmemF w hw, by rw [hFid w, hwid], by rw [hFpar w, hwp]⟩
        · rcases List.mem_singleton.mp hch' with rfl
          exact ⟨newNode, hmemNew, rfl, by rw [hpar, h]⟩
      · simp only [hF, if_neg h] at hchm
        rcases hWF.childParent m hm ch hchm with ⟨w, hw, hwid, hwp⟩
        exact ⟨F w, hmemF w hw, by rw [hFid w, hwid], by rw [hFpar w, hwp]⟩
    · rw [hch] at hchm
      simp at hchm
  · intro n hn p hpp
    rcases hmemt n hn with ⟨m, hm, rfl⟩ | rfl
    · rw [hFpar m] at hpp
      rcases hWF.parentChild m hm p hpp with ⟨w, hw, hwid, hwm⟩
      rw [hFid m]
      refine ⟨F w, hmemF w hw, by rw [hFid w, hwid], ?_⟩
      by_cases h : w.id = pid
      · simp only [hF, if_pos h]
        exact List.mem_append.mpr (Or.inl hwm)
      · simpa [hF, if_neg h] using hwm
    · rw [hpar] at hpp
      rcases Option.some_injective _ hpp with rfl
      rcases List.mem_map.mp hpid with ⟨w, hw, hwid⟩
      refine ⟨F w, hmemF w hw, by rw [hFid w, hwid], ?_⟩
      simp only [hF, if_pos hwid]
      simp
  · have hedge : ∀ p cc, ParentRel t p cc →
        (cc = s.nextId ∧ p = pid) ∨ ParentRel s p cc := by
      rintro p cc ⟨n, hn, hnid, hpp⟩
      rcases hmemt n hn with ⟨m, hm, rfl⟩ | rfl
      · exact Or.inr ⟨m, hm, by rw [← hFid m, hnid], by rw [← hFpar m, hpp]⟩
      · rw [hpar] at hpp
        exact Or.inl ⟨by rw [← hnid, hid], (Option.some_injective _ hpp).symm⟩
    have hedgeback : ∀ p cc, ParentRel s p cc → ParentRel t p cc := by
      rintro p cc ⟨n, hn, hnid, hpp⟩
      exact ⟨F n, hmemF n hn, by rw [hFid n, hnid], by rw [hFpar n, hpp]⟩
    have haccpid : Acc (ParentRel t) pid := by
      refine acc_transfer_chain (hWF.rooted pid) ?_
      intro j hj p
      have hjids : j ∈ ids s := by
        rcases Relation.reflTransGen_iff_eq_or_transGen.mp hj with rfl | hja
        · exact hpid
        · exact ancestor_mem_ids hWF hja
      have hjne : j ≠ s.nextId := by
        intro he
        exact absurd (mem_ids_lt_nextId hWF (he ▸ hjids)) (by omega)
      refine ⟨fun h => ?_, fun h => hedgeback p j h⟩
      rcases hedge p j h with ⟨h1, _⟩ | h1
      · exact absurd h1 hjne
      · exact h1
    have haccnew : Acc (ParentRel t) s.nextId := by
      refine acc_of_parent_edge ?_ haccpid
      intro n hn hnid
      rcases hmemt n hn with ⟨m, hm, rfl⟩ | rfl
      · exfalso
        rw [hFid m] at hnid
        exact absurd (hWF.fresh m hm) (by omega)
      · exact hpar
    refine rooted_of_changes (M := fun i => i = s.nextId) ?_ ?_ hWF.rooted
    · rintro m rfl
      exact haccnew
    · intro cc hcc p
      refine ⟨fun h => ?_, fun h => hedgeback p cc h⟩
      rcases hedge p cc h with ⟨h1, _⟩ | h1
      · exact absurd h1 hcc
      · exact h1
  · intro n hn
    rw [htn]
    rcases hmemt n hn with ⟨m, hm, rfl⟩ | rfl
    · rw [hFid m]
      exact Nat.lt_succ_of_lt (hWF.fresh m hm)
    · rw [hid]
      omega

/-- `AddNode` preserves the invariant whenever the supplied parent (if any)
is a live node of the model. -/
theorem wf_addNode {s : TreeState} (hWF : WF s) {name componentId color : String}
    {parent : Option Nat} (hp : ∀ pid, parent = some pid → pid ∈ ids s)
    {d c : Bool} : WF (addNode s name componentId color parent d c).1 := by
  unfold addNode
  by_cases hbad : isNullOrWhiteSpace name ∨ isNullOrWhiteSpace componentId ∨
    isNullOrWhiteSpace color
  · simpa [hbad] using hWF
  · simp only [if_neg hbad]
    rcases hpar : parent with _ | pid
    · by_cases hroot : s.rootId = none
      · rw [if_pos hroot]
        exact wf_append_root hWF rfl rfl rfl rfl rfl
      · rw [if_neg hroot]
        exact wf_append_root hWF rfl rfl rfl rfl rfl
    · have hpid : pid ∈ ids s := hp pid hpar
      have hlt := mem_ids_lt_nextId hWF hpid
      exact @wf_append_adopt s hWF pid hpid
        { id := s.nextId, name := name, componentId := componentId, color := color,
          parent := some pid, children := [], isDraggable := d, canHaveChildren := c }
        rfl rfl rfl _
        (by
          rw [modChildren_nodes]
          show (s.nodes ++ [_]).map _ = _
          rw [List.map_append]
          congr 1
          rw [List.map_singleton, if_neg]
          show ¬ s.nextId = pid
          omega) rfl

/-! ## Closed form of `MoveNode` -/


theorem treeState_eq {a b : TreeState} (h1 : a.nodes = b.nodes)
    (h2 : a.rootId = b.rootId) (h3 : a.nextId = b.nextId) : a = b := by
  cases a
  cases b
  simp_all

theorem eraseStep_id (nodeId : Nat) (oldParent : Option Nat) (m : FlowyNode) :
    (eraseStep nodeId oldParent m).id = m.id := by
  rcases oldParent with _ | op
  · rfl
  · by_cases h : m.id = op <;> simp [eraseStep, h]

theorem parentStep_id (nodeId : Nat) (np : Option Nat) (m : FlowyNode) :
    (parentStep nodeId np m).id = m.id := by
  by_cases h : m.id = nodeId <;> simp [parentStep, h]

theorem insertStep_id (nodeId pid : Nat) (pos : Int) (m : FlowyNode) :
    (insertStep nodeId pid pos m).id = m.id := by
  by_cases h : m.id = pid <;> simp [insertStep, h]

theorem eraseStep_parent (nodeId : Nat) (oldParent : Option Nat) (m : FlowyNode) :
    (eraseStep nodeId oldParent m).parent = m.parent := by
  rcases oldParent with _ | op
  · rfl
  · by_cases h : m.id = op <;> simp [eraseStep, h]

theorem insertStep_parent (nodeId pid : Nat) (pos : Int) (m : FlowyNode) :
    (insertStep nodeId pid pos m).parent = m.parent := by
  by_cases h : m.id = pid <;> simp [insertStep, h]

theorem parentStep_children (nodeId : Nat) (np : Option Nat) (m : FlowyNode) :
    (parentStep nodeId np m).children = m.children := by
  by_cases h : m.id = nodeId <;> simp [parentStep, h]

theorem nextId_setParent (s : TreeState) (i : Nat) (p : Option Nat) :
    (setParent s i p).nextId = s.nextId := rfl

theorem nextId_modChildren (s : TreeState) (i : Nat) (f : List Nat → List Nat) :
    (modChildren s i f).nextId = s.nextId := rfl

theorem detach_spec (s : TreeState) (nodeId : Nat) (oldParent : Option Nat) :
    (detachFromOldParent s nodeId oldParent).nodes = s.nodes.map (eraseStep nodeId oldParent) ∧
    (detachFromOldParent s nodeId oldParent).rootId = s.rootId ∧
    (detachFromOldParent s nodeId oldParent).nextId = s.nextId := by
  rcases oldParent with _ | op
  · refine ⟨?_, rfl, rfl⟩
    show s.nodes = _
    rw [show eraseStep nodeId none = fun m => m from rfl]
    simp
  · exact ⟨rfl, rfl, rfl⟩

theorem getNodeById_detach (s : TreeState) (nodeId : Nat) (oldParent : Option Nat) (j : Nat) :
    getNodeById (detachFromOldParent s nodeId oldParent) j =
      (getNodeById s j).map (eraseStep nodeId oldParent) := by
  rcases oldParent with _ | op
  · show getNodeById s j = _
    rw [show eraseStep nodeId none = fun m => m from rfl]
    rcases getNodeById s j with _ | n <;> rfl
  · show getNodeById (modChildren s op fun cs => cs.erase nodeId) j = _
    rw [getNodeById_modChildren]
    rfl

theorem moveCircularOk_some {s : TreeState} {pid : Nat} {P node : FlowyNode}
    (h : getNodeById s pid = some P) :
    moveCircularOk s node (some pid) = !(isDescendant s node P) := by
  show (match getNodeById s pid with
    | none => false
    | some newParent => !isDescendant s node newParent) = _
  rw [h]

theorem insertIntoParent_some {s2 : TreeState} {pid : Nat} {P : FlowyNode}
    (h : getNodeById s2 pid = some P) (nodeId : Nat) (pos : Int) :
    insertIntoParent s2 nodeId pid pos =
      if 0 ≤ pos ∧ pos < (P.children.length : Int) then
        modChildren s2 pid (fun cs => cs.insertIdx pos.toNat nodeId)
      else
        modChildren s2 pid (fun cs => cs ++ [nodeId]) := by
  unfold insertIntoParent
  rw [h]

/-- Closed form of a successful `MoveNode` to a live new parent. -/
theorem moveNode_some_eq {s : TreeState} (hnodup : (ids s).Nodup)
    {nodeId pid : Nat} {pos : Int} {node newParent0 : FlowyNode}
    (hnode : getNodeById s nodeId = some node)
    (hne : pid ≠ nodeId)
    (hpar : getNodeById s pid = some newParent0)
    (hdesc : isDescendant s node newParent0 = false) :
    moveNode s nodeId (some pid) pos =
      ({ s with nodes := s.nodes.map (fun m =>
          insertStep nodeId pid pos
            (parentStep nodeId (some pid) (eraseStep nodeId node.parent m))) }, true) := by
  unfold moveNode
  simp only [hnode]
  rw [if_neg (show ¬ (some pid = some nodeId) by simp [hne])]
  rw [moveCircularOk_some hpar, hdesc]
  simp only [Bool.not_false, Bool.not_true, Bool.false_eq_true, if_false]
  show (insertIntoParent
      (setParent (detachFromOldParent s nodeId node.parent) nodeId (some pid)) nodeId pid pos,
      true) = _
  have hd := detach_spec s nodeId node.parent
  have h2n : (setParent (detachFromOldParent s nodeId node.parent) nodeId (some pid)).nodes =
      s.nodes.map (fun m => parentStep nodeId (some pid) (eraseStep nodeId node.parent m)) := by
    rw [setParent_nodes, hd.1, List.map_map]
    rfl
  have h2r : (setParent (detachFromOldParent s nodeId node.parent) nodeId (some pid)).rootId =
      s.rootId := by
    rw [rootId_setParent, hd.2.1]
  have h2x : (setParent (detachFromOldParent s nodeId node.parent) nodeId (some pid)).nextId =
      s.nextId := by
    rw [nextId_setParent, hd.2.2]
  have hlook2 : getNodeById
      (setParent (detachFromOldParent s nodeId node.parent) nodeId (some pid)) pid =
      some (parentStep nodeId (some pid) (eraseStep nodeId node.parent newParent0)) := by
    rw [getNodeById_setParent, getNodeById_detach, hpar]
    rfl
  rw [insertIntoParent_some hlook2]
  have hP2c : (parentStep nodeId (some pid) (eraseStep nodeId node.parent newParent0)).children =
      (eraseStep nodeId node.parent newParent0).children := parentStep_children _ _ _
  by_cases hcond : 0 ≤ pos ∧
      pos < (((parentStep nodeId (some pid) (eraseStep nodeId node.parent newParent0)).children.length : Int))
  · rw [if_pos hcond]
    refine congrArg (fun t => (t, true)) ?_
    refine treeState_eq ?_ (by rw [rootId_modChildren, h2r]) (by rw [nextId_modChildren, h2x])
    rw [modChildren_nodes, h2n, List.map_map]
    apply List.map_congr_left
    intro m hm
    simp only [Function.comp]
    by_cases h : m.id = pid
    · have hmp : m = newParent0 := by
        have hms := getNodeById_eq_some_self hnodup hm
        rw [h, hpar] at hms
        exact (Option.some_injective _ hms).symm
      subst hmp
      have hQid : (parentStep nodeId (some pid) (eraseStep nodeId node.parent m)).id = pid := by
        rw [parentStep_id, eraseStep_id]
        exact h
      simp only [insertStep, insFn]
      rw [if_pos hQid, if_pos hQid]
      rw [if_pos hcond]
    · have hQid : ¬ (parentStep nodeId (some pid) (eraseStep nodeId node.parent m)).id = pid := by
        rw [parentStep_id, eraseStep_id]
        exact h
      simp only [insertStep, insFn]
      rw [if_neg hQid, if_neg hQid]
  · rw [if_neg hcond]
    refine congrArg (fun t => (t, true)) ?_
    refine treeState_eq ?_ (by rw [rootId_modChildren, h2r]) (by rw [nextId_modChildren, h2x])
    rw [modChildren_nodes, h2n, List.map_map]
    apply List.map_congr_left
    intro m hm
    simp only [Function.comp]
    by_cases h : m.id = pid
    · have hmp : m = newParent0 := by
        have hms := getNodeById_eq_some_self hnodup hm
        rw [h, hpar] at hms
        exact (Option.some_injective _ hms).symm
      subst hmp
      have hQid : (parentStep nodeId (some pid) (eraseStep nodeId node.parent m)).id = pid := by
        rw [parentStep_id, eraseStep_id]
        exact h
      simp only [insertStep, insFn]
      rw [if_pos hQid, if_pos hQid]
      rw [if_neg hcond]
    · have hQid : ¬ (parentStep nodeId (some pid) (eraseStep nodeId node.parent m)).id = pid := by
        rw [parentStep_id, eraseStep_id]
        exact h
      simp only [insertStep, insFn]
      rw [if_neg hQid, if_neg hQid]

/-- Closed form of a successful `MoveNode` to the top level
(`newParentId = null`). -/
theorem moveNode_none_eq {s : TreeState} {nodeId : Nat} {pos : Int}
    {node : FlowyNode} (hnode : getNodeById s nodeId = some node) :
    moveNode s nodeId none pos =
      ({ s with nodes := s.nodes.map (fun m =>
          parentStep nodeId none (eraseStep nodeId node.parent m)) }, true) := by
  unfold moveNode
  simp only [hnode]
  rw [if_neg (show ¬ ((none : Option Nat) = some nodeId) by simp)]
  rw [show moveCircularOk s node none = true from rfl]
  simp only [Bool.not_true, Bool.false_eq_true, if_false]
  show (setParent (detachFromOldParent s nodeId node.parent) nodeId none, true) = _
  have hd := detach_spec s nodeId node.parent
  refine congrArg (fun t => (t, true)) ?_
  refine treeState_eq ?_ (by rw [rootId_setParent, hd.2.1]) (by rw [nextId_setParent, hd.2.2])
  rw [setParent_nodes, hd.1, List.map_map]
  rfl


/-- `IsDescendant` decides strict ancestry on well-formed models. -/
theorem isDescendant_true_iff {s : TreeState} (hWF : WF s) {anc node : FlowyNode}
    (hnode : node ∈ s.nodes) :
    isDescendant s anc node = true ↔ Ancestor s anc.id node.id := by
  unfold isDescendant
  have hfuel : remainingCount s [anc.id] < s.nodes.length + 1 :=
    Nat.lt_succ_of_le (List.length_filter_le _ _)
  have hiff := isDescendantLoop_true_iff hWF anc.id (s.nodes.length + 1) node [anc.id]
    hnode (by
      intro v hv
      rcases List.mem_singleton.mp hv with rfl
      exact Or.inl rfl) hfuel
  have hsome := isDescendantLoop_isSome s anc.id (s.nodes.length + 1) node [anc.id] hfuel
  rcases hres : isDescendantLoop s anc.id node [anc.id] (s.nodes.length + 1) with _ | b
  · rw [hres] at hsome; simp at hsome
  · rw [hres] at hiff
    rcases b
    · simpa using fun h => by
        have := hiff.mpr h
        simp at this
    · simpa using hiff

theorem isDescendant_false_not_ancestor {s : TreeState} (hWF : WF s)
    {anc node : FlowyNode} (hnode : node ∈ s.nodes)
    (h : isDescendant s anc node = false) : ¬ Ancestor s anc.id node.id := by
  intro hanc
  have := (isDescendant_true_iff hWF hnode).mpr hanc
  rw [h] at this
  exact Bool.noConfusion this

/-! ## Invariant preservation: `MoveNode` -/

theorem parent_of_child_mem {s : TreeState} (hWF : WF s) {w n : FlowyNode}
    (hw : w ∈ s.nodes) (hn : n ∈ s.nodes) (h : n.id ∈ w.children) :
    n.parent = some w.id := by
  rcases (mem_children_iff hWF hw).mp h with ⟨m, hm, hmid, hmp⟩
  have : m = n :=
    List.inj_on_of_nodup_map (f := fun x : FlowyNode => x.id)
      (by simpa [ids] using hWF.nodupIds) hm hn (by simpa using hmid)
  rw [← this]
  exact hmp

theorem nodup_insertIdx {a : Nat} :
    ∀ (l : List Nat) (n : Nat), n ≤ l.length → a ∉ l → l.Nodup →
      (l.insertIdx n a).Nodup := by
  intro l
  induction l with
  | nil =>
    intro n hn _ _
    simp only [List.length_nil, Nat.le_zero] at hn
    subst hn
    simp
  | cons b t ih =>
    intro n hn ha hnd
    rcases n with _ | n
    · rw [List.insertIdx_zero]
      exact List.nodup_cons.mpr ⟨ha, hnd⟩
    · rw [List.insertIdx_succ_cons]
      rcases List.nodup_cons.mp hnd with ⟨hbt, hts⟩
      refine List.nodup_cons.mpr ⟨?_, ih n (by simpa using hn) (fun h => ha (List.mem_cons_of_mem _ h)) hts⟩
      rw [List.mem_insertIdx (by simpa using hn)]
      rintro (rfl | hbm)
      · exact ha (List.mem_cons_self _ _)
      · exact hbt hbm

theorem mem_insFn {x nodeId : Nat} {pos : Int} {cs : List Nat} :
    x ∈ insFn nodeId pos cs ↔ x = nodeId ∨ x ∈ cs := by
  unfold insFn
  by_cases h : 0 ≤ pos ∧ pos < (cs.length : Int)
  · rw [if_pos h]
    exact List.mem_insertIdx (by omega)
  · rw [if_neg h]
    simp [or_comm]

theorem nodup_insFn {nodeId : Nat} {pos : Int} {cs : List Nat}
    (hnd : cs.Nodup) (hnm : nodeId ∉ cs) : (insFn nodeId pos cs).Nodup := by
  unfold insFn
  by_cases h : 0 ≤ pos ∧ pos < (cs.length : Int)
  · rw [if_pos h]
    exact nodup_insertIdx cs pos.toNat (by omega) hnm hnd
  · rw [if_neg h]
    rw [(List.perm_append_singleton _ _).nodup_iff]
    exact List.nodup_cons.mpr ⟨hnm, hnd⟩

theorem moveG_parent (nodeId : Nat) (np oldp : Option Nat) (m : FlowyNode) :
    (parentStep nodeId np (eraseStep nodeId oldp m)).parent =
      if m.id = nodeId then np else m.parent := by
  unfold parentStep
  by_cases h : m.id = nodeId
  · rw [if_pos (by rw [eraseStep_id]; exact h), if_pos h]
  · rw [if_neg (by rw [eraseStep_id]; exact h), if_neg h, eraseStep_parent]

theorem eraseStep_children (nodeId : Nat) (oldp : Option Nat) (m : FlowyNode) :
    (eraseStep nodeId oldp m).children =
      if oldp = some m.id then m.children.erase nodeId else m.children := by
  rcases oldp with _ | op
  · simp [eraseStep]
  · by_cases h : m.id = op
    · simp [eraseStep, h]
    · have h' : op ≠ m.id := fun hc => h hc.symm
      simp [eraseStep, h, h']

theorem insertStep_children (nodeId pid : Nat) (pos : Int) (m : FlowyNode) :
    (insertStep nodeId pid pos m).children =
      if m.id = pid then insFn nodeId pos m.children else m.children := by
  unfold insertStep
  by_cases h : m.id = pid
  · rw [if_pos h, if_pos h]
  · rw [if_neg h, if_neg h]

/-- A successful `MoveNode` to the top level preserves the invariant. -/
theorem wf_move_none {s : TreeState} (hWF : WF s) {nodeId : Nat} {node : FlowyNode}
    (hnode : getNodeById s nodeId = some node) {t : TreeState}
    (ht : t.nodes = s.nodes.map
      (fun m => parentStep nodeId none (eraseStep nodeId node.parent m)))
    (htr : t.nextId = s.nextId) : WF t := by
  rcases getNodeById_mem hnode with ⟨hnmem, hnid⟩
  set G : FlowyNode → FlowyNode :=
    fun m => parentStep nodeId none (eraseStep nodeId node.parent m) with hG
  have hGid : ∀ m, (G m).id = m.id := fun m => by rw [hG, parentStep_id, eraseStep_id]
  have hGpar : ∀ m, (G m).parent = if m.id = nodeId then none else m.parent :=
    fun m => moveG_parent nodeId none node.parent m
  have hGch : ∀ m, (G m).children =
      if node.parent = some m.id then m.children.erase nodeId else m.children :=
    fun m => by rw [hG, parentStep_children, eraseStep_children]
  have hmemt : ∀ m ∈ t.nodes, ∃ n ∈ s.nodes, m = G n := by
    intro m hm
    rw [ht] at hm
    rcases List.mem_map.mp hm with ⟨n, hn, rfl⟩
    exact ⟨n, hn, rfl⟩
  have hmemG : ∀ n ∈ s.nodes, G n ∈ t.nodes := by
    intro n hn
    rw [ht]
    exact List.mem_map.mpr ⟨n, hn, rfl⟩
  have hids : ids t = ids s := by
    rw [ids, ht, List.map_map]
    exact List.map_congr_left (fun n _ => hGid n)
  -- a child reference distinct from the moved node survives with its parent intact
  have htrans : ∀ n ∈ s.nodes, ∀ ch ∈ n.children, ch ≠ nodeId →
      ∃ w ∈ t.nodes, w.id = ch ∧ w.parent = some n.id := by
    intro n hn ch hch hne
    rcases hWF.childParent n hn ch hch with ⟨w, hw, hwid, hwp⟩
    refine ⟨G w, hmemG w hw, by rw [hGid, hwid], ?_⟩
    rw [hGpar w, if_neg (by rw [hwid]; exact hne), hwp]
  refine ⟨?_, ?_, ?_, ?_, ?_, ?_⟩
  · rw [hids]
    exact hWF.nodupIds
  · intro n hn
    rcases hmemt n hn with ⟨m, hm, rfl⟩
    rw [hGch m]
    by_cases h : node.parent = some m.id
    · rw [if_pos h]
      exact (hWF.childNodup m hm).erase nodeId
    · rw [if_neg h]
      exact hWF.childNodup m hm
  · intro n hn ch hch
    rcases hmemt n hn with ⟨m, hm, rfl⟩
    rw [hGch m] at hch
    rw [hGid m]
    by_cases h : node.parent = some m.id
    · rw [if_pos h] at hch
      have hchm : ch ∈ m.children := List.mem_of_mem_erase hch
      have hchne : ch ≠ nodeId := by
        intro he
        subst he
        exact (hWF.childNodup m hm).not_mem_erase hch
      exact htrans m hm ch hchm hchne
    · rw [if_neg h] at hch
      have hchne : ch ≠ nodeId := by
        intro he
        rw [he] at hch
        rcases hWF.childParent m hm nodeId hch with ⟨w, hw, hwid, hwp⟩
        have hwn : w = node :=
          List.inj_on_of_nodup_map (f := fun x : FlowyNode => x.id)
            (by simpa [ids] using hWF.nodupIds) hw hnmem (by simpa [hnid] using hwid)
        rw [hwn] at hwp
        exact h hwp
      exact htrans m hm ch hch hchne
  · intro n hn p hpp
    rcases hmemt n hn with ⟨m, hm, rfl⟩
    rw [hGpar m] at hpp
    by_cases h : m.id = nodeId
    · rw [if_pos h] at hpp
      exact Option.noConfusion hpp
    · rw [if_neg h] at hpp
      rcases hWF.parentChild m hm p hpp with ⟨w, hw, hwid, hwm⟩
      refine ⟨G w, hmemG w hw, by rw [hGid, hwid], ?_⟩
      rw [hGid m, hGch w]
      by_cases h2 : node.parent = some w.id
      · rw [if_pos h2]
        exact (List.mem_erase_of_ne h).2 hwm
      · rw [if_neg h2]
        exact hwm
  · have hedge : ∀ p cc, ParentRel t p cc → cc ≠ nodeId → ParentRel s p cc := by
      rintro p cc ⟨n, hn, hnid', hpp⟩ hne
      rcases hmemt n hn with ⟨m, hm, rfl⟩
      rw [hGid m] at hnid'
      rw [hGpar m, if_neg (by rw [hnid']; exact hne)] at hpp
      exact ⟨m, hm, hnid', hpp⟩
    have hedgeback : ∀ p cc, ParentRel s p cc → cc ≠ nodeId → ParentRel t p cc := by
      rintro p cc ⟨n, hn, hnid', hpp⟩ hne
      refine ⟨G n, hmemG n hn, by rw [hGid, hnid'], ?_⟩
      rw [hGpar n, if_neg (by rw [hnid']; exact hne), hpp]
    have haccnode : Acc (ParentRel t) nodeId := by
      refine acc_of_no_parent ?_
      intro n hn hnid'
      rcases hmemt n hn with ⟨m, hm, rfl⟩
      rw [hGid m] at hnid'
      rw [hGpar m, if_pos hnid']
    refine rooted_of_changes (M := fun i => i = nodeId) ?_ ?_ hWF.rooted
    · rintro m rfl
      exact haccnode
    · intro cc hcc p
      exact ⟨fun h => hedge p cc h hcc, fun h => hedgeback p cc h hcc⟩
  · intro n hn
    rcases hmemt n hn with ⟨m, hm, rfl⟩
    rw [hGid m, htr]
    exact hWF.fresh m hm

/-- A successful `MoveNode` under a live new parent preserves the invariant. -/
theorem wf_move_some {s : TreeState} (hWF : WF s) {nodeId pid : Nat} {pos : Int}
    {node newParent0 : FlowyNode}
    (hnode : getNodeById s nodeId = some node)
    (hne : pid ≠ nodeId)
    (hpar : getNodeById s pid = some newParent0)
    (hnanc : ¬ Ancestor s nodeId pid) {t : TreeState}
    (ht : t.nodes = s.nodes.map (fun m =>
      insertStep nodeId pid pos (parentStep nodeId (some pid) (eraseStep nodeId node.parent m))))
    (htr : t.nextId = s.nextId) : WF t := by
  rcases getNodeById_mem hnode with ⟨hnmem, hnid⟩
  rcases getNodeById_mem hpar with ⟨hpmem, hpid⟩
  set G : FlowyNode → FlowyNode :=
    fun m => insertStep nodeId pid pos (parentStep nodeId (some pid) (eraseStep nodeId node.parent m)) with hG
  have hGid : ∀ m, (G m).id = m.id :=
    fun m => by rw [hG, insertStep_id, parentStep_id, eraseStep_id]
  have hGpar : ∀ m, (G m).parent = if m.id = nodeId then some pid else m.parent :=
    fun m => by rw [hG, insertStep_parent, moveG_parent]
  have hGch : ∀ m, (G m).children =
      if m.id = pid then
        insFn nodeId pos
          (if node.parent = some m.id then m.children.erase nodeId else m.children)
      else
        (if node.parent = some m.id then m.children.erase nodeId else m.children) := by
    intro m
    rw [hG, insertStep_children, parentStep_id, eraseStep_id, parentStep_children,
      eraseStep_children]
  have hmemt : ∀ m ∈ t.nodes, ∃ n ∈ s.nodes, m = G n := by
    intro m hm
    rw [ht] at hm
    rcases List.mem_map.mp hm with ⟨n, hn, rfl⟩
    exact ⟨n, hn, rfl⟩
  have hmemG : ∀ n ∈ s.nodes, G n ∈ t.nodes := by
    intro n hn
    rw [ht]
    exact List.mem_map.mpr ⟨n, hn, rfl⟩
  have hids : ids t = ids s := by
    rw [ids, ht, List.map_map]
    exact List.map_congr_left (fun n _ => hGid n)
  -- the moved node never appears in the pre-insertion children of a live node
  have hbase : ∀ m ∈ s.nodes, nodeId ∉
      (if node.parent = some m.id then m.children.erase nodeId else m.children) := by
    intro m hm
    by_cases h : node.parent = some m.id
    · rw [if_pos h]
      exact (hWF.childNodup m hm).not_mem_erase
    · rw [if_neg h]
      intro hmm
      exact h (parent_of_child_mem hWF hm hnmem (hnid ▸ hmm))
  have hbase_sub : ∀ m : FlowyNode, ∀ x,
      x ∈ (if node.parent = some m.id then m.children.erase nodeId else m.children) →
      x ∈ m.children := by
    intro m x hx
    by_cases h : node.parent = some m.id
    · rw [if_pos h] at hx
      exact List.mem_of_mem_erase hx
    · rwa [if_neg h] at hx
  have hbase_mem : ∀ m ∈ s.nodes, ∀ x ∈ m.children, x ≠ nodeId →
      x ∈ (if node.parent = some m.id then m.children.erase nodeId else m.children) := by
    intro m _ x hx hxne
    by_cases h : node.parent = some m.id
    · rw [if_pos h]
      exact (List.mem_erase_of_ne hxne).2 hx
    · rwa [if_neg h]
  have htrans : ∀ n ∈ s.nodes, ∀ ch ∈ n.children, ch ≠ nodeId →
      ∃ w ∈ t.nodes, w.id = ch ∧ w.parent = some n.id := by
    intro n hn ch hch hne'
    rcases hWF.childParent n hn ch hch with ⟨w, hw, hwid, hwp⟩
    refine ⟨G w, hmemG w hw, by rw [hGid, hwid], ?_⟩
    rw [hGpar w, if_neg (by rw [hwid]; exact hne'), hwp]
  refine ⟨?_, ?_, ?_, ?_, ?_, ?_⟩
  · rw [hids]
    exact hWF.nodupIds
  · intro n hn
    rcases hmemt n hn with ⟨m, hm, rfl⟩
    rw [hGch m]
    have hbnd : (if node.parent = some m.id then m.children.erase nodeId else m.children).Nodup := by
      by_cases h : node.parent = some m.id
      · rw [if_pos h]
        exact (hWF.childNodup m hm).erase nodeId
      · rw [if_neg h]
        exact hWF.childNodup m hm
    by_cases h : m.id = pid
    · rw [if_pos h]
      exact nodup_insFn hbnd (hbase m hm)
    · rw [if_neg h]
      exact hbnd
  · intro n hn ch hch
    rcases hmemt n hn with ⟨m, hm, rfl⟩
    rw [hGch m] at hch
    rw [hGid m]
    by_cases h : m.id = pid
    · rw [if_pos h] at hch
      rcases mem_insFn.mp hch with rfl | hch'
      · refine ⟨G node, hmemG node hnmem, by rw [hGid, hnid], ?_⟩
        rw [hGpar node, if_pos hnid, h]
      · have hchm : ch ∈ m.children := hbase_sub m ch hch'
        have hchne : ch ≠ nodeId := by
          intro he
          subst he
          exact hbase m hm hch'
        exact htrans m hm ch hchm hchne
    · rw [if_neg h] at hch
      have hchm : ch ∈ m.children := hbase_sub m ch hch
      have hchne : ch ≠ nodeId := by
        intro he
        subst he
        exact hbase m hm hch
      exact htrans m hm ch hchm hchne
  · intro n hn p hpp
    rcases hmemt n hn with ⟨m, hm, rfl⟩
    rw [hGpar m] at hpp
    rw [hGid m]
    by_cases h : m.id = nodeId
    · rw [if_pos h] at hpp
      rcases Option.some_injective _ hpp with rfl
      refine ⟨G newParent0, hmemG newParent0 hpmem, by rw [hGid, hpid], ?_⟩
      rw [hGch newParent0, if_pos hpid, h]
      exact mem_insFn.mpr (Or.inl rfl)
    · rw [if_neg h] at hpp
      rcases hWF.parentChild m hm p hpp with ⟨w, hw, hwid, hwm⟩
      refine ⟨G w, hmemG w hw, by rw [hGid, hwid], ?_⟩
      rw [hGch w]
      have hmw : m.id ∈ (if node.parent = some w.id then w.children.erase nodeId else w.children) :=
        hbase_mem w hw m.id hwm h
      by_cases h2 : w.id = pid
      · rw [if_pos h2]
        exact mem_insFn.mpr (Or.inr hmw)
      · rw [if_neg h2]
        exact hmw
  · have hedge : ∀ p cc, ParentRel t p cc → cc ≠ nodeId → ParentRel s p cc := by
      rintro p cc ⟨n, hn, hnid', hpp⟩ hne'
      rcases hmemt n hn with ⟨m, hm, rfl⟩
      rw [hGid m] at hnid'
      rw [hGpar m, if_neg (by rw [hnid']; exact hne')] at hpp
      exact ⟨m, hm, hnid', hpp⟩
    have hedgeback : ∀ p cc, ParentRel s p cc → cc ≠ nodeId → ParentRel t p cc := by
      rintro p cc ⟨n, hn, hnid', hpp⟩ hne'
      refine ⟨G n, hmemG n hn, by rw [hGid, hnid'], ?_⟩
      rw [hGpar n, if_neg (by rw [hnid']; exact hne'), hpp]
    have haccpid : Acc (ParentRel t) pid := by
      refine acc_transfer_chain (hWF.rooted pid) ?_
      intro j hj p
      have hjne : j ≠ nodeId := by
        rintro rfl
        rcases Relation.reflTransGen_iff_eq_or_transGen.mp hj with h' | h'
        · exact hne h'
        · exact hnanc h'
      exact ⟨fun h => hedge p j h hjne, fun h => hedgeback p j h hjne⟩
    have haccnode : Acc (ParentRel t) nodeId := by
      refine acc_of_parent_edge ?_ haccpid
      intro n hn hnid'
      rcases hmemt n hn with ⟨m, hm, rfl⟩
      rw [hGid m] at hnid'
      rw [hGpar m, if_pos hnid']
    refine rooted_of_changes (M := fun i => i = nodeId) ?_ ?_ hWF.rooted
    · rintro m rfl
      exact haccnode
    · intro cc hcc p
      exact ⟨fun h => hedge p cc h hcc, fun h => hedgeback p cc h hcc⟩
  · intro n hn
    rcases hmemt n hn with ⟨m, hm, rfl⟩
    rw [hGid m, htr]
    exact hWF.fresh m hm

/-! ## Invariant preservation: `RemoveNode` -/

theorem removeById_eq_filter :
    ∀ {ns : List FlowyNode}, (ns.map (fun n => n.id)).Nodup → ∀ i,
      removeById ns i = ns.filter (fun n => ¬ n.id = i) := by
  intro ns
  induction ns with
  | nil => intro _ i; rfl
  | cons a t ih =>
    intro hnd i
    rw [List.map_cons, List.nodup_cons] at hnd
    by_cases h : a.id = i
    · have e1 : removeById (a :: t) i = t := by
        unfold removeById
        rw [List.eraseP_cons]
        simp [h]
      have e2 : t.filter (fun n => ¬ n.id = i) = t := by
        rw [List.filter_eq_self]
        intro b hb
        simp only [decide_eq_true_eq]
        intro hbi
        exact hnd.1 ((hbi.trans h.symm) ▸ List.mem_map_of_mem _ hb)
      rw [e1, List.filter_cons, if_neg (by simp [h]), e2]
    · have e1 : removeById (a :: t) i = a :: removeById t i := by
        unfold removeById
        rw [List.eraseP_cons]
        simp [h]
      rw [e1, List.filter_cons, if_pos (by simp [h]), ih hnd.2 i]

theorem filter_ids_nodup {ns : List FlowyNode} (h : (ns.map (fun n => n.id)).Nodup)
    (q : FlowyNode → Bool) : ((ns.filter q).map (fun n => n.id)).Nodup :=
  List.Nodup.sublist (List.Sublist.map _ (List.filter_sublist ns)) h

theorem foldl_removeById :
    ∀ (L : List FlowyNode) (ns : List FlowyNode), (ns.map (fun n => n.id)).Nodup →
      L.foldl (fun acc d => removeById acc d.id) ns =
        ns.filter (fun n => n.id ∉ L.map (fun d => d.id)) := by
  intro L
  induction L with
  | nil =>
    intro ns _
    simp
  | cons d L' ih =>
    intro ns hnd
    rw [List.foldl_cons, removeById_eq_filter hnd, ih _ (filter_ids_nodup hnd _),
      List.filter_filter]
    refine List.filter_congr ?_
    intro n _
    simp only [List.map_cons, List.mem_cons, decide_eq_true_eq, Bool.and_comm]
    simp [not_or]

theorem removeById_map {u : FlowyNode → FlowyNode} (hu : ∀ n, (u n).id = n.id) :
    ∀ (ns : List FlowyNode) (i : Nat),
      removeById (ns.map u) i = (removeById ns i).map u := by
  intro ns
  induction ns with
  | nil => intro i; rfl
  | cons a t ih =>
    intro i
    unfold removeById at ih ⊢
    rw [List.map_cons, List.eraseP_cons, List.eraseP_cons]
    by_cases h : a.id = i
    · simp [hu, h]
    · simp [hu, h, ih]

/-- Closed form of a successful `RemoveNode`: the node and its computed
descendants are dropped, and the id is erased from the old parent's
children. -/
theorem removeNode_spec {s : TreeState} (hWF : WF s) {nodeId : Nat}
    {node : FlowyNode} (hnode : getNodeById s nodeId = some node) :
    (removeNode s nodeId).2 = true ∧
    (removeNode s nodeId).1.nextId = s.nextId ∧
    (removeNode s nodeId).1.nodes =
      (s.nodes.filter (fun n =>
        n.id ∉ (getDescendants s node).map (fun d => d.id) && ¬ n.id = nodeId)).map
        (eraseStep nodeId node.parent) := by
  unfold removeNode
  simp only [hnode]
  have hnd : (s.nodes.map (fun n => n.id)).Nodup := by simpa [ids] using hWF.nodupIds
  have hfold := foldl_removeById (getDescendants s node) s.nodes hnd
  have hndf := filter_ids_nodup hnd
    (fun n => n.id ∉ (getDescendants s node).map (fun d => d.id))
  rcases hop : node.parent with _ | p
  · refine ⟨by trivial, ?_, ?_⟩
    · by_cases hroot : s.rootId = some nodeId <;> simp [hroot]
    · have hnodes1 : ∀ ns : List FlowyNode,
          ns = (getDescendants s node).foldl (fun acc d => removeById acc d.id) s.nodes →
          removeById ns nodeId =
            (s.nodes.filter (fun n =>
              n.id ∉ (getDescendants s node).map (fun d => d.id) && ¬ n.id = nodeId)).map
              (eraseStep nodeId none) := by
        intro ns hns
        rw [hns, hfold, removeById_eq_filter hndf, List.filter_filter]
        have hmapid : ∀ ns' : List FlowyNode, ns'.map (eraseStep nodeId none) = ns' := by
          intro ns'
          show ns'.map (fun m => m) = ns'
          simp
        rw [hmapid]
        refine List.filter_congr ?_
        intro n _
        rw [Bool.and_comm]
      by_cases hroot : s.rootId = some nodeId
      · simp only [hroot, if_pos]
        exact hnodes1 _ rfl
      · simp only [hroot, if_neg, ite_false]
        exact hnodes1 _ rfl
  · refine ⟨by trivial, rfl, ?_⟩
    show removeById (modChildren _ p (fun cs => cs.erase nodeId)).nodes nodeId = _
    rw [modChildren_nodes]
    show removeById (((getDescendants s node).foldl (fun acc d => removeById acc d.id) s.nodes).map _) nodeId = _
    rw [hfold]
    have hired : ∀ m : FlowyNode,
        (if m.id = p then { m with children := m.children.erase nodeId } else m) =
          eraseStep nodeId (some p) m := fun m => rfl
    rw [removeById_map (u := fun m => if m.id = p then { m with children := m.children.erase nodeId } else m) (by
      intro n
      by_cases h : n.id = p <;> simp [h])]
    rw [removeById_eq_filter hndf, List.filter_filter]
    have : (fun n : FlowyNode => if n.id = p then { n with children := n.children.erase nodeId } else n) =
        eraseStep nodeId (some p) := by
      funext m
      exact hired m
    rw [this]
    congr 1
    refine List.filter_congr ?_
    intro n _
    rw [Bool.and_comm]

/-- Dropping the subtree of a removed node (and erasing its id from the old
parent's children) preserves the invariant. -/
theorem wf_remove {s : TreeState} (hWF : WF s) {nodeId : Nat} {node : FlowyNode}
    (hnode : getNodeById s nodeId = some node) {t : TreeState}
    (ht : t.nodes = (s.nodes.filter (fun n =>
      n.id ∉ (getDescendants s node).map (fun d => d.id) && ¬ n.id = nodeId)).map
      (eraseStep nodeId node.parent))
    (htn : t.nextId = s.nextId) : WF t := by
  rcases getNodeById_mem hnode with ⟨hnmem, hnid⟩
  set q : FlowyNode → Bool := fun n =>
    n.id ∉ (getDescendants s node).map (fun d => d.id) && ¬ n.id = nodeId with hq
  set E : FlowyNode → FlowyNode := eraseStep nodeId node.parent with hE
  set S : Nat → Prop := fun i => i = nodeId ∨ Ancestor s nodeId i with hS
  have hEid : ∀ m, (E m).id = m.id := fun m => eraseStep_id _ _ _
  have hEpar : ∀ m, (E m).parent = m.parent := fun m => eraseStep_parent _ _ _
  have hEch : ∀ m, (E m).children =
      if node.parent = some m.id then m.children.erase nodeId else m.children :=
    fun m => eraseStep_children _ _ _
  have hdescIds : ∀ n ∈ s.nodes,
      (n.id ∈ (getDescendants s node).map (fun d => d.id) ↔ Ancestor s nodeId n.id) := by
    intro n hn
    constructor
    · intro h
      rcases List.mem_map.mp h with ⟨d, hd, hdid⟩
      rcases (mem_getDescendants_iff hWF hnmem).mp hd with ⟨_, hanc⟩
      rw [hnid] at hanc
      rw [← hdid]
      exact hanc
    · intro h
      refine List.mem_map_of_mem _ ((mem_getDescendants_iff hWF hnmem).mpr ⟨hn, ?_⟩)
      rw [hnid]
      exact h
  have hq_iff : ∀ n ∈ s.nodes, (q n = true ↔ ¬ S n.id) := by
    intro n hn
    rw [hq, hS]
    simp only [Bool.and_eq_true, decide_eq_true_eq, not_or]
    rw [hdescIds n hn]
    tauto
  have hmemt : ∀ n' ∈ t.nodes, ∃ n ∈ s.nodes, q n = true ∧ n' = E n := by
    intro n' hn'
    rw [ht] at hn'
    rcases List.mem_map.mp hn' with ⟨n, hn, rfl⟩
    rcases List.mem_filter.mp hn with ⟨hn1, hn2⟩
    exact ⟨n, hn1, hn2, rfl⟩
  have hsurv : ∀ n ∈ s.nodes, ¬ S n.id → E n ∈ t.nodes := by
    intro n hn hns
    rw [ht]
    exact List.mem_map_of_mem _ (List.mem_filter.mpr ⟨hn, (hq_iff n hn).mpr hns⟩)
  have hS_child : ∀ n ∈ s.nodes, ¬ S n.id → ∀ ch ∈ n.children, ch ≠ nodeId → ¬ S ch := by
    intro n hn hns ch hch hchne
    rcases hWF.childParent n hn ch hch with ⟨m, hm, hmid, hmp⟩
    rintro (h | h)
    · exact hchne h
    · rw [← hmid] at h
      rcases (ancestor_iff_parent hWF hm hmp).mp h with h' | h'
      · exact hns (Or.inl h'.symm)
      · exact hns (Or.inr h')
  have hS_parent : ∀ n ∈ s.nodes, ¬ S n.id → ∀ p, n.parent = some p → ¬ S p := by
    intro n hn hns p hp
    have hstep : ParentRel s p n.id := ⟨n, hn, rfl, hp⟩
    rintro (rfl | h)
    · exact hns (Or.inr (Relation.TransGen.single hstep))
    · exact hns (Or.inr (Relation.TransGen.tail h hstep))
  refine ⟨?_, ?_, ?_, ?_, ?_, ?_⟩
  · have : ids t = (s.nodes.filter q).map (fun n => n.id) := by
      rw [ids, ht, List.map_map]
      exact List.map_congr_left (fun n _ => hEid n)
    rw [this]
    exact filter_ids_nodup (by simpa [ids] using hWF.nodupIds) q
  · intro n' hn'
    rcases hmemt n' hn' with ⟨n, hn, _, rfl⟩
    rw [hEch n]
    by_cases h : node.parent = some n.id
    · rw [if_pos h]
      exact (hWF.childNodup n hn).erase nodeId
    · rw [if_neg h]
      exact hWF.childNodup n hn
  · intro n' hn' ch hch
    rcases hmemt n' hn' with ⟨n, hn, hqn, rfl⟩
    have hns : ¬ S n.id := (hq_iff n hn).mp hqn
    rw [hEch n] at hch
    rw [hEid n]
    have hmain : ch ∈ n.children ∧ ch ≠ nodeId := by
      by_cases h : node.parent = some n.id
      · rw [if_pos h] at hch
        refine ⟨List.mem_of_mem_erase hch, ?_⟩
        intro he
        rw [he] at hch
        exact (hWF.childNodup n hn).not_mem_erase hch
      · rw [if_neg h] at hch
        refine ⟨hch, ?_⟩
        intro he
        rw [he] at hch
        exact h (parent_of_child_mem hWF hn hnmem (hnid ▸ hch))
    rcases hWF.childParent n hn ch hmain.1 with ⟨w, hw, hwid, hwp⟩
    have hwS : ¬ S w.id := by
      rw [hwid]
      exact hS_child n hn hns ch hmain.1 hmain.2
    exact ⟨E w, hsurv w hw hwS, by rw [hEid, hwid], by rw [hEpar, hwp]⟩
  · intro n' hn' p hpp
    rcases hmemt n' hn' with ⟨n, hn, hqn, rfl⟩
    have hns : ¬ S n.id := (hq_iff n hn).mp hqn
    rw [hEpar n] at hpp
    rw [hEid n]
    have hpS : ¬ S p := hS_parent n hn hns p hpp
    rcases hWF.parentChild n hn p hpp with ⟨w, hw, hwid, hwm⟩
    refine ⟨E w, hsurv w hw (hwid ▸ hpS), by rw [hEid, hwid], ?_⟩
    rw [hEch w]
    by_cases h : node.parent = some w.id
    · rw [if_pos h]
      refine (List.mem_erase_of_ne ?_).2 hwm
      intro he
      exact hns (Or.inl he)
    · rw [if_neg h]
      exact hwm
  · have hsub : ∀ p cc, ParentRel t p cc → ParentRel s p cc := by
      rintro p cc ⟨n', hn', hnid', hpp⟩
      rcases hmemt n' hn' with ⟨n, hn, _, rfl⟩
      rw [hEid n] at hnid'
      rw [hEpar n] at hpp
      exact ⟨n, hn, hnid', hpp⟩
    exact fun i => acc_of_subrel hsub (hWF.rooted i)
  · intro n' hn'
    rcases hmemt n' hn' with ⟨n, hn, _, rfl⟩
    rw [hEid n, htn]
    exact hWF.fresh n hn

/-- `RemoveNode` preserves the invariant. -/
theorem wf_removeNode {s : TreeState} (hWF : WF s) (nodeId : Nat) :
    WF (removeNode s nodeId).1 := by
  rcases hnode : getNodeById s nodeId with _ | node
  · unfold removeNode
    rw [hnode]
    exact hWF
  · rcases removeNode_spec hWF hnode with ⟨_, hxt, hns⟩
    exact wf_remove hWF hnode hns hxt

/-! ## Closed form of the re-parenting loops of `PromoteNode`/`DemoteNode` -/

theorem adoptChildren_eq :
    ∀ (childIds : List Nat) (s : TreeState) (parentId : Nat),
      (∀ c ∈ childIds, c ∈ ids s) → parentId ∉ childIds → childIds.Nodup →
      adoptChildren s parentId childIds =
        { s with nodes := s.nodes.map (fun n =>
            if n.id ∈ childIds then { n with parent := some parentId }
            else if n.id = parentId then { n with children := n.children ++ childIds }
            else n) } := by
  intro childIds
  induction childIds with
  | nil =>
    intro s parentId _ _ _
    show s = _
    refine treeState_eq ?_ rfl rfl
    simp
  | cons c rest ih =>
    intro s parentId hall hnotin hnd
    have hcsome : (getNodeById s c).isSome :=
      getNodeById_isSome_iff.mpr (hall c (List.mem_cons_self _ _))
    rcases Option.isSome_iff_exists.mp hcsome with ⟨cn, hlook⟩
    rcases List.nodup_cons.mp hnd with ⟨hcrest, hndrest⟩
    have hpc : parentId ≠ c := fun h => hnotin (h ▸ List.mem_cons_self _ _)
    have hstep : adoptChildren s parentId (c :: rest) =
        adoptChildren (modChildren (setParent s c (some parentId)) parentId
          (fun cs => cs ++ [c])) parentId rest := by
      unfold adoptChildren
      rw [List.foldl_cons]
      simp only [hlook]
    rw [hstep, ih _ parentId (by
        intro c' hc'
        rw [ids_modChildren, ids_setParent]
        exact hall c' (List.mem_cons_of_mem _ hc'))
      (fun h => hnotin (List.mem_cons_of_mem _ h)) hndrest]
    refine treeState_eq ?_ rfl rfl
    show ((modChildren (setParent s c (some parentId)) parentId
      (fun cs => cs ++ [c])).nodes).map _ = _
    rw [modChildren_nodes, setParent_nodes, List.map_map, List.map_map]
    apply List.map_congr_left
    intro n _
    simp only [Function.comp]
    by_cases h1 : n.id = c
    · have h2 : ¬ c = parentId := fun h => hpc h.symm
      have h3 : c ∉ rest := hcrest
      simp [h1, h2, h3]
    · by_cases h2 : n.id = parentId
      · have h3 : parentId ∉ rest := fun h => hnotin (List.mem_cons_of_mem _ h)
        simp [h1, h2, h3, hpc]
      · by_cases h3 : n.id ∈ rest
        · simp [h1, h2, h3]
        · simp [h1, h2, h3]

/-! ## `ReplaceFirst` of the C# helper and the rotation descriptor -/

theorem replaceFirst_cons (a : Nat) (l : List Nat) (o n : Nat) :
    replaceFirst (a :: l) o n = if a = o then n :: l else a :: replaceFirst l o n := by
  unfold replaceFirst
  by_cases h : a = o
  · simp [List.findIdx?_cons, h]
  · simp only [List.findIdx?_cons, h, decide_False, cond_false]
    cases hf : l.findIdx? (fun x => x = o) <;> simp [hf, List.set]

theorem replaceFirst_of_not_mem {l : List Nat} {o : Nat} (h : o ∉ l) (n : Nat) :
    replaceFirst l o n = l := by
  induction l with
  | nil => rfl
  | cons a t ih =>
    rw [replaceFirst_cons, if_neg (fun hao => h (List.mem_cons.mpr (Or.inl hao.symm))),
      ih (fun ht => h (List.mem_cons_of_mem a ht))]

theorem mem_replaceFirst_iff {l : List Nat} {o : Nat} (hl : l.Nodup) (ho : o ∈ l)
    (n x : Nat) : x ∈ replaceFirst l o n ↔ (x ∈ l ∧ x ≠ o) ∨ x = n := by
  induction l with
  | nil => cases ho
  | cons a t ih =>
    rw [replaceFirst_cons]
    by_cases hao : a = o
    · subst hao
      have hat : a ∉ t := (List.nodup_cons.mp hl).1
      rw [if_pos rfl]
      constructor
      · intro hx
        rcases List.mem_cons.mp hx with h1 | h1
        · exact Or.inr h1
        · exact Or.inl ⟨List.mem_cons_of_mem a h1, fun hxa => hat (hxa ▸ h1)⟩
      · rintro (⟨h1, h2⟩ | h1)
        · rcases List.mem_cons.mp h1 with h3 | h3
          · exact absurd h3 h2
          · exact List.mem_cons_of_mem n h3
        · exact h1 ▸ List.mem_cons_self n t
    · have hot : o ∈ t := by
        rcases List.mem_cons.mp ho with h1 | h1
        · exact absurd h1.symm hao
        · exact h1
      rw [if_neg hao]
      have iht := ih (List.nodup_cons.mp hl).2 hot
      constructor
      · intro hx
        rcases List.mem_cons.mp hx with h1 | h1
        · exact Or.inl ⟨List.mem_cons.mpr (Or.inl h1), fun hxo => hao (h1.symm.trans hxo)⟩
        · rcases iht.mp h1 with ⟨h2, h3⟩ | h2
          · exact Or.inl ⟨List.mem_cons_of_mem a h2, h3⟩
          · exact Or.inr h2
      · rintro (⟨h1, h2⟩ | h1)
        · rcases List.mem_cons.mp h1 with h3 | h3
          · exact h3 ▸ List.mem_cons_self a _
          · exact List.mem_cons_of_mem a (iht.mpr (Or.inl ⟨h3, h2⟩))
        · exact List.mem_cons_of_mem a (iht.mpr (Or.inr h1))

theorem nodup_replaceFirst {l : List Nat} {o n : Nat} (hl : l.Nodup) (hn : n ∉ l) :
    (replaceFirst l o n).Nodup := by
  induction l with
  | nil => exact List.nodup_nil
  | cons a t ih =>
    rw [replaceFirst_cons]
    rcases List.nodup_cons.mp hl with ⟨hat, ht⟩
    by_cases hao : a = o
    · rw [if_pos hao]
      exact List.nodup_cons.mpr ⟨fun h => hn (List.mem_cons_of_mem a h), ht⟩
    · rw [if_neg hao]
      refine List.nodup_cons.mpr ⟨?_, ih ht (fun h => hn (List.mem_cons_of_mem a h))⟩
      by_cases hot : o ∈ t
      · intro h
        rcases (mem_replaceFirst_iff ht hot n a).mp h with ⟨h1, _⟩ | h1
        · exact hat h1
        · exact hn (h1 ▸ List.mem_cons_self a t)
      · rw [replaceFirst_of_not_mem hot]
        exact hat

theorem replaceFirst_replaceFirst {l : List Nat} {o n : Nat} (hl : l.Nodup)
    (hn : n ∉ l) : replaceFirst (replaceFirst l o n) n o = l := by
  induction l with
  | nil => rfl
  | cons a t ih =>
    rw [replaceFirst_cons]
    rcases List.nodup_cons.mp hl with ⟨hat, ht⟩
    have hnt : n ∉ t := fun h => hn (List.mem_cons_of_mem a h)
    by_cases hao : a = o
    · rw [if_pos hao, replaceFirst_cons, if_pos rfl, hao]
    · rw [if_neg hao, replaceFirst_cons,
        if_neg (fun han => hn (List.mem_cons.mpr (Or.inl han.symm))), ih ht hnt]

theorem rotateF_id (R F A : Nat) (sibs kids : List Nat) (m : FlowyNode) :
    (rotateF R F A sibs kids m).id = m.id := by
  unfold rotateF
  by_cases h1 : m.id = R
  · rw [if_pos h1]
  · rw [if_neg h1]
    by_cases h2 : m.id = F
    · rw [if_pos h2]
    · rw [if_neg h2]
      by_cases h3 : m.id = A
      · rw [if_pos h3]
      · rw [if_neg h3]
        by_cases h4 : m.id ∈ sibs
        · rw [if_pos h4]
        · rw [if_neg h4]
          by_cases h5 : m.id ∈ kids
          · rw [if_pos h5]
          · rw [if_neg h5]

theorem getNodeById_map {s : TreeState} {u : FlowyNode → FlowyNode}
    (hu : ∀ n, (u n).id = n.id) (i : Nat) :
    getNodeById { s with nodes := s.nodes.map u } i = (getNodeById s i).map u := by
  show (s.nodes.map u).find? (fun n => n.id = i) = _
  rw [List.find?_map]
  have hfe : ((fun n : FlowyNode => (decide (n.id = i))) ∘ u) =
      (fun n : FlowyNode => (decide (n.id = i))) := by
    funext n
    simp [Function.comp, hu]
  rw [hfe]
  rfl

/-- The rotation body shared by `PromoteNode` (promote clears the rising
node's children before the falling node's). -/
theorem rotateSteps_promote (s : TreeState) (R F A : Nat) (sibs kids : List Nat)
    (hRF : R ≠ F) (hRA : R ≠ A) (hFA : F ≠ A)
    (hsall : ∀ c ∈ sibs, c ∈ ids s) (hkall : ∀ c ∈ kids, c ∈ ids s)
    (hsnd : sibs.Nodup) (hknd : kids.Nodup)
    (hRs : R ∉ sibs) (hFs : F ∉ sibs) (hAs : A ∉ sibs)
    (hRk : R ∉ kids) (hFk : F ∉ kids) (hAk : A ∉ kids)
    (hdisj : ∀ c ∈ sibs, c ∉ kids) :
    adoptChildren (adoptChildren (modChildren (setParent (modChildren (modChildren
      (setParent (modChildren s A (fun cs => replaceFirst cs F R)) R (some A))
      R (fun _ => [])) F (fun _ => [])) F (some R)) R (fun cs => cs ++ [F])) R sibs) F kids =
    { s with nodes := s.nodes.map (rotateF R F A sibs kids) } := by
  set T6 := modChildren (setParent (modChildren (modChildren
      (setParent (modChildren s A (fun cs => replaceFirst cs F R)) R (some A))
      R (fun _ => [])) F (fun _ => [])) F (some R)) R (fun cs => cs ++ [F]) with hT6
  have hidsT6 : ids T6 = ids s := by
    rw [hT6, ids_modChildren, ids_setParent, ids_modChildren, ids_modChildren,
      ids_setParent, ids_modChildren]
  rw [adoptChildren_eq sibs T6 R (fun c hc => hidsT6 ▸ hsall c hc) hRs hsnd]
  set F1 : FlowyNode → FlowyNode := fun n =>
    if n.id ∈ sibs then { n with parent := some R }
    else if n.id = R then { n with children := n.children ++ sibs }
    else n with hF1
  have hidsS7 : ids { T6 with nodes := T6.nodes.map F1 } = ids s := by
    rw [ids, ← hidsT6, ids]
    show (T6.nodes.map F1).map (fun n => n.id) = _
    rw [List.map_map]
    apply List.map_congr_left
    intro n _
    show (if n.id ∈ sibs then { n with parent := some R }
      else if n.id = R then { n with children := n.children ++ sibs } else n).id = n.id
    by_cases h1 : n.id ∈ sibs
    · rw [if_pos h1]
    · rw [if_neg h1]
      by_cases h2 : n.id = R
      · rw [if_pos h2]
      · rw [if_neg h2]
  rw [adoptChildren_eq kids _ F (fun c hc => hidsS7 ▸ hkall c hc) hFk hknd]
  refine treeState_eq ?_ (by rfl) (by rfl)
  show (T6.nodes.map F1).map _ = _
  rw [hT6, modChildren_nodes, setParent_nodes, modChildren_nodes, modChildren_nodes,
    setParent_nodes, modChildren_nodes, List.map_map, List.map_map, List.map_map,
    List.map_map, List.map_map, List.map_map, List.map_map]
  apply List.map_congr_left
  intro n _
  simp only [Function.comp, hF1]
  by_cases h1 : n.id = R
  · simp [rotateF, h1, hRF, hRA, hRs, hRk, Ne.symm hRF]
  · by_cases h2 : n.id = F
    · simp [rotateF, h1, h2, hRF, hFA, hFs, hFk, Ne.symm hRF]
    · by_cases h3 : n.id = A
      · simp [rotateF, h1, h2, h3, hAs, hAk, Ne.symm hRA, Ne.symm hFA]
      · by_cases h4 : n.id ∈ sibs
        · simp [rotateF, h1, h2, h3, h4, hdisj n.id h4]
        · by_cases h5 : n.id ∈ kids
          · simp [rotateF, h1, h2, h3, h4, h5]
          · simp [rotateF, h1, h2, h3, h4, h5]

/-- The rotation body shared by `DemoteNode` (demote clears the falling
node's children before the rising node's). -/
theorem rotateSteps_demote (s : TreeState) (R F A : Nat) (sibs kids : List Nat)
    (hRF : R ≠ F) (hRA : R ≠ A) (hFA : F ≠ A)
    (hsall : ∀ c ∈ sibs, c ∈ ids s) (hkall : ∀ c ∈ kids, c ∈ ids s)
    (hsnd : sibs.Nodup) (hknd : kids.Nodup)
    (hRs : R ∉ sibs) (hFs : F ∉ sibs) (hAs : A ∉ sibs)
    (hRk : R ∉ kids) (hFk : F ∉ kids) (hAk : A ∉ kids)
    (hdisj : ∀ c ∈ sibs, c ∉ kids) :
    adoptChildren (adoptChildren (modChildren (setParent (modChildren (modChildren
      (setParent (modChildren s A (fun cs => replaceFirst cs F R)) R (some A))
      F (fun _ => [])) R (fun _ => [])) F (some R)) R (fun cs => cs ++ [F])) R sibs) F kids =
    { s with nodes := s.nodes.map (rotateF R F A sibs kids) } := by
  set T6 := modChildren (setParent (modChildren (modChildren
      (setParent (modChildren s A (fun cs => replaceFirst cs F R)) R (some A))
      F (fun _ => [])) R (fun _ => [])) F (some R)) R (fun cs => cs ++ [F]) with hT6
  have hidsT6 : ids T6 = ids s := by
    rw [hT6, ids_modChildren, ids_setParent, ids_modChildren, ids_modChildren,
      ids_setParent, ids_modChildren]
  rw [adoptChildren_eq sibs T6 R (fun c hc => hidsT6 ▸ hsall c hc) hRs hsnd]
  set F1 : FlowyNode → FlowyNode := fun n =>
    if n.id ∈ sibs then { n with parent := some R }
    else if n.id = R then { n with children := n.children ++ sibs }
    else n with hF1
  have hidsS7 : ids { T6 with nodes := T6.nodes.map F1 } = ids s := by
    rw [ids, ← hidsT6, ids]
    show (T6.nodes.map F1).map (fun n => n.id) = _
    rw [List.map_map]
    apply List.map_congr_left
    intro n _
    show (if n.id ∈ sibs then { n with parent := some R }
      else if n.id = R then { n with children := n.children ++ sibs } else n).id = n.id
    by_cases h1 : n.id ∈ sibs
    · rw [if_pos h1]
    · rw [if_neg h1]
      by_cases h2 : n.id = R
      · rw [if_pos h2]
      · rw [if_neg h2]
  rw [adoptChildren_eq kids _ F (fun c hc => hidsS7 ▸ hkall c hc) hFk hknd]
  refine treeState_eq ?_ (by rfl) (by rfl)
  show (T6.nodes.map F1).map _ = _
  rw [hT6, modChildren_nodes, setParent_nodes, modChildren_nodes, modChildren_nodes,
    setParent_nodes, modChildren_nodes, List.map_map, List.map_map, List.map_map,
    List.map_map, List.map_map, List.map_map, List.map_map]
  apply List.map_congr_left
  intro n _
  simp only [Function.comp, hF1]
  by_cases h1 : n.id = R
  · simp [rotateF, h1, hRF, hRA, hRs, hRk, Ne.symm hRF]
  · by_cases h2 : n.id = F
    · simp [rotateF, h1, h2, hRF, hFA, hFs, hFk, Ne.symm hRF]
    · by_cases h3 : n.id = A
      · simp [rotateF, h1, h2, h3, hAs, hAk, Ne.symm hRA, Ne.symm hFA]
      · by_cases h4 : n.id ∈ sibs
        · simp [rotateF, h1, h2, h3, h4, hdisj n.id h4]
        · by_cases h5 : n.id ∈ kids
          · simp [rotateF, h1, h2, h3, h4, h5]
          · simp [rotateF, h1, h2, h3, h4, h5]

/-- Closed form of `PromoteNode` on the success path: the whole update is one
`map` of the rotation descriptor `rotateF` with the promoted node rising, its
old parent falling, and its grandparent as anchor. -/
theorem promoteNode_eq {s : TreeState} {nodeId oldParentId grandParentId : Nat}
    {node oldParent grandParent : FlowyNode}
    (hnode : getNodeById s nodeId = some node)
    (hpp : node.parent = some oldParentId)
    (hop : getNodeById s oldParentId = some oldParent)
    (hgp : oldParent.parent = some grandParentId)
    (hgl : getNodeById s grandParentId = some grandParent)
    (hRF : nodeId ≠ oldParentId) (hRA : nodeId ≠ grandParentId)
    (hFA : oldParentId ≠ grandParentId)
    (hsall : ∀ c ∈ oldParent.children.filter (fun i => i ≠ nodeId), c ∈ ids s)
    (hkall : ∀ c ∈ node.children, c ∈ ids s)
    (hsnd : (oldParent.children.filter (fun i => i ≠ nodeId)).Nodup)
    (hknd : node.children.Nodup)
    (hRs : nodeId ∉ oldParent.children.filter (fun i => i ≠ nodeId))
    (hFs : oldParentId ∉ oldParent.children.filter (fun i => i ≠ nodeId))
    (hAs : grandParentId ∉ oldParent.children.filter (fun i => i ≠ nodeId))
    (hRk : nodeId ∉ node.children) (hFk : oldParentId ∉ node.children)
    (hAk : grandParentId ∉ node.children)
    (hdisj : ∀ c ∈ oldParent.children.filter (fun i => i ≠ nodeId),
      c ∉ node.children) :
    promoteNode s nodeId =
      ({ s with nodes := s.nodes.map (rotateF nodeId oldParentId grandParentId
        (oldParent.children.filter (fun i => i ≠ nodeId)) node.children) }, true) := by
  unfold promoteNode
  simp only [hnode, hpp, hop, hgp, hgl]
  rw [rotateSteps_promote s nodeId oldParentId grandParentId _ _ hRF hRA hFA
    hsall hkall hsnd hknd hRs hFs hAs hRk hFk hAk hdisj]

/-- Closed form of `DemoteNode` on the success path: the whole update is one
`map` of the rotation descriptor `rotateF` with the first child rising, the
demoted node falling, and its parent as anchor. -/
theorem demoteNode_eq {s : TreeState} {nodeId parentId firstChildId : Nat}
    {restChildren : List Nat} {node firstChild parent : FlowyNode}
    (hnode : getNodeById s nodeId = some node)
    (hpp : node.parent = some parentId)
    (hch : node.children = firstChildId :: restChildren)
    (hfc : getNodeById s firstChildId = some firstChild)
    (hpl : getNodeById s parentId = some parent)
    (hRF : firstChildId ≠ nodeId) (hRA : firstChildId ≠ parentId)
    (hFA : nodeId ≠ parentId)
    (hsall : ∀ c ∈ restChildren, c ∈ ids s)
    (hkall : ∀ c ∈ firstChild.children, c ∈ ids s)
    (hsnd : restChildren.Nodup) (hknd : firstChild.children.Nodup)
    (hRs : firstChildId ∉ restChildren) (hFs : nodeId ∉ restChildren)
    (hAs : parentId ∉ restChildren)
    (hRk : firstChildId ∉ firstChild.children)
    (hFk : nodeId ∉ firstChild.children)
    (hAk : parentId ∉ firstChild.children)
    (hdisj : ∀ c ∈ restChildren, c ∉ firstChild.children) :
    demoteNode s nodeId =
      ({ s with nodes := s.nodes.map (rotateF firstChildId nodeId parentId
        restChildren firstChild.children) }, true) := by
  unfold demoteNode
  simp only [hnode, hpp, hch, hfc, hpl]
  rw [rotateSteps_demote s firstChildId nodeId parentId _ _ hRF hRA hFA
    hsall hkall hsnd hknd hRs hFs hAs hRk hFk hAk hdisj]

/-- The rotation map preserves the invariant. -/
theorem wf_rotateF {s : TreeState} (hWF : WF s) {R F A : Nat} {nR nF : FlowyNode}
    (hRl : getNodeById s R = some nR) (hRp : nR.parent = some F)
    (hFl : getNodeById s F = some nF) (hFp : nF.parent = some A)
    {sibs : List Nat} (hsibs : ∀ x, x ∈ sibs ↔ x ∈ nF.children ∧ x ≠ R)
    (hsnd : sibs.Nodup) :
    WF { s with nodes := s.nodes.map (rotateF R F A sibs nR.children) } := by
  obtain ⟨hnRmem, hnRid⟩ := getNodeById_mem hRl
  obtain ⟨hnFmem, hnFid⟩ := getNodeById_mem hFl
  have hPFR : ParentRel s F R := ⟨nR, hnRmem, hnRid, hRp⟩
  have hPAF : ParentRel s A F := ⟨nF, hnFmem, hnFid, hFp⟩
  have hirr := rooted_irrefl hWF.rooted
  have hdet : ∀ {p q c : Nat}, ParentRel s p c → ParentRel s q c → p = q :=
    fun h1 h2 => parentRel_det hWF.nodupIds h1 h2
  have hRF : R ≠ F := by
    intro h
    exact hirr R (Relation.TransGen.single (h ▸ hPFR))
  have hFA : F ≠ A := by
    intro h
    exact hirr F (Relation.TransGen.single (h ▸ hPAF))
  have hRA : R ≠ A := by
    intro h
    exact hirr R (Relation.TransGen.head (h ▸ hPAF) (Relation.TransGen.single hPFR))
  have hkids : ∀ x, x ∈ nR.children ↔ ParentRel s R x := by
    intro x
    rw [mem_children_iff hWF hnRmem, hnRid]
  have hsibsP : ∀ x ∈ sibs, ParentRel s F x := by
    intro x hx
    exact (hnFid ▸ mem_children_iff hWF hnFmem).mp ((hsibs x).mp hx).1
  have hRk : R ∉ nR.children := by
    intro h
    exact hirr R (Relation.TransGen.single ((hkids R).mp h))
  have hFk : F ∉ nR.children := by
    intro h
    exact hirr F (Relation.TransGen.head hPFR (Relation.TransGen.single ((hkids F).mp h)))
  have hAk : A ∉ nR.children := by
    intro h
    exact hirr A (Relation.TransGen.head hPAF (Relation.TransGen.head hPFR
      (Relation.TransGen.single ((hkids A).mp h))))
  have hRs : R ∉ sibs := fun h => ((hsibs R).mp h).2 rfl
  have hFs : F ∉ sibs := by
    intro h
    exact hirr F (Relation.TransGen.single (hsibsP F h))
  have hAs : A ∉ sibs := by
    intro h
    exact hirr A (Relation.TransGen.head hPAF (Relation.TransGen.single (hsibsP A h)))
  have hdisj : ∀ x ∈ sibs, x ∉ nR.children := by
    intro x hx hk
    exact hRF (hdet ((hkids x).mp hk) (hsibsP x hx))
  obtain ⟨nA, hAl, hnAmem, hnAid, hFinA0⟩ := parent_resolves hWF hnFmem hFp
  have hFinA : F ∈ nA.children := hnFid ▸ hFinA0
  have hRinA : R ∉ nA.children := by
    intro h
    exact hFA (hdet hPFR ((hnAid ▸ mem_children_iff hWF hnAmem).mp h))
  have hRinF : R ∈ nF.children :=
    (mem_children_iff hWF hnFmem).mpr (hnFid.symm ▸ hPFR)
  have huniq : ∀ n ∈ s.nodes, ∀ m, getNodeById s n.id = some m → n = m := by
    intro n hn m hm
    have := getNodeById_eq_some_self hWF.nodupIds hn
    rw [this] at hm
    exact Option.some_injective _ hm
  set u : FlowyNode → FlowyNode := rotateF R F A sibs nR.children with hu
  have huid : ∀ m, (u m).id = m.id := rotateF_id R F A sibs nR.children
  have huR : ∀ m : FlowyNode, m.id = R →
      u m = { m with parent := some A, children := F :: sibs } := by
    intro m h
    rw [hu]
    unfold rotateF
    rw [if_pos h]
  have huF : ∀ m : FlowyNode, m.id = F →
      u m = { m with parent := some R, children := nR.children } := by
    intro m h
    rw [hu]
    unfold rotateF
    rw [if_neg (fun hr => hRF (hr.symm.trans h)), if_pos h]
  have huA : ∀ m : FlowyNode, m.id = A →
      u m = { m with children := replaceFirst m.children F R } := by
    intro m h
    rw [hu]
    unfold rotateF
    rw [if_neg (fun hr => hRA (hr.symm.trans h)), if_neg (fun hf => hFA (hf.symm.trans h)),
      if_pos h]
  have huS : ∀ m : FlowyNode, m.id ∈ sibs → u m = { m with parent := some R } := by
    intro m h
    rw [hu]
    unfold rotateF
    rw [if_neg (fun (hr : m.id = R) => hRs (hr ▸ h)),
      if_neg (fun (hf : m.id = F) => hFs (hf ▸ h)),
      if_neg (fun (ha : m.id = A) => hAs (ha ▸ h)), if_pos h]
  have huK : ∀ m : FlowyNode, m.id ∈ nR.children →
      u m = { m with parent := some F } := by
    intro m h
    rw [hu]
    unfold rotateF
    rw [if_neg (fun (hr : m.id = R) => hRk (hr ▸ h)),
      if_neg (fun (hf : m.id = F) => hFk (hf ▸ h)),
      if_neg (fun (ha : m.id = A) => hAk (ha ▸ h)),
      if_neg (fun hs => hdisj m.id hs h), if_pos h]
  have huO : ∀ m : FlowyNode, m.id ≠ R → m.id ≠ F → m.id ≠ A → m.id ∉ sibs →
      m.id ∉ nR.children → u m = m := by
    intro m h1 h2 h3 h4 h5
    rw [hu]
    unfold rotateF
    rw [if_neg h1, if_neg h2, if_neg h3, if_neg h4, if_neg h5]
  set s' : TreeState := { s with nodes := s.nodes.map u } with hs'
  have hids' : ids s' = ids s := by
    rw [hs']
    show (s.nodes.map u).map (fun n => n.id) = s.nodes.map (fun n => n.id)
    rw [List.map_map]
    exact List.map_congr_left (fun n _ => huid n)
  have hmem' : ∀ n', n' ∈ s'.nodes ↔ ∃ m ∈ s.nodes, u m = n' := by
    intro n'
    rw [hs']
    exact List.mem_map
  have hwit : ∀ m ∈ s.nodes, u m ∈ s'.nodes := fun m hm => (hmem' (u m)).mpr ⟨m, hm, rfl⟩
  have hwitF : ∃ w ∈ s'.nodes, w.id = F ∧ w.parent = some R :=
    ⟨u nF, hwit nF hnFmem, by rw [huid, hnFid], by rw [huF nF hnFid]⟩
  have hwitR : ∃ w ∈ s'.nodes, w.id = R ∧ w.parent = some A :=
    ⟨u nR, hwit nR hnRmem, by rw [huid, hnRid], by rw [huR nR hnRid]⟩
  have hwitS : ∀ {c : Nat}, c ∈ sibs → ∃ w ∈ s'.nodes, w.id = c ∧ w.parent = some R := by
    intro c hcs
    rcases hsibsP c hcs with ⟨m0, hm0, hm0id, _⟩
    exact ⟨u m0, hwit m0 hm0, by rw [huid, hm0id], by rw [huS m0 (hm0id.symm ▸ hcs)]⟩
  have hwitK : ∀ {c : Nat}, c ∈ nR.children →
      ∃ w ∈ s'.nodes, w.id = c ∧ w.parent = some F := by
    intro c hck
    rcases (hkids c).mp hck with ⟨m0, hm0, hm0id, _⟩
    exact ⟨u m0, hwit m0 hm0, by rw [huid, hm0id], by rw [huK m0 (hm0id.symm ▸ hck)]⟩
  have hwitA : ∀ {p : Nat}, ParentRel s p A →
      ∃ w ∈ s'.nodes, w.id = A ∧ w.parent = some p := by
    rintro p ⟨m0, hm0, hm0id, hm0p⟩
    refine ⟨u m0, hwit m0 hm0, by rw [huid, hm0id], ?_⟩
    rw [huA m0 hm0id]
    exact hm0p
  have hwitO : ∀ {p c : Nat}, ParentRel s p c → c ≠ R → c ≠ F → c ≠ A → c ∉ sibs →
      c ∉ nR.children → ∃ w ∈ s'.nodes, w.id = c ∧ w.parent = some p := by
    rintro p c ⟨m0, hm0, hm0id, hm0p⟩ n1 n2 n3 n4 n5
    refine ⟨u m0, hwit m0 hm0, by rw [huid, hm0id], ?_⟩
    rw [huO m0 (fun h => n1 (hm0id.symm.trans h)) (fun h => n2 (hm0id.symm.trans h))
      (fun h => n3 (hm0id.symm.trans h)) (fun h => n4 (hm0id ▸ h))
      (fun h => n5 (hm0id ▸ h))]
    exact hm0p
  have hsamelem : ∀ j, j ≠ R → j ≠ F → j ∉ sibs → j ∉ nR.children →
      ∀ p, (ParentRel s' p j ↔ ParentRel s p j) := by
    intro j hjR hjF hjS hjK p
    constructor
    · rintro ⟨n', hn', hid, hpar⟩
      obtain ⟨m, hm, hum⟩ := (hmem' n').mp hn'
      subst hum
      rw [huid] at hid
      refine ⟨m, hm, hid, ?_⟩
      rw [← hpar]
      by_cases hjA : m.id = A
      · rw [huA m hjA]
      · rw [huO m (fun h => hjR (hid.symm.trans h)) (fun h => hjF (hid.symm.trans h))
          hjA (fun h => hjS (hid ▸ h)) (fun h => hjK (hid ▸ h))]
    · rintro ⟨m, hm, hid, hpar⟩
      refine ⟨u m, hwit m hm, by rw [huid]; exact hid, ?_⟩
      rw [← hpar]
      by_cases hjA : m.id = A
      · rw [huA m hjA]
      · rw [huO m (fun h => hjR (hid.symm.trans h)) (fun h => hjF (hid.symm.trans h))
          hjA (fun h => hjS (hid ▸ h)) (fun h => hjK (hid ▸ h))]
  have hApath : ∀ j, Relation.ReflTransGen (ParentRel s) j A →
      j ≠ R ∧ j ≠ F ∧ j ∉ sibs ∧ j ∉ nR.children := by
    intro j hj
    refine ⟨?_, ?_, ?_, ?_⟩
    · intro hjeq
      exact hirr R (Relation.TransGen.trans_right (hjeq ▸ hj)
        (Relation.TransGen.head hPAF (Relation.TransGen.single hPFR)))
    · intro hjeq
      exact hirr F (Relation.TransGen.trans_right (hjeq ▸ hj)
        (Relation.TransGen.single hPAF))
    · intro hjs
      exact hirr j (Relation.TransGen.trans_right hj
        (Relation.TransGen.head hPAF (Relation.TransGen.single (hsibsP j hjs))))
    · intro hjk
      exact hirr j (Relation.TransGen.trans_right hj
        (Relation.TransGen.head hPAF (Relation.TransGen.head hPFR
          (Relation.TransGen.single ((hkids j).mp hjk)))))
  have hAacc : Acc (ParentRel s') A := by
    apply acc_transfer_chain (hWF.rooted A)
    intro j hj p
    obtain ⟨a1, a2, a3, a4⟩ := hApath j hj
    exact hsamelem j a1 a2 a3 a4 p
  have hpar_of : ∀ (i P : Nat), (∀ m : FlowyNode, m.id = i → (u m).parent = some P) →
      ∀ n' ∈ s'.nodes, n'.id = i → n'.parent = some P := by
    intro i P h n' hn' hid
    obtain ⟨m, hm, hum⟩ := (hmem' n').mp hn'
    subst hum
    exact h m ((huid m).symm.trans hid)
  have hRacc : Acc (ParentRel s') R :=
    acc_of_parent_edge (hpar_of R A (fun m hm' => by rw [huR m hm'])) hAacc
  have hFacc : Acc (ParentRel s') F :=
    acc_of_parent_edge (hpar_of F R (fun m hm' => by rw [huF m hm'])) hRacc
  have hSacc : ∀ j ∈ sibs, Acc (ParentRel s') j := fun j hj =>
    acc_of_parent_edge (hpar_of j R (fun m hm' => by rw [huS m (hm'.symm ▸ hj)])) hRacc
  have hKacc : ∀ j ∈ nR.children, Acc (ParentRel s') j := fun j hj =>
    acc_of_parent_edge (hpar_of j F (fun m hm' => by rw [huK m (hm'.symm ▸ hj)])) hFacc
  refine ⟨?_, ?_, ?_, ?_, ?_, ?_⟩
  · -- nodupIds
    rw [hids']
    exact hWF.nodupIds
  · -- childNodup
    intro n' hn'
    obtain ⟨m, hm, hum⟩ := (hmem' n').mp hn'
    subst hum
    by_cases h1 : m.id = R
    · rw [huR m h1]
      exact List.nodup_cons.mpr ⟨hFs, hsnd⟩
    · by_cases h2 : m.id = F
      · rw [huF m h2]
        exact hWF.childNodup nR hnRmem
      · by_cases h3 : m.id = A
        · rw [huA m h3]
          have hmA : m = nA := huniq m hm nA (by rw [h3]; exact hAl)
          subst hmA
          exact nodup_replaceFirst (hWF.childNodup m hm) hRinA
        · by_cases h4 : m.id ∈ sibs
          · rw [huS m h4]
            exact hWF.childNodup m hm
          · by_cases h5 : m.id ∈ nR.children
            · rw [huK m h5]
              exact hWF.childNodup m hm
            · rw [huO m h1 h2 h3 h4 h5]
              exact hWF.childNodup m hm
  · -- childParent
    intro n' hn' c hc
    obtain ⟨m, hm, hum⟩ := (hmem' n').mp hn'
    subst hum
    rw [huid m]
    by_cases h1 : m.id = R
    · rw [huR m h1] at hc
      rw [h1]
      rcases List.mem_cons.mp hc with hcF | hcs
      · subst hcF
        exact hwitF
      · exact hwitS hcs
    · by_cases h2 : m.id = F
      · rw [huF m h2] at hc
        rw [h2]
        exact hwitK hc
      · by_cases h3 : m.id = A
        · have hmA : m = nA := huniq m hm nA (by rw [h3]; exact hAl)
          subst hmA
          rw [huA m hnAid] at hc
          rw [hnAid]
          rcases (mem_replaceFirst_iff (hWF.childNodup m hm) hFinA R c).mp hc with
            ⟨hcA, hcF⟩ | hcR
          · have hPAc : ParentRel s A c :=
              (hnAid ▸ mem_children_iff hWF (s := s) hm).mp hcA
            refine hwitO hPAc ?_ hcF ?_ ?_ ?_
            · intro h
              exact hRinA (h ▸ hcA)
            · intro h
              exact hirr A (Relation.TransGen.single (h ▸ hPAc))
            · intro h
              exact hFA (hdet hPAc (hsibsP c h)).symm
            · intro h
              exact hRA (hdet ((hkids c).mp h) hPAc)
          · subst hcR
            exact hwitR
        · by_cases h4 : m.id ∈ sibs
          · rw [huS m h4] at hc
            have hP : ParentRel s m.id c := (mem_children_iff hWF hm).mp hc
            refine hwitO hP ?_ ?_ ?_ ?_ ?_
            · intro h
              exact hFs ((hdet (h ▸ hP) hPFR) ▸ h4)
            · intro h
              exact hAs ((hdet (h ▸ hP) hPAF) ▸ h4)
            · intro h
              exact hirr A (Relation.TransGen.head hPAF
                (Relation.TransGen.head (hsibsP m.id h4)
                  (Relation.TransGen.single (h ▸ hP))))
            · intro h
              exact hFs ((hdet hP (hsibsP c h)) ▸ h4)
            · intro h
              exact hRs ((hdet hP ((hkids c).mp h)) ▸ h4)
          · by_cases h5 : m.id ∈ nR.children
            · rw [huK m h5] at hc
              have hP : ParentRel s m.id c := (mem_children_iff hWF hm).mp hc
              refine hwitO hP ?_ ?_ ?_ ?_ ?_
              · intro h
                exact hFk ((hdet (h ▸ hP) hPFR) ▸ h5)
              · intro h
                exact hAk ((hdet (h ▸ hP) hPAF) ▸ h5)
              · intro h
                exact hirr A (Relation.TransGen.head hPAF
                  (Relation.TransGen.head hPFR
                    (Relation.TransGen.head ((hkids m.id).mp h5)
                      (Relation.TransGen.single (h ▸ hP)))))
              · intro h
                exact hFk ((hdet hP (hsibsP c h)) ▸ h5)
              · intro h
                exact hRk ((hdet hP ((hkids c).mp h)) ▸ h5)
            · rw [huO m h1 h2 h3 h4 h5] at hc
              have hP : ParentRel s m.id c := (mem_children_iff hWF hm).mp hc
              by_cases hcA : c = A
              · subst hcA
                exact hwitA hP
              · refine hwitO hP ?_ ?_ hcA ?_ ?_
                · intro h
                  exact h2 (hdet (h ▸ hP) hPFR)
                · intro h
                  exact h3 (hdet (h ▸ hP) hPAF)
                · intro h
                  exact h2 (hdet hP (hsibsP c h))
                · intro h
                  exact h1 (hdet hP ((hkids c).mp h))
  · -- parentChild
    intro n' hn' p hp
    obtain ⟨m, hm, hum⟩ := (hmem' n').mp hn'
    subst hum
    rw [huid m]
    by_cases h1 : m.id = R
    · rw [huR m h1] at hp
      have hpA : A = p := Option.some_injective _ hp
      subst hpA
      refine ⟨u nA, hwit nA hnAmem, by rw [huid, hnAid], ?_⟩
      rw [huA nA hnAid, h1]
      exact (mem_replaceFirst_iff (hWF.childNodup nA hnAmem) hFinA R R).mpr (Or.inr rfl)
    · by_cases h2 : m.id = F
      · rw [huF m h2] at hp
        have hpR : R = p := Option.some_injective _ hp
        subst hpR
        refine ⟨u nR, hwit nR hnRmem, by rw [huid, hnRid], ?_⟩
        rw [huR nR hnRid, h2]
        exact List.mem_cons_self F sibs
      · by_cases h3 : m.id = A
        · have hmA : m = nA := huniq m hm nA (by rw [h3]; exact hAl)
          subst hmA
          rw [huA m hnAid] at hp
          have hPpA : ParentRel s p A := ⟨m, hm, hnAid, hp⟩
          obtain ⟨m0, hm0, hm0id, hAin⟩ := hWF.parentChild m hm p hp
          rw [hnAid] at hAin
          by_cases hpR : p = R
          · exfalso
            have : m0 = nR := huniq m0 hm0 nR (by rw [hm0id, hpR]; exact hRl)
            exact hAk (this ▸ hAin)
          · by_cases hpF : p = F
            · exfalso
              have hm0F : m0 = nF := huniq m0 hm0 nF (by rw [hm0id, hpF]; exact hFl)
              exact hAs ((hsibs A).mpr ⟨hm0F ▸ hAin, fun h => hRA h.symm⟩)
            · by_cases hpA : p = A
              · exact absurd (Relation.TransGen.single (hpA ▸ hPpA)) (hirr A)
              · by_cases hps : p ∈ sibs
                · exact absurd (Relation.TransGen.head hPAF
                    (Relation.TransGen.head (hsibsP p hps)
                      (Relation.TransGen.single hPpA))) (hirr A)
                · by_cases hpk : p ∈ nR.children
                  · exact absurd (Relation.TransGen.head hPAF
                      (Relation.TransGen.head hPFR
                        (Relation.TransGen.head ((hkids p).mp hpk)
                          (Relation.TransGen.single hPpA)))) (hirr A)
                  · refine ⟨u m0, hwit m0 hm0, by rw [huid, hm0id], ?_⟩
                    rw [huO m0 (fun h => hpR (hm0id.symm.trans h))
                      (fun h => hpF (hm0id.symm.trans h))
                      (fun h => hpA (hm0id.symm.trans h))
                      (fun h => hps (hm0id ▸ h)) (fun h => hpk (hm0id ▸ h)), hnAid]
                    exact hAin
        · by_cases h4 : m.id ∈ sibs
          · rw [huS m h4] at hp
            have hpR : R = p := Option.some_injective _ hp
            subst hpR
            refine ⟨u nR, hwit nR hnRmem, by rw [huid, hnRid], ?_⟩
            rw [huR nR hnRid]
            exact List.mem_cons_of_mem F h4
          · by_cases h5 : m.id ∈ nR.children
            · rw [huK m h5] at hp
              have hpF : F = p := Option.some_injective _ hp
              subst hpF
              refine ⟨u nF, hwit nF hnFmem, by rw [huid, hnFid], ?_⟩
              rw [huF nF hnFid]
              exact h5
            · rw [huO m h1 h2 h3 h4 h5] at hp
              obtain ⟨m0, hm0, hm0id, hmin⟩ := hWF.parentChild m hm p hp
              by_cases hpR : p = R
              · exfalso
                have : m0 = nR := huniq m0 hm0 nR (by rw [hm0id, hpR]; exact hRl)
                exact h5 (this ▸ hmin)
              · by_cases hpF : p = F
                · exfalso
                  have hm0F : m0 = nF := huniq m0 hm0 nF (by rw [hm0id, hpF]; exact hFl)
                  exact h4 ((hsibs m.id).mpr ⟨hm0F ▸ hmin, h1⟩)
                · by_cases hpA : p = A
                  · have hm0A : m0 = nA := huniq m0 hm0 nA (by rw [hm0id, hpA]; exact hAl)
                    refine ⟨u m0, hwit m0 hm0, by rw [huid, hm0id], ?_⟩
                    rw [huA m0 (by rw [hm0id, hpA])]
                    subst hm0A
                    exact (mem_replaceFirst_iff (hWF.childNodup m0 hm0)
                      hFinA R m.id).mpr (Or.inl ⟨hmin, h2⟩)
                  · by_cases hps : p ∈ sibs
                    · refine ⟨u m0, hwit m0 hm0, by rw [huid, hm0id], ?_⟩
                      rw [huS m0 (hm0id.symm ▸ hps)]
                      exact hmin
                    · by_cases hpk : p ∈ nR.children
                      · refine ⟨u m0, hwit m0 hm0, by rw [huid, hm0id], ?_⟩
                        rw [huK m0 (hm0id.symm ▸ hpk)]
                        exact hmin
                      · refine ⟨u m0, hwit m0 hm0, by rw [huid, hm0id], ?_⟩
                        rw [huO m0 (fun h => hpR (hm0id.symm.trans h))
                          (fun h => hpF (hm0id.symm.trans h))
                          (fun h => hpA (hm0id.symm.trans h))
                          (fun h => hps (hm0id ▸ h)) (fun h => hpk (hm0id ▸ h))]
                        exact hmin
  · -- rooted
    refine rooted_of_changes
      (M := fun x => x = R ∨ x = F ∨ x ∈ sibs ∨ x ∈ nR.children) ?_ ?_ hWF.rooted
    · rintro x (rfl | rfl | hx | hx)
      · exact hRacc
      · exact hFacc
      · exact hSacc x hx
      · exact hKacc x hx
    · intro c hMc p
      exact hsamelem c (fun h => hMc (Or.inl h)) (fun h => hMc (Or.inr (Or.inl h)))
        (fun h => hMc (Or.inr (Or.inr (Or.inl h))))
        (fun h => hMc (Or.inr (Or.inr (Or.inr h)))) p
  · -- fresh
    intro n' hn'
    obtain ⟨m, hm, hum⟩ := (hmem' n').mp hn'
    subst hum
    rw [huid m]
    exact hWF.fresh m hm

/-- The side conditions of the rotation closed forms, derived from the
invariant. -/
theorem rotate_sides {s : TreeState} (hWF : WF s) {R F A : Nat} {nR nF : FlowyNode}
    (hRl : getNodeById s R = some nR) (hRp : nR.parent = some F)
    (hFl : getNodeById s F = some nF) (hFp : nF.parent = some A)
    {sibs : List Nat} (hsibs : ∀ x, x ∈ sibs ↔ x ∈ nF.children ∧ x ≠ R) :
    R ≠ F ∧ R ≠ A ∧ F ≠ A ∧
    (∀ c ∈ sibs, c ∈ ids s) ∧ (∀ c ∈ nR.children, c ∈ ids s) ∧
    nR.children.Nodup ∧ R ∉ sibs ∧ F ∉ sibs ∧ A ∉ sibs ∧
    R ∉ nR.children ∧ F ∉ nR.children ∧ A ∉ nR.children ∧
    (∀ c ∈ sibs, c ∉ nR.children) := by
  obtain ⟨hnRmem, hnRid⟩ := getNodeById_mem hRl
  obtain ⟨hnFmem, hnFid⟩ := getNodeById_mem hFl
  have hPFR : ParentRel s F R := ⟨nR, hnRmem, hnRid, hRp⟩
  have hPAF : ParentRel s A F := ⟨nF, hnFmem, hnFid, hFp⟩
  have hirr := rooted_irrefl hWF.rooted
  have hdet : ∀ {p q c : Nat}, ParentRel s p c → ParentRel s q c → p = q :=
    fun h1 h2 => parentRel_det hWF.nodupIds h1 h2
  have hRF : R ≠ F := by
    intro h
    exact hirr R (Relation.TransGen.single (h ▸ hPFR))
  have hFA : F ≠ A := by
    intro h
    exact hirr F (Relation.TransGen.single (h ▸ hPAF))
  have hRA : R ≠ A := by
    intro h
    exact hirr R (Relation.TransGen.head (h ▸ hPAF) (Relation.TransGen.single hPFR))
  have hkids : ∀ x, x ∈ nR.children ↔ ParentRel s R x := by
    intro x
    rw [mem_children_iff hWF hnRmem, hnRid]
  have hsibsP : ∀ x ∈ sibs, ParentRel s F x := by
    intro x hx
    exact (hnFid ▸ mem_children_iff hWF hnFmem).mp ((hsibs x).mp hx).1
  have hRk : R ∉ nR.children := by
    intro h
    exact hirr R (Relation.TransGen.single ((hkids R).mp h))
  have hFk : F ∉ nR.children := by
    intro h
    exact hirr F (Relation.TransGen.head hPFR (Relation.TransGen.single ((hkids F).mp h)))
  have hAk : A ∉ nR.children := by
    intro h
    exact hirr A (Relation.TransGen.head hPAF (Relation.TransGen.head hPFR
      (Relation.TransGen.single ((hkids A).mp h))))
  have hRs : R ∉ sibs := fun h => ((hsibs R).mp h).2 rfl
  have hFs : F ∉ sibs := by
    intro h
    exact hirr F (Relation.TransGen.single (hsibsP F h))
  have hAs : A ∉ sibs := by
    intro h
    exact hirr A (Relation.TransGen.head hPAF (Relation.TransGen.single (hsibsP A h)))
  have hdisj : ∀ x ∈ sibs, x ∉ nR.children := by
    intro x hx hk
    exact hRF (hdet ((hkids x).mp hk) (hsibsP x hx))
  refine ⟨hRF, hRA, hFA, ?_, ?_, hWF.childNodup nR hnRmem,
    hRs, hFs, hAs, hRk, hFk, hAk, hdisj⟩
  · intro c hc
    exact children_sub_ids hWF hnFmem c ((hsibs c).mp hc).1
  · intro c hc
    exact children_sub_ids hWF hnRmem c hc

theorem rotateF_eqR {R F A : Nat} {sibs kids : List Nat} {m : FlowyNode}
    (h : m.id = R) :
    rotateF R F A sibs kids m = { m with parent := some A, children := F :: sibs } := by
  unfold rotateF
  rw [if_pos h]

theorem rotateF_eqF {R F A : Nat} {sibs kids : List Nat} {m : FlowyNode}
    (h : m.id = F) (hne : F ≠ R) :
    rotateF R F A sibs kids m = { m with parent := some R, children := kids } := by
  unfold rotateF
  rw [if_neg (fun hr => hne (h.symm.trans hr)), if_pos h]

theorem rotateF_eqA {R F A : Nat} {sibs kids : List Nat} {m : FlowyNode}
    (h : m.id = A) (h1 : A ≠ R) (h2 : A ≠ F) :
    rotateF R F A sibs kids m = { m with children := replaceFirst m.children F R } := by
  unfold rotateF
  rw [if_neg (fun hr => h1 (h.symm.trans hr)), if_neg (fun hf => h2 (h.symm.trans hf)),
    if_pos h]

theorem rotateF_eqS {R F A : Nat} {sibs kids : List Nat} {m : FlowyNode}
    (h : m.id ∈ sibs) (h1 : m.id ≠ R) (h2 : m.id ≠ F) (h3 : m.id ≠ A) :
    rotateF R F A sibs kids m = { m with parent := some R } := by
  unfold rotateF
  rw [if_neg h1, if_neg h2, if_neg h3, if_pos h]

theorem rotateF_eqK {R F A : Nat} {sibs kids : List Nat} {m : FlowyNode}
    (h : m.id ∈ kids) (h1 : m.id ≠ R) (h2 : m.id ≠ F) (h3 : m.id ≠ A)
    (h4 : m.id ∉ sibs) :
    rotateF R F A sibs kids m = { m with parent := some F } := by
  unfold rotateF
  rw [if_neg h1, if_neg h2, if_neg h3, if_neg h4, if_pos h]

theorem rotateF_eqO {R F A : Nat} {sibs kids : List Nat} {m : FlowyNode}
    (h1 : m.id ≠ R) (h2 : m.id ≠ F) (h3 : m.id ≠ A) (h4 : m.id ∉ sibs)
    (h5 : m.id ∉ kids) :
    rotateF R F A sibs kids m = m := by
  unfold rotateF
  rw [if_neg h1, if_neg h2, if_neg h3, if_neg h4, if_neg h5]

theorem flowyNode_eta {n : FlowyNode} {p : Option Nat} {cs : List Nat}
    (hp : n.parent = p) (hc : n.children = cs) :
    ({ n with parent := p, children := cs } : FlowyNode) = n := by
  cases n
  cases hp
  cases hc
  rfl

theorem ids_map_of_id {s : TreeState} {u : FlowyNode → FlowyNode}
    (hu : ∀ n, (u n).id = n.id) :
    ids { s with nodes := s.nodes.map u } = ids s := by
  show (s.nodes.map u).map (fun n => n.id) = s.nodes.map (fun n => n.id)
  rw [List.map_map]
  exact List.map_congr_left (fun n _ => hu n)

/-- Undoing one rotation with the opposite rotation restores every node:
the pointwise inverse law behind the promote/demote round trips. -/
theorem rotate_rotate_id {s : TreeState} (hWF : WF s) {a b A : Nat}
    {na nb : FlowyNode} {rest : List Nat}
    (hbl : getNodeById s b = some nb) (hbp : nb.parent = some A)
    (hbc : nb.children = a :: rest) (hal : getNodeById s a = some na) :
    (s.nodes.map (rotateF a b A rest na.children)).map
      (rotateF b a A rest na.children) = s.nodes := by
  obtain ⟨hnbmem, hnbid⟩ := getNodeById_mem hbl
  obtain ⟨hnamem, hnaid⟩ := getNodeById_mem hal
  have hain : a ∈ nb.children := by
    rw [hbc]
    exact List.mem_cons_self a rest
  have hna_par : na.parent = some b := by
    have := parent_of_child_mem hWF hnbmem hnamem (hnaid.symm ▸ hain)
    rwa [hnbid] at this
  have harest : a ∉ rest := by
    have := hWF.childNodup nb hnbmem
    rw [hbc] at this
    exact (List.nodup_cons.mp this).1
  have hsibs : ∀ x, x ∈ rest ↔ x ∈ nb.children ∧ x ≠ a := by
    intro x
    rw [hbc]
    constructor
    · intro hx
      exact ⟨List.mem_cons_of_mem _ hx, fun h => harest (h ▸ hx)⟩
    · rintro ⟨hx, hne⟩
      rcases List.mem_cons.mp hx with h | h
      · exact absurd h hne
      · exact h
  obtain ⟨hab, haA, hbA, hsall, hkall, hknd, has, hbs, hAs, hak, hbk, hAk, hdisj⟩ :=
    rotate_sides hWF hal hna_par hbl hbp hsibs
  have hirr := rooted_irrefl hWF.rooted
  have hdet : ∀ {p q c : Nat}, ParentRel s p c → ParentRel s q c → p = q :=
    fun h1 h2 => parentRel_det hWF.nodupIds h1 h2
  have hPba : ParentRel s b a := ⟨na, hnamem, hnaid, hna_par⟩
  have huniq : ∀ n ∈ s.nodes, ∀ m, getNodeById s n.id = some m → n = m := by
    intro n hn m hm
    have := getNodeById_eq_some_self hWF.nodupIds hn
    rw [this] at hm
    exact Option.some_injective _ hm
  rw [List.map_map]
  have hcongr : s.nodes.map
      (rotateF b a A rest na.children ∘ rotateF a b A rest na.children) =
      s.nodes.map id := by
    apply List.map_congr_left
    intro n hn
    show rotateF b a A rest na.children (rotateF a b A rest na.children n) = n
    by_cases h1 : n.id = a
    · have hnna : n = na := huniq n hn na (by rw [h1]; exact hal)
      rw [rotateF_eqR h1]
      rw [rotateF_eqF (show ({ n with parent := some A, children := b :: rest } : FlowyNode).id = a from h1) hab]
      rw [hnna]
      exact flowyNode_eta hna_par rfl
    · by_cases h2 : n.id = b
      · have hnnb : n = nb := huniq n hn nb (by rw [h2]; exact hbl)
        rw [rotateF_eqF h2 (fun h => hab h.symm)]
        rw [rotateF_eqR (show ({ n with parent := some a, children := na.children } : FlowyNode).id = b from h2)]
        rw [hnnb]
        exact flowyNode_eta hbp hbc
      · by_cases h3 : n.id = A
        · have hPAc : ∀ x ∈ n.children, ParentRel s A x := by
            intro x hx
            exact (h3 ▸ mem_children_iff hWF hn).mp hx
          have hanA : a ∉ n.children := by
            intro h
            exact hbA (hdet hPba (hPAc a h))
          rw [rotateF_eqA h3 (fun h => haA h.symm) (fun h => hbA h.symm)]
          rw [rotateF_eqA (show ({ n with children := replaceFirst n.children b a } : FlowyNode).id = A from h3) (fun h => hbA h.symm) (fun h => haA h.symm)]
          show ({ n with children := replaceFirst (replaceFirst n.children b a) a b } : FlowyNode) = n
          rw [replaceFirst_replaceFirst (hWF.childNodup n hn) hanA]
        · by_cases h4 : n.id ∈ rest
          · have hnpar : n.parent = some b := by
              have := parent_of_child_mem hWF hnbmem hn
                (((hsibs n.id).mp h4).1)
              rwa [hnbid] at this
            rw [rotateF_eqS h4 h1 h2 h3]
            rw [rotateF_eqS (show ({ n with parent := some a } : FlowyNode).id ∈ rest from h4) h2 h1 h3]
            exact flowyNode_eta hnpar rfl
          · by_cases h5 : n.id ∈ na.children
            · have hnpar : n.parent = some a := by
                have := parent_of_child_mem hWF hnamem hn h5
                rwa [hnaid] at this
              rw [rotateF_eqK h5 h1 h2 h3 h4]
              rw [rotateF_eqK (show ({ n with parent := some b } : FlowyNode).id ∈ na.children from h5) h2 h1 h3 h4]
              exact flowyNode_eta hnpar rfl
            · rw [rotateF_eqO h1 h2 h3 h4 h5, rotateF_eqO h2 h1 h3 h4 h5]
  rw [hcongr, List.map_id]

/-- `PromoteNode` preserves the invariant. -/
theorem wf_promoteNode {s : TreeState} (hWF : WF s) (nodeId : Nat) :
    WF (promoteNode s nodeId).1 := by
  rcases hnode : getNodeById s nodeId with _ | node
  · unfold promoteNode
    simp only [hnode]
    exact hWF
  · rcases hpp : node.parent with _ | oldParentId
    · unfold promoteNode
      simp only [hnode, hpp]
      exact hWF
    · rcases hop : getNodeById s oldParentId with _ | oldParent
      · unfold promoteNode
        simp only [hnode, hpp, hop]
        exact hWF
      · rcases hgp : oldParent.parent with _ | grandParentId
        · unfold promoteNode
          simp only [hnode, hpp, hop, hgp]
          exact hWF
        · rcases hgl : getNodeById s grandParentId with _ | grandParent
          · unfold promoteNode
            simp only [hnode, hpp, hop, hgp, hgl]
            exact hWF
          · have hsibs : ∀ x, x ∈ oldParent.children.filter (fun i => i ≠ nodeId) ↔
                x ∈ oldParent.children ∧ x ≠ nodeId := by
              intro x
              simp [List.mem_filter]
            have hsnd : (oldParent.children.filter (fun i => i ≠ nodeId)).Nodup :=
              (hWF.childNodup oldParent (getNodeById_mem hop).1).filter _
            obtain ⟨hRF, hRA, hFA, hsall, hkall, hknd, hRs, hFs, hAs, hRk, hFk,
              hAk, hdisj⟩ := rotate_sides hWF hnode hpp hop hgp hsibs
            rw [promoteNode_eq hnode hpp hop hgp hgl hRF hRA hFA hsall hkall hsnd
              hknd hRs hFs hAs hRk hFk hAk hdisj]
            exact wf_rotateF hWF hnode hpp hop hgp hsibs hsnd

/-- `DemoteNode` preserves the invariant. -/
theorem wf_demoteNode {s : TreeState} (hWF : WF s) (nodeId : Nat) :
    WF (demoteNode s nodeId).1 := by
  rcases hnode : getNodeById s nodeId with _ | node
  · unfold demoteNode
    simp only [hnode]
    exact hWF
  · rcases hpp : node.parent with _ | parentId
    · unfold demoteNode
      simp only [hnode, hpp]
      exact hWF
    · rcases hch : node.children with _ | ⟨firstChildId, restChildren⟩
      · unfold demoteNode
        simp only [hnode, hpp, hch]
        exact hWF
      · rcases hfc : getNodeById s firstChildId with _ | firstChild
        · unfold demoteNode
          simp only [hnode, hpp, hch, hfc]
          exact hWF
        · rcases hpl : getNodeById s parentId with _ | parent
          · unfold demoteNode
            simp only [hnode, hpp, hch, hfc, hpl]
            exact hWF
          · have hnmem : node ∈ s.nodes := (getNodeById_mem hnode).1
            have hfcin : firstChildId ∈ node.children := by
              rw [hch]
              exact List.mem_cons_self firstChildId restChildren
            have hRp : firstChild.parent = some nodeId := by
              have := parent_of_child_mem hWF hnmem (getNodeById_mem hfc).1
                ((getNodeById_mem hfc).2 ▸ hfcin)
              rwa [(getNodeById_mem hnode).2] at this
            have hfcrest : firstChildId ∉ restChildren := by
              have := hWF.childNodup node hnmem
              rw [hch] at this
              exact (List.nodup_cons.mp this).1
            have hsibs : ∀ x, x ∈ restChildren ↔ x ∈ node.children ∧ x ≠ firstChildId := by
              intro x
              rw [hch]
              constructor
              · intro hx
                exact ⟨List.mem_cons_of_mem _ hx, fun h => hfcrest (h ▸ hx)⟩
              · rintro ⟨hx, hne⟩
                rcases List.mem_cons.mp hx with h | h
                · exact absurd h hne
                · exact h
            have hsnd : restChildren.Nodup := by
              have := hWF.childNodup node hnmem
              rw [hch] at this
              exact (List.nodup_cons.mp this).2
            obtain ⟨hRF, hRA, hFA, hsall, hkall, hknd, hRs, hFs, hAs, hRk, hFk,
              hAk, hdisj⟩ := rotate_sides hWF hfc hRp hnode hpp hsibs
            rw [demoteNode_eq hnode hpp hch hfc hpl hRF hRA hFA hsall hkall hsnd
              hknd hRs hFs hAs hRk hFk hAk hdisj]
            exact wf_rotateF hWF hfc hRp hnode hpp hsibs hsnd

/-- A successful demotion is exactly undone by promoting the same node. -/
theorem demote_promote_exact {s : TreeState} (hWF : WF s) {x : Nat}
    (hsucc : (demoteNode s x).2 = true) :
    promoteNode (demoteNode s x).1 x = (s, true) := by
  rcases hnode : getNodeById s x with _ | node
  · unfold demoteNode at hsucc
    simp only [hnode] at hsucc
    exact Bool.noConfusion hsucc
  · rcases hpp : node.parent with _ | parentId
    · unfold demoteNode at hsucc
      simp only [hnode, hpp] at hsucc
      exact Bool.noConfusion hsucc
    · rcases hch : node.children with _ | ⟨firstChildId, restChildren⟩
      · unfold demoteNode at hsucc
        simp only [hnode, hpp, hch] at hsucc
        exact Bool.noConfusion hsucc
      · rcases hfc : getNodeById s firstChildId with _ | firstChild
        · unfold demoteNode at hsucc
          simp only [hnode, hpp, hch, hfc] at hsucc
          exact Bool.noConfusion hsucc
        · rcases hpl : getNodeById s parentId with _ | parent
          · unfold demoteNode at hsucc
            simp only [hnode, hpp, hch, hfc, hpl] at hsucc
            exact Bool.noConfusion hsucc
          · have hnmem : node ∈ s.nodes := (getNodeById_mem hnode).1
            have hnode_id : node.id = x := (getNodeById_mem hnode).2
            have hfc_id : firstChild.id = firstChildId := (getNodeById_mem hfc).2
            have hfcin : firstChildId ∈ node.children := by
              rw [hch]
              exact List.mem_cons_self firstChildId restChildren
            have hRp : firstChild.parent = some x := by
              have := parent_of_child_mem hWF hnmem (getNodeById_mem hfc).1
                (hfc_id ▸ hfcin)
              rwa [hnode_id] at this
            have hfcrest : firstChildId ∉ restChildren := by
              have := hWF.childNodup node hnmem
              rw [hch] at this
              exact (List.nodup_cons.mp this).1
            have hsibs : ∀ y, y ∈ restChildren ↔ y ∈ node.children ∧ y ≠ firstChildId := by
              intro y
              rw [hch]
              constructor
              · intro hy
                exact ⟨List.mem_cons_of_mem _ hy, fun h => hfcrest (h ▸ hy)⟩
              · rintro ⟨hy, hne⟩
                rcases List.mem_cons.mp hy with h | h
                · exact absurd h hne
                · exact h
            have hsnd : restChildren.Nodup := by
              have := hWF.childNodup node hnmem
              rw [hch] at this
              exact (List.nodup_cons.mp this).2
            obtain ⟨hRF, hRA, hFA, hsall, hkall, hknd, hRs, hFs, hAs, hRk, hFk,
              hAk, hdisj⟩ := rotate_sides hWF hfc hRp hnode hpp hsibs
            rw [demoteNode_eq hnode hpp hch hfc hpl hRF hRA hFA hsall hkall hsnd
              hknd hRs hFs hAs hRk hFk hAk hdisj]
            set g1 := rotateF firstChildId x parentId restChildren firstChild.children with hg1def
            show promoteNode { s with nodes := s.nodes.map g1 } x = (s, true)
            set s1 : TreeState := { s with nodes := s.nodes.map g1 } with hs1def
            have huid : ∀ m : FlowyNode, (g1 m).id = m.id :=
              fun m => rotateF_id _ _ _ _ _ m
            have hids1 : ids s1 = ids s := ids_map_of_id huid
            have h1x : getNodeById s1 x = some (g1 node) := by
              rw [hs1def, getNodeById_map huid x, hnode]
              rfl
            have h1fc : getNodeById s1 firstChildId = some (g1 firstChild) := by
              rw [hs1def, getNodeById_map huid firstChildId, hfc]
              rfl
            have h1p : getNodeById s1 parentId = some (g1 parent) := by
              rw [hs1def, getNodeById_map huid parentId, hpl]
              rfl
            have hg1node : g1 node = { node with parent := some firstChildId, children := firstChild.children } :=
              rotateF_eqF hnode_id (fun h => hRF h.symm)
            have hg1fc : g1 firstChild = { firstChild with parent := some parentId, children := x :: restChildren } :=
              rotateF_eqR hfc_id
            have hnodech : (g1 node).children = firstChild.children := by
              rw [hg1node]
            have hnodepar : (g1 node).parent = some firstChildId := by
              rw [hg1node]
            have hfcpar : (g1 firstChild).parent = some parentId := by
              rw [hg1fc]
            have hfilt : (g1 firstChild).children.filter (fun i => i ≠ x)
                = restChildren := by
              rw [hg1fc]
              show (x :: restChildren).filter (fun i => i ≠ x) = restChildren
              rw [List.filter_cons_of_neg (by simp)]
              exact List.filter_eq_self.mpr
                (fun r hr => decide_eq_true (fun h => hFs (h ▸ hr)))
            rw [promoteNode_eq h1x hnodepar h1fc hfcpar h1p
              (fun h => hRF h.symm) hFA hRA
              (by intro c hc; rw [hfilt] at hc; rw [hids1]; exact hsall c hc)
              (by intro c hc; rw [hnodech] at hc; rw [hids1]; exact hkall c hc)
              (by rw [hfilt]; exact hsnd)
              (by rw [hnodech]; exact hknd)
              (by rw [hfilt]; exact hFs)
              (by rw [hfilt]; exact hRs)
              (by rw [hfilt]; exact hAs)
              (by rw [hnodech]; exact hFk)
              (by rw [hnodech]; exact hRk)
              (by rw [hnodech]; exact hAk)
              (by intro c hc; rw [hfilt] at hc; rw [hnodech]; exact hdisj c hc)]
            rw [hfilt, hnodech]
            refine congrArg (fun t => (t, true)) (treeState_eq ?_ rfl rfl)
            show (s.nodes.map g1).map (rotateF x firstChildId parentId restChildren firstChild.children) = s.nodes
            rw [hg1def]
            exact rotate_rotate_id hWF hnode hpp hch hfc

/-- When the promoted node was the first child of its parent, demoting it
again restores the original tree exactly. -/
theorem promote_demote_first {s : TreeState} (hWF : WF s) {x P G : Nat}
    {node nP nG : FlowyNode} {rest : List Nat}
    (hnode : getNodeById s x = some node) (hpp : node.parent = some P)
    (hop : getNodeById s P = some nP) (hfirst : nP.children = x :: rest)
    (hgp : nP.parent = some G) (hgl : getNodeById s G = some nG) :
    demoteNode (promoteNode s x).1 x = (s, true) := by
  have hnP_id : nP.id = P := (getNodeById_mem hop).2
  have hnode_id : node.id = x := (getNodeById_mem hnode).2
  have hnPmem : nP ∈ s.nodes := (getNodeById_mem hop).1
  have hxrest : x ∉ rest := by
    have := hWF.childNodup nP hnPmem
    rw [hfirst] at this
    exact (List.nodup_cons.mp this).1
  have hsndrest : rest.Nodup := by
    have := hWF.childNodup nP hnPmem
    rw [hfirst] at this
    exact (List.nodup_cons.mp this).2
  have hsibs : ∀ y, y ∈ rest ↔ y ∈ nP.children ∧ y ≠ x := by
    intro y
    rw [hfirst]
    constructor
    · intro hy
      exact ⟨List.mem_cons_of_mem _ hy, fun h => hxrest (h ▸ hy)⟩
    · rintro ⟨hy, hne⟩
      rcases List.mem_cons.mp hy with h | h
      · exact absurd h hne
      · exact h
  obtain ⟨hRF, hRA, hFA, hsall, hkall, hknd, hRs, hFs, hAs, hRk, hFk, hAk,
    hdisj⟩ := rotate_sides hWF hnode hpp hop hgp hsibs
  have hfiltP : nP.children.filter (fun i => i ≠ x) = rest := by
    rw [hfirst]
    show (x :: rest).filter (fun i => i ≠ x) = rest
    rw [List.filter_cons_of_neg (by simp)]
    exact List.filter_eq_self.mpr
      (fun r hr => decide_eq_true (fun h => hRs (h ▸ hr)))
  rw [promoteNode_eq hnode hpp hop hgp hgl hRF hRA hFA
    (by intro c hc; rw [hfiltP] at hc; exact hsall c hc)
    hkall
    (by rw [hfiltP]; exact hsndrest)
    hknd
    (by rw [hfiltP]; exact hRs)
    (by rw [hfiltP]; exact hFs)
    (by rw [hfiltP]; exact hAs)
    hRk hFk hAk
    (by intro c hc; rw [hfiltP] at hc; exact hdisj c hc)]
  rw [hfiltP]
  set g1 := rotateF x P G rest node.children with hg1def
  show demoteNode { s with nodes := s.nodes.map g1 } x = (s, true)
  set s1 : TreeState := { s with nodes := s.nodes.map g1 } with hs1def
  have huid : ∀ m : FlowyNode, (g1 m).id = m.id := fun m => rotateF_id _ _ _ _ _ m
  have hids1 : ids s1 = ids s := ids_map_of_id huid
  have h1x : getNodeById s1 x = some (g1 node) := by
    rw [hs1def, getNodeById_map huid x, hnode]
    rfl
  have h1P : getNodeById s1 P = some (g1 nP) := by
    rw [hs1def, getNodeById_map huid P, hop]
    rfl
  have h1G : getNodeById s1 G = some (g1 nG) := by
    rw [hs1def, getNodeById_map huid G, hgl]
    rfl
  have hg1node : g1 node = { node with parent := some G, children := P :: rest } :=
    rotateF_eqR hnode_id
  have hg1nP : g1 nP = { nP with parent := some x, children := node.children } :=
    rotateF_eqF hnP_id (fun h => hRF h.symm)
  have hnodepar : (g1 node).parent = some G := by
    rw [hg1node]
  have hnodech : (g1 node).children = P :: rest := by
    rw [hg1node]
  have hnPch : (g1 nP).children = node.children := by
    rw [hg1nP]
  rw [demoteNode_eq h1x hnodepar hnodech h1P h1G
    (fun h => hRF h.symm) hFA hRA
    (by intro c hc; rw [hids1]; exact hsall c hc)
    (by intro c hc; rw [hnPch] at hc; rw [hids1]; exact hkall c hc)
    hsndrest
    (by rw [hnPch]; exact hknd)
    hFs hRs hAs
    (by rw [hnPch]; exact hFk)
    (by rw [hnPch]; exact hRk)
    (by rw [hnPch]; exact hAk)
    (by intro c hc; rw [hnPch]; exact hdisj c hc)]
  rw [hnPch]
  refine congrArg (fun t => (t, true)) (treeState_eq ?_ rfl rfl)
  show (s.nodes.map g1).map (rotateF P x G rest node.children) = s.nodes
  rw [hg1def]
  exact rotate_rotate_id hWF hop hgp hfirst hnode

/-- `MoveNode` preserves the invariant. -/
theorem wf_moveNode {s : TreeState} (hWF : WF s) (nodeId : Nat) (np : Option Nat)
    (pos : Int) : WF (moveNode s nodeId np pos).1 := by
  rcases hnode : getNodeById s nodeId with _ | node
  · unfold moveNode
    rw [hnode]
    exact hWF
  · rcases np with _ | pid
    · rw [moveNode_none_eq hnode]
      exact wf_move_none hWF hnode rfl rfl
    · by_cases hself : pid = nodeId
      · subst hself
        unfold moveNode
        simp only [hnode, if_true]
        exact hWF
      · rcases hpar : getNodeById s pid with _ | newParent0
        · unfold moveNode
          simp only [hnode]
          rw [if_neg (show ¬ (some pid = some nodeId) by simp [hself])]
          have hok : moveCircularOk s node (some pid) = false := by
            show (match getNodeById s pid with
              | none => false
              | some newParent => !isDescendant s node newParent) = false
            rw [hpar]
          rw [hok]
          rw [if_pos (by simp)]
          exact hWF
        · by_cases hdesc : isDescendant s node newParent0 = true
          · unfold moveNode
            simp only [hnode]
            rw [if_neg (show ¬ (some pid = some nodeId) by simp [hself])]
            rw [moveCircularOk_some hpar, hdesc]
            rw [if_pos (by simp)]
            exact hWF
          · have hdesc' : isDescendant s node newParent0 = false :=
              Bool.not_eq_true _ ▸ Bool.of_not_eq_true hdesc
            rw [moveNode_some_eq hWF.nodupIds hnode hself hpar hdesc']
            have hnanc : ¬ Ancestor s nodeId pid := by
              have := isDescendant_false_not_ancestor hWF (getNodeById_mem hpar).1 hdesc'
              rw [(getNodeById_mem hnode).2, (getNodeById_mem hpar).2] at this
              exact this
            exact wf_move_some hWF hnode hself hpar hnanc rfl rfl

/-! ## Claim C1: tree-model invariants over operation sequences -/

/-- C1 (amended): starting from the empty tree, every state reachable by
`add`/`move`/`remove`/`promote`/`demote` (with `add`'s parent argument a live
node reference) satisfies the tree-model invariant `WF`: node ids are unique,
children lists are duplicate-free, every id in a children list resolves to a
node whose parent link points back, every parent link resolves to a node
listing the child (so a node with a parent has exactly one parent whose
children list contains its id exactly once), parent chains are acyclic, and
the id counter is fresh.  The original clause "at most one node has no
parent" is false and is dropped: see `C1_counterexample`. -/
theorem C1_tree_invariants {s : TreeState} (h : Reachable s) : WF s := by
  induction h with
  | empty => exact WF.empty
  | add name componentId color parent d c hp h ih => exact wf_addNode ih hp
  | move nodeId newParentId pos h ih => exact wf_moveNode ih nodeId newParentId pos
  | remove nodeId h ih => exact wf_removeNode ih nodeId
  | promote nodeId h ih => exact wf_promoteNode ih nodeId
  | demote nodeId h ih => exact wf_demoteNode ih nodeId

/-- Witness for C1: the invariant theorem applied to a concrete reachable
state (one parentless add from the empty tree). -/
theorem C1_tree_invariants_witness :
    WF (addNode TreeState.empty "A" "Person" "#111111" none true true).1 :=
  C1_tree_invariants
    (Reachable.add "A" "Person" "#111111" none true true
      (fun pid h => Option.noConfusion h) Reachable.empty)

/-- C1 counterexample: the original clause "after each call at most one node
in the model has no parent" is false.  Adding a second node with parent
omitted while a root exists leaves two parentless nodes (`AddNode` appends
the node and only skips the root assignment), and moving a node to
`newParentId = null` while a root exists also yields two parentless nodes. -/
theorem C1_counterexample :
    (((addNode (addNode TreeState.empty "A" "Person" "#111111" none true true).1
        "B" "Person" "#222222" none true true).1).nodes.filter
      (fun n => n.parent = none)).length = 2 ∧
    ((moveNode (⟨[⟨0, "r", "c", "#111111", none, [1], true, true⟩,
        ⟨1, "a", "c", "#222222", some 0, [], true, true⟩], some 0, 2⟩ : TreeState)
        1 none (-1)).1.nodes.filter (fun n => n.parent = none)).length = 2 := by
  exact ⟨by decide, by decide⟩

/-! ## Claim C2: `MoveNode` characterization -/

/-- C2: on a well-formed tree, `MoveNode` returns `false` exactly when the
node id is unknown, the new parent equals the node, or the new parent id is
supplied but unknown or a descendant of the node; a failed move leaves the
state unchanged.  On success with a new parent it sets the node's parent
link, inserts the node into the new parent's children through `insFn`
(insert at `position` when `0 ≤ position < length`, append otherwise — in
particular the default `-1` appends), and removes the node from its old
parent's children list. -/
theorem C2_move_spec {s : TreeState} (hWF : WF s) (nodeId : Nat)
    (newParentId : Option Nat) (pos : Int) :
    ((moveNode s nodeId newParentId pos).2 = true ↔
      (∃ node, getNodeById s nodeId = some node) ∧ newParentId ≠ some nodeId ∧
      (∀ pid, newParentId = some pid →
        ∃ np, getNodeById s pid = some np ∧ ¬ Ancestor s nodeId pid)) ∧
    ((moveNode s nodeId newParentId pos).2 = false →
      (moveNode s nodeId newParentId pos).1 = s) ∧
    (∀ node pid np, getNodeById s nodeId = some node → newParentId = some pid →
      getNodeById s pid = some np → (moveNode s nodeId newParentId pos).2 = true →
      getNodeById (moveNode s nodeId newParentId pos).1 nodeId =
          some { node with parent := some pid } ∧
        (node.parent ≠ some pid →
          getNodeById (moveNode s nodeId newParentId pos).1 pid =
            some { np with children := insFn nodeId pos np.children }) ∧
        (node.parent = some pid →
          getNodeById (moveNode s nodeId newParentId pos).1 pid =
            some { np with children := insFn nodeId pos (np.children.erase nodeId) }) ∧
        (∀ op nop, node.parent = some op → op ≠ pid →
          getNodeById s op = some nop →
          getNodeById (moveNode s nodeId newParentId pos).1 op =
            some { nop with children := nop.children.erase nodeId })) ∧
    (∀ cs : List Nat, insFn nodeId (-1) cs = cs ++ [nodeId] ∧
      (0 ≤ pos → pos < (cs.length : Int) →
        insFn nodeId pos cs = cs.insertIdx pos.toNat nodeId) ∧
      (pos < 0 ∨ (cs.length : Int) ≤ pos → insFn nodeId pos cs = cs ++ [nodeId])) := by
  refine ⟨?_, ?_, ?_, ?_⟩
  · -- success characterization
    rcases hn : getNodeById s nodeId with _ | node
    · constructor
      · intro h
        exfalso
        unfold moveNode at h
        simp only [hn] at h
        exact Bool.noConfusion h
      · rintro ⟨⟨node, hnode⟩, -⟩
        exact Option.noConfusion hnode
    · by_cases hself0 : newParentId = some nodeId
      · constructor
        · intro h
          exfalso
          unfold moveNode at h
          simp only [hn, if_pos hself0] at h
          exact Bool.noConfusion h
        · rintro ⟨-, hne, -⟩
          exact absurd hself0 hne
      · rcases hpid : newParentId with _ | pid
        · rw [moveNode_none_eq hn]
          exact iff_of_true rfl ⟨⟨node, rfl⟩, fun h => Option.noConfusion h,
            fun pid h => Option.noConfusion h⟩
        · have hself : ¬ (some pid = some nodeId) := hpid ▸ hself0
          rcases hp : getNodeById s pid with _ | np
          · have hcirc : moveCircularOk s node (some pid) = false := by
              unfold moveCircularOk
              simp only [hp]
            constructor
            · intro h
              unfold moveNode at h
              simp [hn, hself, hcirc] at h
            · rintro ⟨-, -, hres⟩
              exfalso
              rcases hres pid rfl with ⟨np, hnp, -⟩
              rw [hp] at hnp
              exact Option.noConfusion hnp
          · have hnpmem : np ∈ s.nodes := (getNodeById_mem hp).1
            have hnpid : np.id = pid := (getNodeById_mem hp).2
            have hnid : node.id = nodeId := (getNodeById_mem hn).2
            by_cases hd : isDescendant s node np
            · have hcirc : moveCircularOk s node (some pid) = false := by
                unfold moveCircularOk
                simp [hp, hd]
              constructor
              · intro h
                unfold moveNode at h
                simp [hn, hself, hcirc] at h
              · rintro ⟨-, -, hres⟩
                exfalso
                rcases hres pid rfl with ⟨np2, hnp2, hnanc⟩
                rw [hp] at hnp2
                have hee : np = np2 := Option.some_injective _ hnp2
                subst hee
                exact hnanc (hnid ▸ hnpid ▸ (isDescendant_true_iff hWF hnpmem).mp hd)
            · have hdf : isDescendant s node np = false := by
                rcases hb : isDescendant s node np with _ | _
                · rfl
                · exact absurd hb hd
              rw [moveNode_some_eq hWF.nodupIds hn (fun h => hself (by rw [h])) hp hdf]
              refine iff_of_true rfl ⟨⟨node, rfl⟩, hself, ?_⟩
              intro pid2 hpid2
              have hpe : pid2 = pid := (Option.some_injective _ hpid2).symm
              subst hpe
              refine ⟨np, hp, ?_⟩
              intro hanc
              have hcontra := (isDescendant_true_iff hWF hnpmem).mpr
                (show Ancestor s node.id np.id by rw [hnid, hnpid]; exact hanc)
              rw [hdf] at hcontra
              exact Bool.noConfusion hcontra
  · -- failure is a no-op
    rcases hn : getNodeById s nodeId with _ | node
    · intro _
      unfold moveNode
      simp only [hn]
    · by_cases hself0 : newParentId = some nodeId
      · intro _
        unfold moveNode
        simp only [hn, if_pos hself0]
      · by_cases hok : moveCircularOk s node newParentId
        · intro hfail
          exfalso
          unfold moveNode at hfail
          simp [hn, hself0, hok] at hfail
        · intro _
          have hokf : moveCircularOk s node newParentId = false := by
            rcases hb : moveCircularOk s node newParentId with _ | _
            · rfl
            · exact absurd hb hok
          unfold moveNode
          simp [hn, hself0, hokf]
  · -- effects on success
    intro node pid np hn hpid hp hsucc
    subst hpid
    have hnid : node.id = nodeId := (getNodeById_mem hn).2
    have hnpid : np.id = pid := (getNodeById_mem hp).2
    have hnmem : node ∈ s.nodes := (getNodeById_mem hn).1
    have hpidne : pid ≠ nodeId := by
      intro h
      subst h
      unfold moveNode at hsucc
      simp only [hn, if_pos rfl] at hsucc
      exact Bool.noConfusion hsucc
    have hdf : isDescendant s node np = false := by
      rcases hb : isDescendant s node np with _ | _
      · rfl
      · exfalso
        unfold moveNode at hsucc
        simp only [hn] at hsucc
        rw [if_neg (show ¬ (some pid = some nodeId) by simp [hpidne]),
          moveCircularOk_some hp, hb] at hsucc
        simp at hsucc
    rw [moveNode_some_eq hWF.nodupIds hn hpidne hp hdf]
    set G : FlowyNode → FlowyNode := fun m =>
      insertStep nodeId pid pos (parentStep nodeId (some pid) (eraseStep nodeId node.parent m)) with hG
    have hGid : ∀ m, (G m).id = m.id := fun m => by
      rw [hG, insertStep_id, parentStep_id, eraseStep_id]
    have herase_node : eraseStep nodeId node.parent node = node := by
      rcases hop : node.parent with _ | op
      · rfl
      · simp only [eraseStep]
        rw [if_neg (fun (h : node.id = op) => no_self_parent hWF hnmem (by rw [hop, ← h]))]
    have hGnode : G node = { node with parent := some pid } := by
      rw [hG]
      show insertStep nodeId pid pos (parentStep nodeId (some pid)
        (eraseStep nodeId node.parent node)) = _
      rw [herase_node]
      unfold parentStep
      rw [if_pos hnid]
      unfold insertStep
      rw [if_neg (show ({ node with parent := some pid } : FlowyNode).id ≠ pid from
        fun h => hpidne (((show node.id = pid from h).symm.trans hnid).symm).symm)]
    refine ⟨?_, ?_, ?_, ?_⟩
    · rw [getNodeById_map hGid nodeId, hn]
      show some (G node) = _
      rw [hGnode]
    · intro hnotsame
      rw [getNodeById_map hGid pid, hp]
      show some (G np) = _
      rw [hG]
      show some (insertStep nodeId pid pos (parentStep nodeId (some pid)
        (eraseStep nodeId node.parent np))) = _
      have he : eraseStep nodeId node.parent np = np := by
        rcases hop : node.parent with _ | op
        · rfl
        · simp only [eraseStep]
          rw [if_neg (fun (h : np.id = op) =>
            hnotsame (by rw [hop]; exact congrArg some (h.symm.trans hnpid)))]
      rw [he]
      have hps : parentStep nodeId (some pid) np = np := by
        unfold parentStep
        rw [if_neg (fun (h : np.id = nodeId) => hpidne (hnpid.symm.trans h))]
      rw [hps]
      unfold insertStep
      rw [if_pos hnpid]
    · intro hsame
      rw [getNodeById_map hGid pid, hp]
      show some (G np) = _
      rw [hG]
      show some (insertStep nodeId pid pos (parentStep nodeId (some pid)
        (eraseStep nodeId node.parent np))) = _
      have he : eraseStep nodeId node.parent np =
          { np with children := np.children.erase nodeId } := by
        rw [hsame]
        simp only [eraseStep]
        rw [if_pos hnpid]
      rw [he]
      have hps : parentStep nodeId (some pid)
          ({ np with children := np.children.erase nodeId } : FlowyNode) =
          { np with children := np.children.erase nodeId } := by
        unfold parentStep
        rw [if_neg (show ({ np with children := np.children.erase nodeId } : FlowyNode).id ≠ nodeId from fun h => hpidne (hnpid.symm.trans h))]
      rw [hps]
      unfold insertStep
      rw [if_pos (show ({ np with children := np.children.erase nodeId } : FlowyNode).id = pid from hnpid)]
    · intro op nop hop hopne hnop
      have hnopid : nop.id = op := (getNodeById_mem hnop).2
      have hopnod : op ≠ nodeId := by
        intro h
        exact no_self_parent hWF hnmem (by rw [hop, h, hnid])
      rw [getNodeById_map hGid op, hnop]
      show some (G nop) = _
      rw [hG]
      show some (insertStep nodeId pid pos (parentStep nodeId (some pid)
        (eraseStep nodeId node.parent nop))) = _
      have he : eraseStep nodeId node.parent nop =
          { nop with children := nop.children.erase nodeId } := by
        rw [hop]
        simp only [eraseStep]
        rw [if_pos hnopid]
      rw [he]
      have hps : parentStep nodeId (some pid)
          ({ nop with children := nop.children.erase nodeId } : FlowyNode) =
          { nop with children := nop.children.erase nodeId } := by
        unfold parentStep
        rw [if_neg (show ({ nop with children := nop.children.erase nodeId } : FlowyNode).id ≠ nodeId from fun h => hopnod (hnopid.symm.trans h))]
      rw [hps]
      unfold insertStep
      rw [if_neg (show ({ nop with children := nop.children.erase nodeId } : FlowyNode).id ≠ pid from fun h => hopne (hnopid.symm.trans h))]
  · -- `insFn` clamping behaviour
    intro cs
    refine ⟨?_, ?_, ?_⟩
    · unfold insFn
      rw [if_neg (by omega)]
    · intro h1 h2
      unfold insFn
      rw [if_pos ⟨h1, h2⟩]
    · intro h
      unfold insFn
      rw [if_neg (by omega)]

/-- Witness for C2: the characterization applied at a concrete state (one
root node): moving the unknown id 5 fails and leaves the state unchanged. -/
theorem C2_move_spec_witness :
    (moveNode (addNode TreeState.empty "A" "Person" "#111111" none true true).1
      5 (some 0) 0).1 =
      (addNode TreeState.empty "A" "Person" "#111111" none true true).1 :=
  (C2_move_spec (wf_addNode WF.empty (fun pid h => Option.noConfusion h))
    5 (some 0) 0).2.1 (by decide)

/-! ## Claim C3: promote/demote round trips -/

/-- C3 (amended): demote-then-promote is always an exact inverse: whenever
`DemoteNode x` succeeds, `PromoteNode x` on the result restores the original
tree exactly (all parent links and children lists, including order).
Promote-then-demote restores the original tree when `x` was the FIRST child
of its parent; for a later child the original child order is not restored
(see `C3_counterexample`), so the unrestricted inverse claim is false. -/
theorem C3_promote_demote_inverse {s : TreeState} (hWF : WF s) (x : Nat) :
    ((demoteNode s x).2 = true → promoteNode (demoteNode s x).1 x = (s, true)) ∧
    (∀ (P G : Nat) (node nP nG : FlowyNode) (rest : List Nat),
      getNodeById s x = some node → node.parent = some P →
      getNodeById s P = some nP → nP.children = x :: rest →
      nP.parent = some G → getNodeById s G = some nG →
      demoteNode (promoteNode s x).1 x = (s, true)) :=
  ⟨fun h => demote_promote_exact hWF h,
   fun _ _ _ _ _ _ h1 h2 h3 h4 h5 h6 =>
     promote_demote_first hWF h1 h2 h3 h4 h5 h6⟩

/-- Witness for C3: both directions applied on the concrete chain
`0 → 1 → 2` (`2` is the first child of `1`): demoting `1` then promoting it,
and promoting `2` then demoting it, both restore the tree exactly. -/
theorem C3_promote_demote_inverse_witness :
    promoteNode (demoteNode (addNode (addNode (addNode TreeState.empty
        "A" "Person" "#111111" none true true).1
        "B" "Person" "#222222" (some 0) true true).1
        "C" "Person" "#333333" (some 1) true true).1 1).1 1 =
      ((addNode (addNode (addNode TreeState.empty
        "A" "Person" "#111111" none true true).1
        "B" "Person" "#222222" (some 0) true true).1
        "C" "Person" "#333333" (some 1) true true).1, true) ∧
    demoteNode (promoteNode (addNode (addNode (addNode TreeState.empty
        "A" "Person" "#111111" none true true).1
        "B" "Person" "#222222" (some 0) true true).1
        "C" "Person" "#333333" (some 1) true true).1 2).1 2 =
      ((addNode (addNode (addNode TreeState.empty
        "A" "Person" "#111111" none true true).1
        "B" "Person" "#222222" (some 0) true true).1
        "C" "Person" "#333333" (some 1) true true).1, true) := by
  have hWF3 : WF (addNode (addNode (addNode TreeState.empty
      "A" "Person" "#111111" none true true).1
      "B" "Person" "#222222" (some 0) true true).1
      "C" "Person" "#333333" (some 1) true true).1 := by
    refine wf_addNode (wf_addNode (wf_addNode WF.empty
      (fun pid h => Option.noConfusion h)) ?_) ?_
    · intro pid h
      rw [show pid = 0 from (Option.some_injective _ h).symm]
      decide
    · intro pid h
      rw [show pid = 1 from (Option.some_injective _ h).symm]
      decide
  constructor
  · exact (C3_promote_demote_inverse hWF3 1).1 (by decide)
  · exact (C3_promote_demote_inverse hWF3 2).2 1 0
      ⟨2, "C", "Person", "#333333", some 1, [], true, true⟩
      ⟨1, "B", "Person", "#222222", some 0, [2], true, true⟩
      ⟨0, "A", "Person", "#111111", none, [1], true, true⟩ []
      (by decide) rfl (by decide) rfl rfl (by decide)

/-- C3 counterexample: on the tree `0 → 1 → [2, 3]`, promoting `3` (a
second child) and then demoting it both succeed, but the result differs from
the original tree: the rotation re-appends the displaced siblings, so the
original child order `[2, 3]` of node `1` is not restored. -/
theorem C3_counterexample :
    (promoteNode (addNode (addNode (addNode (addNode TreeState.empty
        "A" "Person" "#111111" none true true).1
        "B" "Person" "#222222" (some 0) true true).1
        "C" "Person" "#333333" (some 1) true true).1
        "D" "Person" "#444444" (some 1) true true).1 3).2 = true ∧
    (demoteNode (promoteNode (addNode (addNode (addNode (addNode TreeState.empty
        "A" "Person" "#111111" none true true).1
        "B" "Person" "#222222" (some 0) true true).1
        "C" "Person" "#333333" (some 1) true true).1
        "D" "Person" "#444444" (some 1) true true).1 3).1 3).2 = true ∧
    (demoteNode (promoteNode (addNode (addNode (addNode (addNode TreeState.empty
        "A" "Person" "#111111" none true true).1
        "B" "Person" "#222222" (some 0) true true).1
        "C" "Person" "#333333" (some 1) true true).1
        "D" "Person" "#444444" (some 1) true true).1 3).1 3).1 ≠
      (addNode (addNode (addNode (addNode TreeState.empty
        "A" "Person" "#111111" none true true).1
        "B" "Person" "#222222" (some 0) true true).1
        "C" "Person" "#333333" (some 1) true true).1
        "D" "Person" "#444444" (some 1) true true).1 := by
  exact ⟨by decide, by decide, by decide⟩

/-! ## Claim C5: `DemoteNode` failure and rotation behaviour -/

/-- C5 (amended): on a well-formed tree, `DemoteNode` succeeds exactly when
the node exists, has a parent, and has at least one child; any failure
leaves the state unchanged.  In particular demoting the root ALWAYS fails —
the node with no parent is rejected before any rotation, so the claimed
"if the node was root, its first child becomes the new root" behaviour is
unreachable (see `C5_counterexample`).  On success the whole update is the
inverse rotation `rotateF` with the node's first child as pivot. -/
theorem C5_demote_spec {s : TreeState} (hWF : WF s) (x : Nat) :
    ((demoteNode s x).2 = true ↔
      ∃ node, getNodeById s x = some node ∧ node.parent ≠ none ∧
        node.children ≠ []) ∧
    ((demoteNode s x).2 = false → (demoteNode s x).1 = s) ∧
    (∀ node, getNodeById s x = some node → node.parent = none →
      demoteNode s x = (s, false)) ∧
    (∀ node parentId firstChildId rest firstChild,
      getNodeById s x = some node → node.parent = some parentId →
      node.children = firstChildId :: rest →
      getNodeById s firstChildId = some firstChild →
      demoteNode s x = ({ s with nodes := s.nodes.map (rotateF firstChildId
        x parentId rest firstChild.children) }, true)) := by
  have closed : ∀ node parentId firstChildId rest firstChild,
      getNodeById s x = some node → node.parent = some parentId →
      node.children = firstChildId :: rest →
      getNodeById s firstChildId = some firstChild →
      demoteNode s x = ({ s with nodes := s.nodes.map (rotateF firstChildId
        x parentId rest firstChild.children) }, true) := by
    intro node parentId firstChildId rest firstChild hn hpp hch hfc
    have hnmem : node ∈ s.nodes := (getNodeById_mem hn).1
    have hnode_id : node.id = x := (getNodeById_mem hn).2
    have hfc_id : firstChild.id = firstChildId := (getNodeById_mem hfc).2
    obtain ⟨parent, hpl, -⟩ := parent_resolves hWF hnmem hpp
    have hfcin : firstChildId ∈ node.children := by
      rw [hch]
      exact List.mem_cons_self firstChildId rest
    have hRp : firstChild.parent = some x := by
      have := parent_of_child_mem hWF hnmem (getNodeById_mem hfc).1
        (hfc_id ▸ hfcin)
      rwa [hnode_id] at this
    have hfcrest : firstChildId ∉ rest := by
      have := hWF.childNodup node hnmem
      rw [hch] at this
      exact (List.nodup_cons.mp this).1
    have hsibs : ∀ y, y ∈ rest ↔ y ∈ node.children ∧ y ≠ firstChildId := by
      intro y
      rw [hch]
      constructor
      · intro hy
        exact ⟨List.mem_cons_of_mem _ hy, fun h => hfcrest (h ▸ hy)⟩
      · rintro ⟨hy, hne⟩
        rcases List.mem_cons.mp hy with h | h
        · exact absurd h hne
        · exact h
    have hsnd : rest.Nodup := by
      have := hWF.childNodup node hnmem
      rw [hch] at this
      exact (List.nodup_cons.mp this).2
    obtain ⟨hRF, hRA, hFA, hsall, hkall, hknd, hRs, hFs, hAs, hRk, hFk,
      hAk, hdisj⟩ := rotate_sides hWF hfc hRp hn hpp hsibs
    exact demoteNode_eq hn hpp hch hfc hpl hRF hRA hFA hsall hkall hsnd
      hknd hRs hFs hAs hRk hFk hAk hdisj
  refine ⟨⟨?_, ?_⟩, ?_, ?_, closed⟩
  · -- success gives the existence facts
    intro hsucc
    rcases hn : getNodeById s x with _ | node
    · exfalso
      unfold demoteNode at hsucc
      simp only [hn] at hsucc
      exact Bool.noConfusion hsucc
    · refine ⟨node, rfl, ?_, ?_⟩
      · intro hpar
        unfold demoteNode at hsucc
        simp only [hn, hpar] at hsucc
        exact Bool.noConfusion hsucc
      · intro hch
        unfold demoteNode at hsucc
        rcases hpar : node.parent with _ | parentId
        · simp only [hn, hpar] at hsucc
          exact Bool.noConfusion hsucc
        · simp only [hn, hpar, hch] at hsucc
          exact Bool.noConfusion hsucc
  · -- the existence facts give success
    rintro ⟨node, hn, hpar, hch⟩
    rcases hpp : node.parent with _ | parentId
    · exact absurd hpp hpar
    · rcases hchl : node.children with _ | ⟨firstChildId, rest⟩
      · exact absurd hchl hch
      · have hfcmem : firstChildId ∈ node.children := by
          rw [hchl]
          exact List.mem_cons_self firstChildId rest
        obtain ⟨m, hm, hmid, -⟩ :=
          hWF.childParent node (getNodeById_mem hn).1 firstChildId hfcmem
        have hfc : getNodeById s firstChildId = some m :=
          hmid ▸ getNodeById_eq_some_self hWF.nodupIds hm
        rw [closed node parentId firstChildId rest m hn hpp hchl hfc]
  · -- failure is a no-op
    intro hfail
    rcases hn : getNodeById s x with _ | node
    · unfold demoteNode
      simp only [hn]
    · rcases hpp : node.parent with _ | parentId
      · unfold demoteNode
        simp only [hn, hpp]
      · rcases hchl : node.children with _ | ⟨firstChildId, rest⟩
        · unfold demoteNode
          simp only [hn, hpp, hchl]
        · exfalso
          have hfcmem : firstChildId ∈ node.children := by
            rw [hchl]
            exact List.mem_cons_self firstChildId rest
          obtain ⟨m, hm, hmid, -⟩ :=
            hWF.childParent node (getNodeById_mem hn).1 firstChildId hfcmem
          have hfc : getNodeById s firstChildId = some m :=
            hmid ▸ getNodeById_eq_some_self hWF.nodupIds hm
          rw [closed node parentId firstChildId rest m hn hpp hchl hfc] at hfail
          exact Bool.noConfusion hfail
  · -- demoting a parentless (root) node fails
    intro node hn hpar
    unfold demoteNode
    simp only [hn, hpar]

/-- Witness for C5: the characterization applied at the concrete chain
`0 → 1 → 2`: demoting the root `0` fails and changes nothing. -/
theorem C5_demote_spec_witness :
    demoteNode (addNode (addNode (addNode TreeState.empty
        "A" "Person" "#111111" none true true).1
        "B" "Person" "#222222" (some 0) true true).1
        "C" "Person" "#333333" (some 1) true true).1 0 =
      ((addNode (addNode (addNode TreeState.empty
        "A" "Person" "#111111" none true true).1
        "B" "Person" "#222222" (some 0) true true).1
        "C" "Person" "#333333" (some 1) true true).1, false) := by
  have hWF3 : WF (addNode (addNode (addNode TreeState.empty
      "A" "Person" "#111111" none true true).1
      "B" "Person" "#222222" (some 0) true true).1
      "C" "Person" "#333333" (some 1) true true).1 := by
    refine wf_addNode (wf_addNode (wf_addNode WF.empty
      (fun pid h => Option.noConfusion h)) ?_) ?_
    · intro pid h
      rw [show pid = 0 from (Option.some_injective _ h).symm]
      decide
    · intro pid h
      rw [show pid = 1 from (Option.some_injective _ h).symm]
      decide
  exact (C5_demote_spec hWF3 0).2.2.1
    ⟨0, "A", "Person", "#111111", none, [1], true, true⟩ (by decide) rfl

/-- C5 counterexample: the clause "when demote is applied to the node that
was root, its first child becomes the new root" never happens.  On the tree
`0 → 1` the root `0` has a first child, yet `DemoteNode 0` returns `false`,
leaves the tree unchanged, and the root stays `0` (the C# method rejects any
node without `ParentId` before rotating; the JS branch that re-roots onto
the first child is dead code). -/
theorem C5_counterexample :
    demoteNode (addNode (addNode TreeState.empty
        "A" "Person" "#111111" none true true).1
        "B" "Person" "#222222" (some 0) true true).1 0 =
      ((addNode (addNode TreeState.empty
        "A" "Person" "#111111" none true true).1
        "B" "Person" "#222222" (some 0) true true).1, false) ∧
    (demoteNode (addNode (addNode TreeState.empty
        "A" "Person" "#111111" none true true).1
        "B" "Person" "#222222" (some 0) true true).1 0).1.rootId = some 0 := by
  exact ⟨by decide, by decide⟩

/-! ## Claim C6: `IsDescendant` termination on corrupted data -/

/-- On the cyclic model the JS walk standing inside the cycle never
produces an answer, whatever the iteration budget. -/
theorem jsLoop_cycle_none :
    ∀ f : Nat, jsIsDescendantLoop cycleTree 2 (some 1) f = none ∧
      jsIsDescendantLoop cycleTree 2 (some 0) f = none := by
  intro f
  induction f with
  | zero => exact ⟨rfl, rfl⟩
  | succ n ih =>
    constructor
    · have h1 : jsIsDescendantLoop cycleTree 2 (some 1) (n + 1) =
          jsIsDescendantLoop cycleTree 2 (some 0) n := rfl
      rw [h1]
      exact ih.2
    · have h0 : jsIsDescendantLoop cycleTree 2 (some 0) (n + 1) =
          jsIsDescendantLoop cycleTree 2 (some 1) n := rfl
      rw [h0]
      exact ih.1

/-- C6 (amended): the C# `FlowyTreeService.IsDescendant` parent-chain walk
terminates on EVERY model — well-formed or corrupted — because its visited
set grows at each step and is bounded by the node count: fuel `|nodes| + 1`
(the bound `isDescendant` uses) always produces an answer, and on corrupted
data it short-circuits to `false` instead of looping or crashing (repeated
id in a parent cycle; failed lookup on a dangling parent reference; the C#
method also logs a warning, which the model does not represent).  The JS
drag-drop helper `FlowyDragDrop.isDescendant` has NO visited set: it
terminates on every rooted (acyclic) model, but on the cyclic model
`cycleTree` it yields no answer under any iteration budget, so the original
claim's "terminates for every input, detects a repeated node, reports the
anomaly" does not hold for it (see `C6_counterexample`). -/
theorem C6_isDescendant_total :
    (∀ (s : TreeState) (ancestor node : FlowyNode) (visited : List Nat),
      (isDescendantLoop s ancestor.id node visited (s.nodes.length + 1)).isSome) ∧
    isDescendant cycleTree
      ⟨2, "anc", "c", "#000000", none, [], true, true⟩
      ⟨0, "a", "c", "#000000", some 1, [], true, true⟩ = false ∧
    isDescendant
      (⟨[⟨0, "a", "c", "#000000", some 5, [], true, true⟩,
         ⟨2, "anc", "c", "#000000", none, [], true, true⟩], none, 6⟩ : TreeState)
      ⟨2, "anc", "c", "#000000", none, [], true, true⟩
      ⟨0, "a", "c", "#000000", some 5, [], true, true⟩ = false ∧
    (∀ (s : TreeState) (ancestor node : FlowyNode), Rooted s →
      ∃ fuel, (jsIsDescendant s ancestor node fuel).isSome = true) ∧
    (∀ fuel, jsIsDescendant cycleTree
      ⟨2, "anc", "c", "#000000", none, [], true, true⟩
      ⟨0, "a", "c", "#000000", some 1, [], true, true⟩ fuel = none) := by
  refine ⟨?_, by decide, by decide, ?_, ?_⟩
  · intro s ancestor node visited
    exact isDescendantLoop_isSome s ancestor.id (s.nodes.length + 1) node visited
      (Nat.lt_succ_of_le (List.length_filter_le _ _))
  · intro s ancestor node hroot
    have key : ∀ cur, Acc (ParentRel s) cur →
        ∃ fuel, (jsIsDescendantLoop s ancestor.id (some cur) fuel).isSome = true := by
      intro cur hacc
      induction hacc with
      | intro x hx ih =>
        by_cases hxa : x = ancestor.id
        · exact ⟨1, by simp [jsIsDescendantLoop, hxa]⟩
        · rcases hn : getNodeById s x with _ | nd
          · exact ⟨1, by simp [jsIsDescendantLoop, hxa, hn]⟩
          · rcases hp : nd.parent with _ | p
            · exact ⟨2, by simp [jsIsDescendantLoop, hxa, hn, hp]⟩
            · have hrel : ParentRel s p x :=
                ⟨nd, (getNodeById_mem hn).1, (getNodeById_mem hn).2, hp⟩
              rcases ih p hrel with ⟨fuel, hf⟩
              refine ⟨fuel + 1, ?_⟩
              have hstep : jsIsDescendantLoop s ancestor.id (some x) (fuel + 1) =
                  jsIsDescendantLoop s ancestor.id (some p) fuel := by
                simp only [jsIsDescendantLoop, if_neg hxa, hn, hp]
              rw [hstep]
              exact hf
    unfold jsIsDescendant
    rcases hp : node.parent with _ | p
    · exact ⟨1, rfl⟩
    · exact key p (hroot p)
  · intro fuel
    exact (jsLoop_cycle_none fuel).1

/-- Witness for C6: the JS-termination clause of the theorem applied at a
concrete rooted one-node model, its accessibility hypothesis discharged by
an explicit term. -/
theorem C6_isDescendant_total_witness :
    ∃ fuel, (jsIsDescendant
      (⟨[⟨0, "a", "c", "#000000", none, [], true, true⟩], some 0, 1⟩ : TreeState)
      ⟨0, "a", "c", "#000000", none, [], true, true⟩
      ⟨0, "a", "c", "#000000", none, [], true, true⟩ fuel).isSome = true := by
  refine C6_isDescendant_total.2.2.2.1 _ _ _ ?_
  intro i
  constructor
  intro p hp
  rcases hp with ⟨n, hn, -, hnp⟩
  rw [List.mem_singleton.mp hn] at hnp
  exact Option.noConfusion hnp

/-- C6 counterexample: the cited JS helper `FlowyDragDrop.isDescendant`
does NOT terminate for every input.  On the corrupted model `cycleTree`
(parent cycle `0 ↔ 1`, queried ancestor `2` outside the cycle) the walk
from node `0` yields no answer under ANY iteration budget — it has no
visited set, detects no repeat and reports nothing — while the C# walk on
the very same model halts and returns `false`. -/
theorem C6_counterexample :
    (∀ fuel, jsIsDescendant cycleTree
      ⟨2, "anc", "c", "#000000", none, [], true, true⟩
      ⟨0, "a", "c", "#000000", some 1, [], true, true⟩ fuel = none) ∧
    isDescendant cycleTree
      ⟨2, "anc", "c", "#000000", none, [], true, true⟩
      ⟨0, "a", "c", "#000000", some 1, [], true, true⟩ = false := by
  exact ⟨fun fuel => (jsLoop_cycle_none fuel).1, by decide⟩

/-! ## Claim C7: anchor-preserving clamped zoom -/

/-- C7: for every viewport point, in-range zoom/pan state and zoom delta,
`zoomAtPoint` yields a zoom clamped to `[minZoom, maxZoom] = [0.1, 3.0]` and
a pan for which the canvas point under the viewport point is unchanged —
exactly, in the rational model (the "small epsilon" of the claim only covers
floating-point rounding). -/
theorem C7_zoomAtPoint_spec (st : ZoomState) (vx vy delta : ℚ)
    (hz1 : minZoom ≤ st.zoomLevel) (hz2 : st.zoomLevel ≤ maxZoom) :
    minZoom ≤ (zoomAtPoint st vx vy delta).zoomLevel ∧
    (zoomAtPoint st vx vy delta).zoomLevel ≤ maxZoom ∧
    (vx - (zoomAtPoint st vx vy delta).panX) /
        (zoomAtPoint st vx vy delta).zoomLevel = (vx - st.panX) / st.zoomLevel ∧
    (vy - (zoomAtPoint st vx vy delta).panY) /
        (zoomAtPoint st vx vy delta).zoomLevel = (vy - st.panY) / st.zoomLevel := by
  have hminmax : minZoom ≤ maxZoom := by
    unfold minZoom maxZoom
    norm_num
  have hclamp1 : ∀ z : ℚ, minZoom ≤ clampZoom z := fun z => le_max_left _ _
  have hclamp2 : ∀ z : ℚ, clampZoom z ≤ maxZoom := fun z =>
    max_le hminmax (min_le_left _ _)
  unfold zoomAtPoint
  by_cases heq : clampZoom (st.zoomLevel + delta) = st.zoomLevel
  · rw [if_pos heq]
    exact ⟨hz1, hz2, rfl, rfl⟩
  · rw [if_neg heq]
    have hnz : clampZoom (st.zoomLevel + delta) ≠ 0 := by
      have := hclamp1 (st.zoomLevel + delta)
      unfold minZoom at this
      intro h
      rw [h] at this
      norm_num at this
    refine ⟨hclamp1 _, hclamp2 _, ?_, ?_⟩
    · show (vx - (vx - (vx - st.panX) / st.zoomLevel *
        clampZoom (st.zoomLevel + delta))) / clampZoom (st.zoomLevel + delta) = _
      rw [sub_sub_cancel, mul_div_assoc, div_self hnz, mul_one]
    · show (vy - (vy - (vy - st.panY) / st.zoomLevel *
        clampZoom (st.zoomLevel + delta))) / clampZoom (st.zoomLevel + delta) = _
      rw [sub_sub_cancel, mul_div_assoc, div_self hnz, mul_one]

/-- Witness for C7: the spec applied at the concrete state
`zoom = 1, pan = (0, 0)` with viewport point `(100, 50)` and `delta = 1/2`. -/
theorem C7_zoomAtPoint_spec_witness :
    minZoom ≤ (zoomAtPoint ⟨1, 0, 0⟩ 100 50 (1/2)).zoomLevel ∧
    (zoomAtPoint ⟨1, 0, 0⟩ 100 50 (1/2)).zoomLevel ≤ maxZoom ∧
    (100 - (zoomAtPoint ⟨1, 0, 0⟩ 100 50 (1/2)).panX) /
        (zoomAtPoint ⟨1, 0, 0⟩ 100 50 (1/2)).zoomLevel =
      (100 - (0 : ℚ)) / 1 ∧
    (50 - (zoomAtPoint ⟨1, 0, 0⟩ 100 50 (1/2)).panY) /
        (zoomAtPoint ⟨1, 0, 0⟩ 100 50 (1/2)).zoomLevel =
      (50 - (0 : ℚ)) / 1 :=
  C7_zoomAtPoint_spec ⟨1, 0, 0⟩ 100 50 (1/2) (by norm_num [minZoom])
    (by norm_num [maxZoom])

theorem jsId_node (i : Nat) (nm cid col : String) (p : Option Nat)
    (d : Option Bool) (c : Bool) (cs : List JsNode) :
    (JsNode.node i nm cid col p d c cs).id = i := rfl

theorem jsChildren_node (i : Nat) (nm cid col : String) (p : Option Nat)
    (d : Option Bool) (c : Bool) (cs : List JsNode) :
    (JsNode.node i nm cid col p d c cs).children = cs := rfl

theorem foldl_attach_width (w h : ℚ) (l : List JsNode)
    (init : List ℚ × List (Nat × ℚ)) :
    l.attach.foldl (fun (acc : List ℚ × List (Nat × ℚ)) x =>
      (acc.1 ++ [(calculateSubtreeWidth w h x.1 acc.2).1],
        (calculateSubtreeWidth w h x.1 acc.2).2)) init =
    l.foldl (fun (acc : List ℚ × List (Nat × ℚ)) x =>
      (acc.1 ++ [(calculateSubtreeWidth w h x acc.2).1],
        (calculateSubtreeWidth w h x acc.2).2)) init := by
  induction l generalizing init with
  | nil => rfl
  | cons a t ih =>
    simp only [List.attach_cons, List.foldl_cons, List.foldl_map]
    exact ih _

theorem subNodes_self (n : JsNode) : n ∈ subNodes n := by
  rcases n with ⟨i, nm, cid, col, p, d, c, childs⟩
  unfold subNodes
  exact List.mem_cons_self _ _

theorem mem_subNodes_of_child : ∀ (n c : JsNode), c ∈ n.children →
    ∀ x ∈ subNodes c, x ∈ subNodes n
  | JsNode.node i nm cid col p d cc childs, c, hc, x, hx => by
    unfold subNodes
    refine List.mem_cons_of_mem _ (List.mem_flatten.mpr ⟨subNodes c, ?_, hx⟩)
    exact List.mem_map.mpr ⟨⟨c, hc⟩, List.mem_attach _ _, rfl⟩

theorem exportNodes_eq : ∀ n : JsNode,
    exportNodes n = (subNodes n).map buildNodeStructure
  | JsNode.node i nm cid col p d c childs => by
    unfold exportNodes subNodes
    rw [List.map_cons]
    congr 1
    rw [List.map_flatten, List.map_map]
    congr 1
    apply List.map_congr_left
    intro x _
    exact exportNodes_eq x.1
decreasing_by
  have hh := List.sizeOf_lt_of_mem x.2
  simp only [JsNode.node.sizeOf_spec]
  omega

theorem mem_of_lookup_eq_some {α β : Type} [BEq α] [LawfulBEq α] {a : α} {b : β} :
    ∀ {l : List (α × β)}, List.lookup a l = some b → (a, b) ∈ l := by
  intro l
  induction l with
  | nil =>
    intro h
    exact Option.noConfusion h
  | cons q t ih =>
    obtain ⟨k, val⟩ := q
    intro h
    by_cases hk : (a == k) = true
    · simp only [List.lookup, hk] at h
      have hka : a = k := eq_of_beq hk
      have hvb : val = b := Option.some_injective _ h
      rw [hka, hvb]
      exact List.mem_cons_self _ _
    · have hk2 : (a == k) = false := by
        rwa [Bool.not_eq_true] at hk
      simp only [List.lookup, hk2] at h
      exact List.mem_cons_of_mem _ (ih h)

theorem widthSpec_formula (w h : ℚ) (n : JsNode) :
    widthSpec w h n = if n.children.isEmpty then w
      else max ((n.children.map (widthSpec w h)).sum +
        ((n.children.length - 1 : Nat) : ℚ) * h) w := by
  rcases n with ⟨i, nm, cid, col, p, d, c, childs⟩
  rw [jsChildren_node]
  unfold widthSpec
  by_cases hc : childs.isEmpty
  · rw [if_pos hc, if_pos hc]
  · rw [if_neg hc, if_neg hc]
    rw [show (childs.attach.map (fun x => widthSpec w h x.1)) =
      childs.map (widthSpec w h) by simp]

theorem foldl_step_ok {w h : ℚ} {C : List (Nat × ℚ) → Prop} {g : JsNode → ℚ} :
    ∀ (l : List JsNode),
    (∀ x ∈ l, ∀ cc, C cc → (calculateSubtreeWidth w h x cc).1 = g x ∧
      C (calculateSubtreeWidth w h x cc).2) →
    ∀ (pre : List ℚ) (cache : List (Nat × ℚ)), C cache →
    (l.foldl (fun (acc : List ℚ × List (Nat × ℚ)) x =>
        (acc.1 ++ [(calculateSubtreeWidth w h x acc.2).1],
          (calculateSubtreeWidth w h x acc.2).2)) (pre, cache)).1 =
      pre ++ l.map g ∧
    C (l.foldl (fun (acc : List ℚ × List (Nat × ℚ)) x =>
        (acc.1 ++ [(calculateSubtreeWidth w h x acc.2).1],
          (calculateSubtreeWidth w h x acc.2).2)) (pre, cache)).2 := by
  intro l
  induction l with
  | nil =>
    intro _ pre cache hC
    exact ⟨by simp, hC⟩
  | cons a t ih =>
    intro hstep pre cache hC
    obtain ⟨ha1, ha2⟩ := hstep a (List.mem_cons_self a t) cache hC
    have iht := ih (fun x hx => hstep x (List.mem_cons_of_mem a hx))
      (pre ++ [(calculateSubtreeWidth w h a cache).1])
      (calculateSubtreeWidth w h a cache).2 ha2
    refine ⟨?_, iht.2⟩
    rw [List.foldl_cons]
    rw [iht.1, ha1]
    simp

theorem calcWidth_ok (w h : ℚ) (U : List JsNode)
    (hinj : ∀ a ∈ U, ∀ b ∈ U, JsNode.id a = JsNode.id b → a = b) :
    ∀ n : JsNode, (∀ m ∈ subNodes n, m ∈ U) →
    ∀ cache : List (Nat × ℚ),
      (∀ p ∈ cache, ∀ m ∈ U, JsNode.id m = p.1 → p.2 = widthSpec w h m) →
    (calculateSubtreeWidth w h n cache).1 = widthSpec w h n ∧
    (∀ p ∈ (calculateSubtreeWidth w h n cache).2, ∀ m ∈ U,
      JsNode.id m = p.1 → p.2 = widthSpec w h m)
  | JsNode.node i nm cid col p d c childs, hsub, cache, hC => by
    have hself : JsNode.node i nm cid col p d c childs ∈ U :=
      hsub _ (subNodes_self _)
    rcases hl : List.lookup i cache with _ | v
    · unfold calculateSubtreeWidth
      simp only [hl]
      by_cases hce : childs.isEmpty
      · simp only [if_pos hce]
        have hw : widthSpec w h (JsNode.node i nm cid col p d c childs) = w := by
          unfold widthSpec
          rw [if_pos hce]
        refine ⟨hw.symm, ?_⟩
        intro q hq m hm hqid
        rcases List.mem_cons.mp hq with hq1 | hq1
        · have hmn : m = JsNode.node i nm cid col p d c childs := by
            apply hinj m hm _ hself
            rw [hqid, hq1, jsId_node]
          rw [hq1, hmn, hw]
        · exact hC q hq1 m hm hqid
      · simp only [if_neg hce]
        have hstep : ∀ x ∈ childs, ∀ cc,
            (∀ q ∈ cc, ∀ m ∈ U, JsNode.id m = q.1 → q.2 = widthSpec w h m) →
            (calculateSubtreeWidth w h x cc).1 = widthSpec w h x ∧
            (∀ q ∈ (calculateSubtreeWidth w h x cc).2, ∀ m ∈ U,
              JsNode.id m = q.1 → q.2 = widthSpec w h m) := by
          intro x hx cc hcc
          exact calcWidth_ok w h U hinj x
            (fun m hm => hsub m (mem_subNodes_of_child _ x
              (show x ∈ (JsNode.node i nm cid col p d c childs).children from hx)
              m hm)) cc hcc
        have hfold := foldl_step_ok childs hstep [] cache hC
        rw [foldl_attach_width]
        have hval : (max (((childs.foldl
            (fun (acc : List ℚ × List (Nat × ℚ)) x =>
              (acc.1 ++ [(calculateSubtreeWidth w h x acc.2).1],
                (calculateSubtreeWidth w h x acc.2).2)) ([], cache)).1).sum +
              ((childs.length - 1 : Nat) : ℚ) * h) w) =
            widthSpec w h (JsNode.node i nm cid col p d c childs) := by
          rw [hfold.1]
          unfold widthSpec
          rw [if_neg hce]
          rw [show (childs.attach.map (fun x => widthSpec w h x.1)) =
            childs.map (widthSpec w h) by simp]
          simp
        refine ⟨hval, ?_⟩
        intro q hq m hm hqid
        rcases List.mem_cons.mp hq with hq1 | hq1
        · have hmn : m = JsNode.node i nm cid col p d c childs := by
            apply hinj m hm _ hself
            rw [hqid, hq1, jsId_node]
          rw [hq1, hmn, ← hval]
        · exact hfold.2 q hq1 m hm hqid
    · unfold calculateSubtreeWidth
      simp only [hl]
      have hmem := mem_of_lookup_eq_some hl
      have hv : v = widthSpec w h (JsNode.node i nm cid col p d c childs) :=
        hC (i, v) hmem (JsNode.node i nm cid col p d c childs) hself rfl
      exact ⟨hv, hC⟩
decreasing_by
  have hh := List.sizeOf_lt_of_mem hx
  simp only [JsNode.node.sizeOf_spec]
  omega

/-! ## Claim C9: subtree width formula (memoized and positioning passes) -/

/-- C9: for every node of a layout tree with injective node ids, the subtree
width computed by the memoized `calculateSubtreeWidth` — starting from the
cleared cache, or from any cache whose entries agree with the width formula —
and the width returned by `calculateSubtreePositions` both equal `widthSpec`:
`nodeWidth` for a leaf, and the sum of the children's subtree widths plus
`(childCount - 1) * horizontalSpacing`, floored at `nodeWidth`, for an
internal node.  The final conjunct restates `widthSpec` as that formula. -/
theorem C9_subtree_width {w h : ℚ} (U : List JsNode)
    (hinj : ∀ a ∈ U, ∀ b ∈ U, JsNode.id a = JsNode.id b → a = b)
    (n : JsNode) (hn : ∀ m ∈ subNodes n, m ∈ U) :
    (calculateSubtreeWidth w h n []).1 = widthSpec w h n ∧
    (∀ cache : List (Nat × ℚ),
      (∀ p ∈ cache, ∀ m ∈ U, JsNode.id m = p.1 → p.2 = widthSpec w h m) →
      (calculateSubtreeWidth w h n cache).1 = widthSpec w h n ∧
      (calculateSubtreePositions w h n cache).1 = widthSpec w h n) ∧
    widthSpec w h n = (if n.children.isEmpty then w
      else max ((n.children.map (widthSpec w h)).sum +
        ((n.children.length - 1 : Nat) : ℚ) * h) w) := by
  refine ⟨(calcWidth_ok w h U hinj n hn [] (by simp)).1, ?_,
    widthSpec_formula w h n⟩
  intro cache hcache
  refine ⟨(calcWidth_ok w h U hinj n hn cache hcache).1, ?_⟩
  unfold calculateSubtreePositions
  by_cases hce : n.children.isEmpty
  · rw [if_pos hce, widthSpec_formula, if_pos hce]
  · rw [if_neg hce]
    have hstep : ∀ x ∈ n.children, ∀ cc,
        (∀ q ∈ cc, ∀ m ∈ U, JsNode.id m = q.1 → q.2 = widthSpec w h m) →
        (calculateSubtreeWidth w h x cc).1 = widthSpec w h x ∧
        (∀ q ∈ (calculateSubtreeWidth w h x cc).2, ∀ m ∈ U,
          JsNode.id m = q.1 → q.2 = widthSpec w h m) :=
      fun x hx cc hcc => calcWidth_ok w h U hinj x
        (fun m hm => hn m (mem_subNodes_of_child n x hx m hm)) cc hcc
    have hfold := foldl_step_ok n.children hstep [] cache hcache
    show max (((n.children.foldl (fun (acc : List ℚ × List (Nat × ℚ)) c =>
        (acc.1 ++ [(calculateSubtreeWidth w h c acc.2).1],
          (calculateSubtreeWidth w h c acc.2).2)) ([], cache)).1).sum +
        ((n.children.length - 1 : Nat) : ℚ) * h) w = widthSpec w h n
    rw [hfold.1, widthSpec_formula, if_neg hce]
    simp

/-- Witness for C9: the width theorem applied at a concrete single-leaf
layout tree with `nodeWidth = 100` and `horizontalSpacing = 40`. -/
theorem C9_subtree_width_witness :
    (calculateSubtreeWidth 100 40
      (JsNode.node 0 "r" "c" "#111111" none none true []) []).1 =
    widthSpec 100 40 (JsNode.node 0 "r" "c" "#111111" none none true []) := by
  refine (C9_subtree_width
    [JsNode.node 0 "r" "c" "#111111" none none true []] ?_ _ ?_).1
  · intro a ha b hb _
    rw [List.mem_singleton] at ha hb
    rw [ha, hb]
  · intro m hm
    simp only [subNodes, List.attach_nil, List.map_nil, List.flatten_nil] at hm
    exact hm

/-! ## Claim C10: `exportTreeStructure` hardcodes `CanHaveChildren` -/

/-- C10: every entry serialized by `exportTreeStructure` carries the literal
`CanHaveChildren: true` regardless of the live node's `canHaveChildren`
value — so a node flagged as not accepting children round-trips as accepting
children — while `Id`, `Name`, `ParentId` and `ChildrenIds` are taken from
the live node, and the exported `RootNodeId` is the root's id.  The last
conjunct shows the literal on a node flagged `canHaveChildren = false`. -/
theorem C10_export_spec (root : JsNode) :
    (∀ e ∈ (exportTreeStructure root).2, e.CanHaveChildren = true ∧
      ∃ n ∈ subNodes root, e = buildNodeStructure n ∧ e.Id = JsNode.id n ∧
        e.Name = JsNode.name n ∧ e.ParentId = JsNode.parentId n ∧
        e.ChildrenIds = (JsNode.children n).map JsNode.id) ∧
    (exportTreeStructure root).1 = JsNode.id root ∧
    (buildNodeStructure
      (JsNode.node 7 "n" "c" "#123456" none none false [])).CanHaveChildren
        = true := by
  refine ⟨?_, rfl, rfl⟩
  intro e he
  have he2 : e ∈ (subNodes root).map buildNodeStructure := by
    rw [← exportNodes_eq]
    exact he
  rcases List.mem_map.mp he2 with ⟨n, hn, hbe⟩
  subst hbe
  exact ⟨rfl, n, hn, rfl, rfl, rfl, rfl, rfl⟩

/-- Witness for C10: the export theorem applied at a concrete two-node tree
whose child is flagged `canHaveChildren = false`; its export entry still
carries `CanHaveChildren = true`. -/
theorem C10_export_spec_witness :
    (buildNodeStructure
      (JsNode.node 1 "a" "c" "#222222" (some 0) none false [])).CanHaveChildren
        = true ∧
    ∃ n ∈ subNodes (JsNode.node 0 "r" "c" "#111111" none none true
        [JsNode.node 1 "a" "c" "#222222" (some 0) none false []]),
      buildNodeStructure (JsNode.node 1 "a" "c" "#222222" (some 0) none false [])
        = buildNodeStructure n ∧
      (buildNodeStructure
        (JsNode.node 1 "a" "c" "#222222" (some 0) none false [])).Id
          = JsNode.id n ∧
      (buildNodeStructure
        (JsNode.node 1 "a" "c" "#222222" (some 0) none false [])).Name
          = JsNode.name n ∧
      (buildNodeStructure
        (JsNode.node 1 "a" "c" "#222222" (some 0) none false [])).ParentId
          = JsNode.parentId n ∧
      (buildNodeStructure
        (JsNode.node 1 "a" "c" "#222222" (some 0) none false [])).ChildrenIds
          = (JsNode.children n).map JsNode.id :=
  (C10_export_spec (JsNode.node 0 "r" "c" "#111111" none none true
      [JsNode.node 1 "a" "c" "#222222" (some 0) none false []])).1
    (buildNodeStructure (JsNode.node 1 "a" "c" "#222222" (some 0) none false []))
    (by simp [exportTreeStructure, exportNodes, buildNodeStructure])

/-! ## Claim C4: host validation during drag-and-drop -/

/-- C4 (amended): a drop REJECTED by the host (`ValidateDropTarget` returns
false) is a no-op — `addChildToNode` aborts without touching the tree and
`getValidDropTargetNode` reports no valid target.  But when the callback
CALL FAILS (throws), both functions deliberately fall through ("Continue
with drop if validation fails") and the drop proceeds: the child is created
and linked, and the hovered target is reported valid, exactly as if the
host had accepted.  The original claim that a failed callback is also
treated as a no-op is false (see `C4_counterexample`). -/
theorem C4_drop_validation (t : List (Nat × Option Nat)) (parentId newId : Nat)
    (hit : Option Nat) (draggedId : Nat) (isDesc : Bool)
    (parentOfDragged : Option Nat) (canHave : Bool) :
    addChildToNode t parentId newId true false (HostResult.ok false) = t ∧
    getValidDropTargetNode hit draggedId isDesc parentOfDragged canHave true
      (HostResult.ok false) = none ∧
    (∀ hostRef skip : Bool, addChildToNode t parentId newId hostRef skip
      HostResult.threw = t ++ [(newId, some parentId)]) ∧
    (∀ tid, hit = some tid → tid ≠ draggedId → isDesc = false →
      parentOfDragged ≠ some tid → canHave = true →
      getValidDropTargetNode hit draggedId isDesc parentOfDragged canHave true
        HostResult.threw = some tid) := by
  refine ⟨rfl, ?_, ?_, ?_⟩
  · rcases hit with _ | tid
    · rfl
    · by_cases h1 : tid = draggedId
      · simp [getValidDropTargetNode, h1]
      · rcases isDesc with _ | _
        · by_cases h3 : parentOfDragged = some tid
          · simp [getValidDropTargetNode, h1, h3]
          · rcases canHave with _ | _
            · simp [getValidDropTargetNode, h1, h3]
            · simp [getValidDropTargetNode, h1, h3]
        · simp [getValidDropTargetNode, h1]
  · intro hostRef skip
    unfold addChildToNode
    by_cases h : hostRef = true ∧ ¬ skip = true
    · rw [if_pos h]
    · rw [if_neg h]
  · intro tid hhit h1 h2 h3 h4
    subst hhit
    subst h2
    subst h4
    simp [getValidDropTargetNode, h1, h3]

/-- Witness for C4: the validation theorem applied at a concrete tree: a
host rejection leaves the one-node tree unchanged. -/
theorem C4_drop_validation_witness :
    addChildToNode [(0, none)] 0 1 true false (HostResult.ok false) =
      [(0, none)] :=
  (C4_drop_validation [(0, none)] 0 1 (some 0) 1 false none true).1

/-- C4 counterexample: a THROWN `ValidateDropTarget` callback is not a
no-op: `addChildToNode` still creates and links the child (the tree gains
the `(1, some 0)` edge), and `getValidDropTargetNode` still reports the
hovered node as a valid target. -/
theorem C4_counterexample :
    addChildToNode [(0, none)] 0 1 true false HostResult.threw =
      [(0, none), (1, some 0)] ∧
    addChildToNode [(0, none)] 0 1 true false HostResult.threw ≠ [(0, none)] ∧
    getValidDropTargetNode (some 0) 1 false none true true HostResult.threw =
      some 0 := by
  exact ⟨rfl, by decide, rfl⟩

/-! ## Claim C8: list helpers -/


theorem mem_getLast? {α : Type} : ∀ {l : List α} {x : α},
    l.getLast? = some x → x ∈ l := by
  intro l
  induction l with
  | nil => intro x h; exact Option.noConfusion h
  | cons a t ih =>
    intro x h
    rcases t with _ | ⟨b, u⟩
    · have : a = x := by simpa using h
      rw [← this]
      exact List.mem_cons_self a []
    · rw [List.getLast?_cons_cons] at h
      exact List.mem_cons_of_mem _ (ih h)

theorem getLast?_cons_isSome {α : Type} :
    ∀ (t : List α) (a : α), ((a :: t).getLast?).isSome = true := by
  intro t
  induction t with
  | nil => intro a; rfl
  | cons b u ih =>
    intro a
    rw [List.getLast?_cons_cons]
    exact ih b

theorem head?_append_left {α : Type} {l : List α} {x : α}
    (h : l.head? = some x) (l' : List α) : (l ++ l').head? = some x := by
  rcases l with _ | ⟨a, t⟩
  · exact Option.noConfusion h
  · simpa using h

theorem getLast?_append_right {α : Type} (l₁ : List α) {l₂ : List α}
    (h : l₂ ≠ []) : (l₁ ++ l₂).getLast? = l₂.getLast? := by
  induction l₁ with
  | nil => rfl
  | cons a t ih =>
    have hne : t ++ l₂ ≠ [] := fun hh => h (List.append_eq_nil.mp hh).2
    rcases he : t ++ l₂ with _ | ⟨y, r⟩
    · exact absurd he hne
    · rw [List.cons_append, he, List.getLast?_cons_cons, ← he, ih]

theorem adj_symm {s : TreeState} {x y : Nat} (h : Adj s x y) : Adj s y x :=
  Or.symm h

theorem chain'_reverse_adj {s : TreeState} {l : List Nat}
    (h : l.Chain' (Adj s)) : l.reverse.Chain' (Adj s) := by
  rw [List.chain'_reverse]
  exact List.Chain'.imp (fun a b hab => adj_symm hab) h

theorem isWalk_reverse {s : TreeState} {a b : Nat} {p : List Nat}
    (h : IsWalk s a b p) : IsWalk s b a p.reverse := by
  obtain ⟨h1, h2, h3⟩ := h
  refine ⟨?_, ?_, chain'_reverse_adj h3⟩
  · rw [List.head?_reverse]; exact h2
  · rw [List.getLast?_reverse]; exact h1

/-! ## Claim C8: forest separation and unique simple paths -/

theorem below_closed {s : TreeState} (hnodup : (ids s).Nodup) {a c : Nat}
    (hc : ParentRel s a c) {x y : Nat}
    (hx : Relation.ReflTransGen (ParentRel s) c x) (hxy : Adj s x y)
    (hy : y ≠ a) : Relation.ReflTransGen (ParentRel s) c y := by
  rcases hxy with hpar | hpar
  · exact hx.tail hpar
  · rcases Relation.ReflTransGen.cases_tail hx with heq | ⟨w, hcw, hwx⟩
    · exact absurd (parentRel_det hnodup (heq ▸ hpar) hc) hy
    · exact (parentRel_det hnodup hwx hpar) ▸ hcw

theorem walk_stays_below {s : TreeState} (hnodup : (ids s).Nodup)
    {a c : Nat} (hc : ParentRel s a c) :
    ∀ (W : List Nat), W.Chain' (Adj s) → a ∉ W →
      (∀ x ∈ W.head?, Relation.ReflTransGen (ParentRel s) c x) →
      ∀ y ∈ W, Relation.ReflTransGen (ParentRel s) c y := by
  intro W
  induction W with
  | nil => intro _ _ _ y hy; exact absurd hy (List.not_mem_nil y)
  | cons x t ih =>
    intro hch ha hhead y hy
    have hx : Relation.ReflTransGen (ParentRel s) c x := hhead x rfl
    rcases List.mem_cons.mp hy with rfl | hyt
    · exact hx
    · rcases t with _ | ⟨x', t'⟩
      · exact absurd hyt (List.not_mem_nil y)
      · have hadj : Adj s x x' := (List.chain'_cons.mp hch).1
        have hx'ne : x' ≠ a := fun h =>
          ha (List.mem_cons_of_mem _ (h ▸ List.mem_cons_self x' t'))
        have hx' : Relation.ReflTransGen (ParentRel s) c x' :=
          below_closed hnodup hc hx hadj hx'ne
        refine ih (List.chain'_cons.mp hch).2
          (fun h => ha (List.mem_cons_of_mem _ h)) ?_ y hyt
        intro z hz
        have : x' = z := Option.some_injective _ hz
        exact this ▸ hx'

theorem walk_closed {s : TreeState} {V : List Nat}
    (hV : ∀ v ∈ V, ∀ y, Adj s v y → y ∈ V) :
    ∀ (W : List Nat), W.Chain' (Adj s) → (∀ x ∈ W.head?, x ∈ V) →
      ∀ y ∈ W, y ∈ V := by
  intro W
  induction W with
  | nil => intro _ _ y hy; exact absurd hy (List.not_mem_nil y)
  | cons x t ih =>
    intro hch hhead y hy
    have hx : x ∈ V := hhead x rfl
    rcases List.mem_cons.mp hy with rfl | hyt
    · exact hx
    · rcases t with _ | ⟨x', t'⟩
      · exact absurd hyt (List.not_mem_nil y)
      · have hadj : Adj s x x' := (List.chain'_cons.mp hch).1
        have hx' : x' ∈ V := hV x hx x' hadj
        refine ih (List.chain'_cons.mp hch).2 ?_ y hyt
        intro z hz
        exact (Option.some_injective _ hz) ▸ hx'

theorem refl_trans_comparable {s : TreeState} (hnodup : (ids s).Nodup)
    {c d b : Nat} (hcb : Relation.ReflTransGen (ParentRel s) c b) :
    Relation.ReflTransGen (ParentRel s) d b →
      Relation.ReflTransGen (ParentRel s) c d ∨
        Relation.ReflTransGen (ParentRel s) d c := by
  induction hcb with
  | refl => intro hdb; exact Or.inr hdb
  | tail hcw hwb ih =>
    intro hdb
    rcases Relation.ReflTransGen.cases_tail hdb with heq | ⟨w', hdw', hw'b⟩
    · exact Or.inl (heq ▸ Relation.ReflTransGen.tail hcw hwb)
    · have hww : w' = _ := parentRel_det hnodup hw'b hwb
      exact ih (hww ▸ hdw')

theorem cycle_from_edge {s : TreeState} (hroot : Rooted s) {a c : Nat}
    (hc : ParentRel s a c)
    (hca : Relation.ReflTransGen (ParentRel s) c a) : False :=
  rooted_irrefl hroot a (Relation.TransGen.head' hc hca)

theorem children_below_eq {s : TreeState} (hWF : WF s) {a c d b : Nat}
    (hc : ParentRel s a c) (hd : ParentRel s a d)
    (hcb : Relation.ReflTransGen (ParentRel s) c b)
    (hdb : Relation.ReflTransGen (ParentRel s) d b) : c = d := by
  rcases refl_trans_comparable hWF.nodupIds hcb hdb with hcd | hdc
  · rcases Relation.ReflTransGen.cases_tail hcd with heq | ⟨w, hcw, hwd⟩
    · exact heq.symm
    · have hwa : w = a := parentRel_det hWF.nodupIds hwd hd
      exact (cycle_from_edge hWF.rooted hc (hwa ▸ hcw)).elim
  · rcases Relation.ReflTransGen.cases_tail hdc with heq | ⟨w, hdw, hwc⟩
    · exact heq
    · have hwa : w = a := parentRel_det hWF.nodupIds hwc hc
      exact (cycle_from_edge hWF.rooted hd (hwa ▸ hdw)).elim

theorem parent_child_sep {s : TreeState} (hWF : WF s) {a c pa : Nat}
    (hc : ParentRel s a c) (hpa : ParentRel s pa a)
    (h : Relation.ReflTransGen (ParentRel s) c pa) : False :=
  cycle_from_edge hWF.rooted hc (h.tail hpa)

theorem walk_below_end {s : TreeState} (hWF : WF s) {a c b : Nat}
    (hc : ParentRel s a c) {t : List Nat}
    (hch : (c :: t).Chain' (Adj s)) (ha : a ∉ c :: t)
    (hend : (c :: t).getLast? = some b) :
    Relation.ReflTransGen (ParentRel s) c b := by
  refine walk_stays_below hWF.nodupIds hc (c :: t) hch ha ?_ b
    (mem_getLast? hend)
  intro z hz
  exact (Option.some_injective _ hz) ▸ Relation.ReflTransGen.refl

theorem first_step_eq {s : TreeState} (hWF : WF s) {a b c d : Nat}
    {p q : List Nat} (hac : Adj s a c) (had : Adj s a d)
    (hcwalk : (c :: p).Chain' (Adj s)) (hanp : a ∉ c :: p)
    (hcend : (c :: p).getLast? = some b)
    (hdwalk : (d :: q).Chain' (Adj s)) (hanq : a ∉ d :: q)
    (hdend : (d :: q).getLast? = some b) : c = d := by
  rcases hac with hc | hcp
  · rcases had with hd | hdp
    · exact children_below_eq hWF hc hd
        (walk_below_end hWF hc hcwalk hanp hcend)
        (walk_below_end hWF hd hdwalk hanq hdend)
    · exfalso
      have hb1 : Relation.ReflTransGen (ParentRel s) c b :=
        walk_below_end hWF hc hcwalk hanp hcend
      have hrev : ((d :: q).reverse).Chain' (Adj s) := chain'_reverse_adj hdwalk
      have hdin : Relation.ReflTransGen (ParentRel s) c d := by
        refine walk_stays_below hWF.nodupIds hc ((d :: q).reverse) hrev
          (fun hmem => hanq (List.mem_reverse.mp hmem)) ?_ d (by simp)
        intro z hz
        rw [List.head?_reverse, hdend] at hz
        exact (Option.some_injective _ hz) ▸ hb1
      exact parent_child_sep hWF hc hdp hdin
  · rcases had with hd | hdp
    · exfalso
      have hb1 : Relation.ReflTransGen (ParentRel s) d b :=
        walk_below_end hWF hd hdwalk hanq hdend
      have hrev : ((c :: p).reverse).Chain' (Adj s) := chain'_reverse_adj hcwalk
      have hcin : Relation.ReflTransGen (ParentRel s) d c := by
        refine walk_stays_below hWF.nodupIds hd ((c :: p).reverse) hrev
          (fun hmem => hanp (List.mem_reverse.mp hmem)) ?_ c (by simp)
        intro z hz
        rw [List.head?_reverse, hcend] at hz
        exact (Option.some_injective _ hz) ▸ hb1
      exact parent_child_sep hWF hd hcp hcin
    · exact parentRel_det hWF.nodupIds hcp hdp

theorem simple_path_unique {s : TreeState} (hWF : WF s) {b : Nat} :
    ∀ (p : List Nat) (a : Nat) (q : List Nat),
      SimplePath s a b p → SimplePath s a b q → p = q := by
  intro p
  induction p with
  | nil =>
    intro a q hp _
    exact absurd hp.1.1 (by simp)
  | cons x t ih =>
    intro a q hp hq
    have hxa : x = a := Option.some_injective _ hp.1.1
    rcases q with _ | ⟨y, u⟩
    · exact absurd hq.1.1 (by simp)
    · have hya : y = a := Option.some_injective _ hq.1.1
      rcases t with _ | ⟨c, t'⟩
      · have hxb : x = b := Option.some_injective _ hp.1.2.1
        rcases u with _ | ⟨z, v⟩
        · rw [hxa, hya]
        · exfalso
          have hlast : (y :: z :: v).getLast? = some b := hq.1.2.1
          rw [List.getLast?_cons_cons] at hlast
          have hbm : b ∈ z :: v := mem_getLast? hlast
          have hym : y ∈ z :: v := by
            rw [hya, ← hxa, hxb]; exact hbm
          exact (List.nodup_cons.mp hq.2).1 hym
      · rcases u with _ | ⟨d, u'⟩
        · exfalso
          have hyb : y = b := Option.some_injective _ hq.1.2.1
          have hlast : (x :: c :: t').getLast? = some b := hp.1.2.1
          rw [List.getLast?_cons_cons] at hlast
          have hbm : b ∈ c :: t' := mem_getLast? hlast
          have hxm : x ∈ c :: t' := by
            rw [hxa, ← hya, hyb]; exact hbm
          exact (List.nodup_cons.mp hp.2).1 hxm
        · have hchp : (x :: c :: t').Chain' (Adj s) := hp.1.2.2
          have hchq : (y :: d :: u').Chain' (Adj s) := hq.1.2.2
          have hadjc : Adj s a c := by
            have := (List.chain'_cons.mp hchp).1
            rwa [hxa] at this
          have hadjd : Adj s a d := by
            have := (List.chain'_cons.mp hchq).1
            rwa [hya] at this
          have hanp : a ∉ c :: t' := by
            have := (List.nodup_cons.mp hp.2).1
            rwa [hxa] at this
          have hanq : a ∉ d :: u' := by
            have := (List.nodup_cons.mp hq.2).1
            rwa [hya] at this
          have hpl : (c :: t').getLast? = some b := by
            have := hp.1.2.1
            rwa [List.getLast?_cons_cons] at this
          have hql : (d :: u').getLast? = some b := by
            have := hq.1.2.1
            rwa [List.getLast?_cons_cons] at this
          have hcd : c = d := first_step_eq hWF hadjc hadjd
            (List.chain'_cons.mp hchp).2 hanp hpl
            (List.chain'_cons.mp hchq).2 hanq hql
          have htp : SimplePath s c b (c :: t') :=
            ⟨⟨rfl, hpl, (List.chain'_cons.mp hchp).2⟩,
              (List.nodup_cons.mp hp.2).2⟩
          have htq : SimplePath s c b (c :: u') := by
            rw [hcd]
            exact ⟨⟨rfl, hql, (List.chain'_cons.mp hchq).2⟩,
              (List.nodup_cons.mp hq.2).2⟩
          have heq2 : c :: t' = c :: u' := ih c (c :: u') htp htq
          rw [show x = y from hxa.trans hya.symm, ← hcd, heq2]

theorem exists_simple_of_walk {s : TreeState} :
    ∀ (n : Nat) (W : List Nat) (a b : Nat), W.length ≤ n → IsWalk s a b W →
      ∃ P, SimplePath s a b P ∧ P.length ≤ W.length ∧ ∀ x ∈ P, x ∈ W := by
  intro n
  induction n with
  | zero =>
    intro W a b hlen hW
    have hWnil : W = [] := List.length_eq_zero.mp (Nat.le_zero.mp hlen)
    rw [hWnil] at hW
    exact absurd hW.1 (by simp)
  | succ m ih =>
    intro W a b hlen hW
    by_cases hnd : W.Nodup
    · exact ⟨W, ⟨hW, hnd⟩, le_refl _, fun x hx => hx⟩
    · rcases W with _ | ⟨x, t⟩
      · exact absurd hW.1 (by simp)
      · have hxa : x = a := Option.some_injective _ hW.1
        by_cases hmem : x ∈ t
        · rcases List.append_of_mem hmem with ⟨t1, t2, ht⟩
          have hsuf : (x :: t2) <:+ (x :: t) := by
            rw [ht]
            exact (List.suffix_append t1 (x :: t2)).trans
              (List.suffix_cons x (t1 ++ x :: t2))
          have hwalk2 : IsWalk s a b (x :: t2) := by
            refine ⟨by simpa using hxa ▸ rfl, ?_, hW.2.2.suffix hsuf⟩
            · have hl : (x :: t).getLast? = some b := hW.2.1
              rw [ht, show x :: (t1 ++ x :: t2) = (x :: t1) ++ (x :: t2) from
                rfl, getLast?_append_right (x :: t1) (by simp)] at hl
              exact hl
          have hlen2 : (x :: t2).length ≤ m := by
            have := congrArg List.length ht
            simp only [List.length_append, List.length_cons] at this
            simp only [List.length_cons] at hlen ⊢
            omega
          rcases ih (x :: t2) a b hlen2 hwalk2 with ⟨P, hP, hPlen, hPsub⟩
          refine ⟨P, hP, ?_, fun z hz => hsuf.subset (hPsub z hz)⟩
          have := congrArg List.length ht
          simp only [List.length_append, List.length_cons] at this
          simp only [List.length_cons] at hPlen ⊢
          omega
        · have hndt : ¬ t.Nodup := fun h => hnd (List.nodup_cons.mpr ⟨hmem, h⟩)
          rcases t with _ | ⟨x', t'⟩
          · exact absurd List.nodup_nil hndt
          · have hwt : IsWalk s x' b (x' :: t') := by
              refine ⟨rfl, ?_, hW.2.2.tail⟩
              have := hW.2.1
              rwa [List.getLast?_cons_cons] at this
            have hlent : (x' :: t').length ≤ m := by
              simp only [List.length_cons] at hlen ⊢
              omega
            rcases ih (x' :: t') x' b hlent hwt with ⟨P, hP, hPlen, hPsub⟩
            rcases P with _ | ⟨z, P'⟩
            · exact absurd hP.1.1 (by simp)
            · have hzx' : z = x' := Option.some_injective _ hP.1.1
              refine ⟨x :: z :: P', ⟨⟨by simpa using hxa, ?_, ?_⟩, ?_⟩, ?_, ?_⟩
              · rw [List.getLast?_cons_cons]
                exact hP.1.2.1
              · refine List.chain'_cons.mpr ⟨?_, hP.1.2.2⟩
                rw [hzx']
                exact (List.chain'_cons.mp hW.2.2).1
              · refine List.nodup_cons.mpr ⟨?_, hP.2⟩
                intro hxin
                exact hmem (hPsub x hxin)
              · simp only [List.length_cons] at hPlen ⊢
                omega
              · intro w hw
                rcases List.mem_cons.mp hw with rfl | hw'
                · exact List.mem_cons_self w _
                · exact List.mem_cons_of_mem _ (hPsub w hw')

/-! ## Claim C8: BFS queue/visited bookkeeping -/

theorem bfsPush_snd_mono {path : List Nat} {qv : List (List Nat) × List Nat}
    {c : Nat} : ∀ v ∈ qv.2, v ∈ (bfsPush path qv c).2 := by
  intro v hv
  unfold bfsPush
  by_cases h : c ∈ qv.2
  · rw [if_pos h]; exact hv
  · rw [if_neg h]; exact List.mem_cons_of_mem _ hv

theorem bfsPush_fst_mono {path : List Nat} {qv : List (List Nat) × List Nat}
    {c : Nat} : ∀ p ∈ qv.1, p ∈ (bfsPush path qv c).1 := by
  intro p hp
  unfold bfsPush
  by_cases h : c ∈ qv.2
  · rw [if_pos h]; exact hp
  · rw [if_neg h]; exact List.mem_append_left _ hp

theorem bfsPush_mem_snd {path : List Nat} {qv : List (List Nat) × List Nat}
    {c : Nat} : c ∈ (bfsPush path qv c).2 := by
  unfold bfsPush
  by_cases h : c ∈ qv.2
  · rw [if_pos h]; exact h
  · rw [if_neg h]; exact List.mem_cons_self c _

theorem mem_bfsPush_fst {path : List Nat} {qv : List (List Nat) × List Nat}
    {c : Nat} {p' : List Nat} (h : p' ∈ (bfsPush path qv c).1) :
    p' ∈ qv.1 ∨ (p' = path ++ [c] ∧ c ∉ qv.2) := by
  unfold bfsPush at h
  by_cases hc : c ∈ qv.2
  · rw [if_pos hc] at h; exact Or.inl h
  · rw [if_neg hc] at h
    rcases List.mem_append.mp h with h1 | h1
    · exact Or.inl h1
    · exact Or.inr ⟨List.mem_singleton.mp h1, hc⟩

theorem mem_bfsPush_snd {path : List Nat} {qv : List (List Nat) × List Nat}
    {c : Nat} {v : Nat} (h : v ∈ (bfsPush path qv c).2) :
    v ∈ qv.2 ∨ v = c := by
  unfold bfsPush at h
  by_cases hc : c ∈ qv.2
  · rw [if_pos hc] at h; exact Or.inl h
  · rw [if_neg hc] at h
    rcases List.mem_cons.mp h with h1 | h1
    · exact Or.inr h1
    · exact Or.inl h1

theorem foldPush_snd_mono {path : List Nat} :
    ∀ (cs : List Nat) (qv : List (List Nat) × List Nat),
      ∀ v ∈ qv.2, v ∈ (cs.foldl (bfsPush path) qv).2 := by
  intro cs
  induction cs with
  | nil => intro qv v hv; exact hv
  | cons c cs ih =>
    intro qv v hv
    exact ih (bfsPush path qv c) v (bfsPush_snd_mono v hv)

theorem foldPush_fst_mono {path : List Nat} :
    ∀ (cs : List Nat) (qv : List (List Nat) × List Nat),
      ∀ p ∈ qv.1, p ∈ (cs.foldl (bfsPush path) qv).1 := by
  intro cs
  induction cs with
  | nil => intro qv p hp; exact hp
  | cons c cs ih =>
    intro qv p hp
    exact ih (bfsPush path qv c) p (bfsPush_fst_mono p hp)

theorem foldPush_children_mem {path : List Nat} :
    ∀ (cs : List Nat) (qv : List (List Nat) × List Nat),
      ∀ c ∈ cs, c ∈ (cs.foldl (bfsPush path) qv).2 := by
  intro cs
  induction cs with
  | nil => intro qv c hc; exact absurd hc (List.not_mem_nil c)
  | cons c0 cs ih =>
    intro qv c hc
    rcases List.mem_cons.mp hc with rfl | hc'
    · exact foldPush_snd_mono cs (bfsPush path qv c) c bfsPush_mem_snd
    · exact ih (bfsPush path qv c0) c hc'

theorem mem_foldPush_fst {path : List Nat} :
    ∀ (cs : List Nat) (qv : List (List Nat) × List Nat) (p' : List Nat),
      p' ∈ (cs.foldl (bfsPush path) qv).1 →
      p' ∈ qv.1 ∨ ∃ c ∈ cs, p' = path ++ [c] ∧ c ∉ qv.2 := by
  intro cs
  induction cs with
  | nil => intro qv p' h; exact Or.inl h
  | cons c0 cs ih =>
    intro qv p' h
    rcases ih (bfsPush path qv c0) p' h with h1 | ⟨c, hc, he, hnv⟩
    · rcases mem_bfsPush_fst h1 with h2 | ⟨he, hnv⟩
      · exact Or.inl h2
      · exact Or.inr ⟨c0, List.mem_cons_self c0 cs, he, hnv⟩
    · have hnv' : c ∉ qv.2 := fun hin => hnv (bfsPush_snd_mono c hin)
      exact Or.inr ⟨c, List.mem_cons_of_mem _ hc, he, hnv'⟩

theorem mem_foldPush_snd {path : List Nat} :
    ∀ (cs : List Nat) (qv : List (List Nat) × List Nat) (v : Nat),
      v ∈ (cs.foldl (bfsPush path) qv).2 → v ∈ qv.2 ∨ v ∈ cs := by
  intro cs
  induction cs with
  | nil => intro qv v h; exact Or.inl h
  | cons c0 cs ih =>
    intro qv v h
    rcases ih (bfsPush path qv c0) v h with h1 | h1
    · rcases mem_bfsPush_snd h1 with h2 | h2
      · exact Or.inl h2
      · exact Or.inr (h2 ▸ List.mem_cons_self c0 cs)
    · exact Or.inr (List.mem_cons_of_mem _ h1)

theorem bfsPush_lastWitness {A path : List Nat}
    {qv : List (List Nat) × List Nat} {c : Nat}
    (h : ∀ v ∈ qv.2, v ∈ A ∨ ∃ p' ∈ qv.1, p'.getLast? = some v) :
    ∀ v ∈ (bfsPush path qv c).2,
      v ∈ A ∨ ∃ p' ∈ (bfsPush path qv c).1, p'.getLast? = some v := by
  intro v hv
  unfold bfsPush at hv ⊢
  by_cases hc : c ∈ qv.2
  · rw [if_pos hc] at hv ⊢
    exact h v hv
  · rw [if_neg hc] at hv ⊢
    rcases List.mem_cons.mp hv with rfl | hv'
    · refine Or.inr ⟨path ++ [v], List.mem_append_right _ (by simp), ?_⟩
      exact List.getLast?_concat path
    · rcases h v hv' with h1 | ⟨p', hp', hpl⟩
      · exact Or.inl h1
      · exact Or.inr ⟨p', List.mem_append_left _ hp', hpl⟩

theorem foldPush_lastWitness {A path : List Nat} :
    ∀ (cs : List Nat) (qv : List (List Nat) × List Nat),
      (∀ v ∈ qv.2, v ∈ A ∨ ∃ p' ∈ qv.1, p'.getLast? = some v) →
      ∀ v ∈ (cs.foldl (bfsPush path) qv).2,
        v ∈ A ∨ ∃ p' ∈ (cs.foldl (bfsPush path) qv).1,
          p'.getLast? = some v := by
  intro cs
  induction cs with
  | nil => intro qv h; exact h
  | cons c0 cs ih =>
    intro qv h
    exact ih (bfsPush path qv c0) (bfsPush_lastWitness h)

theorem bfsExpand_snd_mono (path children : List Nat) (parent : Option Nat)
    (qv : List (List Nat) × List Nat) :
    ∀ v ∈ qv.2, v ∈ (bfsExpand path children parent qv).2 := by
  intro v hv
  unfold bfsExpand
  rcases parent with _ | pp
  · exact foldPush_snd_mono children qv v hv
  · exact bfsPush_snd_mono v (foldPush_snd_mono children qv v hv)

theorem bfsExpand_fst_mono (path children : List Nat) (parent : Option Nat)
    (qv : List (List Nat) × List Nat) :
    ∀ p ∈ qv.1, p ∈ (bfsExpand path children parent qv).1 := by
  intro p hp
  unfold bfsExpand
  rcases parent with _ | pp
  · exact foldPush_fst_mono children qv p hp
  · exact bfsPush_fst_mono p (foldPush_fst_mono children qv p hp)

theorem bfsExpand_children_mem (path children : List Nat)
    (parent : Option Nat) (qv : List (List Nat) × List Nat) :
    ∀ c ∈ children, c ∈ (bfsExpand path children parent qv).2 := by
  intro c hc
  unfold bfsExpand
  rcases parent with _ | pp
  · exact foldPush_children_mem children qv c hc
  · exact bfsPush_snd_mono c (foldPush_children_mem children qv c hc)

theorem bfsExpand_parent_mem (path children : List Nat)
    (parent : Option Nat) (qv : List (List Nat) × List Nat) :
    ∀ pp, parent = some pp → pp ∈ (bfsExpand path children parent qv).2 := by
  intro pp hpp
  unfold bfsExpand
  rw [hpp]
  exact bfsPush_mem_snd

theorem mem_bfsExpand_fst (path children : List Nat) (parent : Option Nat)
    (qv : List (List Nat) × List Nat) (p' : List Nat)
    (h : p' ∈ (bfsExpand path children parent qv).1) :
    p' ∈ qv.1 ∨ ∃ c, p' = path ++ [c] ∧
      (c ∈ children ∨ parent = some c) ∧ c ∉ qv.2 := by
  unfold bfsExpand at h
  rcases parent with _ | pp
  · rcases mem_foldPush_fst children qv p' h with h1 | ⟨c, hc, he, hnv⟩
    · exact Or.inl h1
    · exact Or.inr ⟨c, he, Or.inl hc, hnv⟩
  · rcases mem_bfsPush_fst h with h1 | ⟨he, hnv⟩
    · rcases mem_foldPush_fst children qv p' h1 with h2 | ⟨c, hc, he, hnv⟩
      · exact Or.inl h2
      · exact Or.inr ⟨c, he, Or.inl hc, hnv⟩
    · have hnv' : pp ∉ qv.2 := fun hin =>
        hnv (foldPush_snd_mono children qv pp hin)
      exact Or.inr ⟨pp, he, Or.inr rfl, hnv'⟩

theorem mem_bfsExpand_snd (path children : List Nat) (parent : Option Nat)
    (qv : List (List Nat) × List Nat) (v : Nat)
    (h : v ∈ (bfsExpand path children parent qv).2) :
    v ∈ qv.2 ∨ v ∈ children ∨ parent = some v := by
  unfold bfsExpand at h
  rcases parent with _ | pp
  · rcases mem_foldPush_snd children qv v h with h1 | h1
    · exact Or.inl h1
    · exact Or.inr (Or.inl h1)
  · rcases mem_bfsPush_snd h with h1 | h1
    · rcases mem_foldPush_snd children qv v h1 with h2 | h2
      · exact Or.inl h2
      · exact Or.inr (Or.inl h2)
    · exact Or.inr (Or.inr (by rw [h1]))

theorem bfsExpand_lastWitness (path children : List Nat)
    (parent : Option Nat) (qv : List (List Nat) × List Nat)
    (h : ∀ v ∈ qv.2, v ∈ qv.2 ∨ ∃ p' ∈ qv.1, p'.getLast? = some v) :
    ∀ v ∈ (bfsExpand path children parent qv).2,
      v ∈ qv.2 ∨ ∃ p' ∈ (bfsExpand path children parent qv).1,
        p'.getLast? = some v := by
  intro v hv
  unfold bfsExpand at hv ⊢
  rcases parent with _ | pp
  · exact foldPush_lastWitness children qv (fun v hv => Or.inl hv) v hv
  · exact bfsPush_lastWitness
      (foldPush_lastWitness children qv (fun v hv => Or.inl hv)) v hv

/-! ## Claim C8: BFS termination -/

theorem remainingCount_lt_length {s : TreeState} {visited : List Nat}
    {n : FlowyNode} (hn : n ∈ s.nodes) (hv : n.id ∈ visited) :
    remainingCount s visited < s.nodes.length := by
  unfold remainingCount
  have h1 := length_filter_lt s.nodes (fun m => decide (m.id ∉ visited))
    (fun _ => true) (fun a _ => rfl) n hn (by simp [hv]) rfl
  simpa using h1

theorem bfsPush_measure {s : TreeState} (path : List Nat)
    (qv : List (List Nat) × List Nat) (c : Nat) (hc : c ∈ ids s) :
    (bfsPush path qv c).1.length + remainingCount s (bfsPush path qv c).2 ≤
      qv.1.length + remainingCount s qv.2 := by
  unfold bfsPush
  by_cases h : c ∈ qv.2
  · rw [if_pos h]
  · rw [if_neg h]
    rcases List.mem_map.mp hc with ⟨n, hn, hnid⟩
    have hlt := remainingCount_lt hn hnid h
    simp only [List.length_append, List.length_cons, List.length_nil]
    omega

theorem foldPush_measure {s : TreeState} (path : List Nat) :
    ∀ (cs : List Nat) (qv : List (List Nat) × List Nat),
      (∀ c ∈ cs, c ∈ ids s) →
      (cs.foldl (bfsPush path) qv).1.length +
          remainingCount s (cs.foldl (bfsPush path) qv).2 ≤
        qv.1.length + remainingCount s qv.2 := by
  intro cs
  induction cs with
  | nil => intro qv _; exact le_refl _
  | cons c0 cs ih =>
    intro qv hcs
    refine le_trans (ih (bfsPush path qv c0)
      (fun c hc => hcs c (List.mem_cons_of_mem _ hc))) ?_
    exact bfsPush_measure path qv c0 (hcs c0 (List.mem_cons_self c0 cs))

theorem bfsExpand_measure {s : TreeState} (path children : List Nat)
    (parent : Option Nat) (qv : List (List Nat) × List Nat)
    (hch : ∀ c ∈ children, c ∈ ids s)
    (hpar : ∀ pp, parent = some pp → pp ∈ ids s) :
    (bfsExpand path children parent qv).1.length +
        remainingCount s (bfsExpand path children parent qv).2 ≤
      qv.1.length + remainingCount s qv.2 := by
  unfold bfsExpand
  rcases parent with _ | pp
  · exact foldPush_measure path children qv hch
  · exact le_trans
      (bfsPush_measure path (children.foldl (bfsPush path) qv) pp
        (hpar pp rfl))
      (foldPush_measure path children qv hch)

theorem children_mem_ids {s : TreeState} (hWF : WF s) {node : FlowyNode}
    (hnode : node ∈ s.nodes) : ∀ c ∈ node.children, c ∈ ids s := by
  intro c hc
  rcases hWF.childParent node hnode c hc with ⟨m, hm, hmid, -⟩
  exact hmid ▸ List.mem_map_of_mem _ hm

theorem parent_mem_ids {s : TreeState} (hWF : WF s) {node : FlowyNode}
    (hnode : node ∈ s.nodes) : ∀ pp, node.parent = some pp → pp ∈ ids s := by
  intro pp hp
  rcases hWF.parentChild node hnode pp hp with ⟨m, hm, hmid, -⟩
  exact hmid ▸ List.mem_map_of_mem _ hm

/-- Termination of the `findPath` BFS on well-formed trees: a budget of
`|queue| + |unvisited nodes|` iterations always suffices, so the loop with
budget `|nodes| + 1` finishes. -/
theorem findPathLoop_isSome {s : TreeState} (hWF : WF s) (endId : Nat) :
    ∀ (fuel : Nat) (queue : List (List Nat)) (visited : List Nat),
      queue.length + remainingCount s visited < fuel →
      (findPathLoop s endId fuel queue visited).isSome = true := by
  intro fuel
  induction fuel with
  | zero =>
    intro queue visited h
    exact absurd h (Nat.not_lt_zero _)
  | succ m ih =>
    intro queue visited hlt
    rcases queue with _ | ⟨path, rest⟩
    · simp [findPathLoop]
    · simp only [findPathLoop]
      rcases hl : path.getLast? with _ | cur
      · refine ih rest visited ?_
        simp only [List.length_cons] at hlt
        omega
      · by_cases hcur : cur = endId
        · simp [hcur]
        · simp only [if_neg hcur]
          rcases hn : getNodeById s cur with _ | node
          · refine ih rest visited ?_
            simp only [List.length_cons] at hlt
            omega
          · have hnmem := (getNodeById_mem hn).1
            refine ih _ _ ?_
            have hms : (bfsExpand path node.children node.parent
                  (rest, visited)).1.length +
                remainingCount s (bfsExpand path node.children node.parent
                  (rest, visited)).2 ≤
                rest.length + remainingCount s visited :=
              bfsExpand_measure path node.children node.parent
                (rest, visited) (children_mem_ids hWF hnmem)
                (parent_mem_ids hWF hnmem)
            simp only [List.length_cons] at hlt
            omega

/-! ## Claim C8: BFS soundness and exhaustiveness -/

theorem findPathLoop_spec {s : TreeState} (hWF : WF s) (a endId : Nat) :
    ∀ (fuel : Nat) (queue : List (List Nat)) (visited : List Nat),
      BfsInv s a endId queue visited →
      (∀ p, findPathLoop s endId fuel queue visited = some (some p) →
        IsWalk s a endId p ∧ p.Nodup) ∧
      (findPathLoop s endId fuel queue visited = some none →
        ∀ W, ¬ IsWalk s a endId W) := by
  intro fuel
  induction fuel with
  | zero =>
    intro queue visited _
    constructor
    · intro p h
      simp [findPathLoop] at h
    · intro h
      simp [findPathLoop] at h
  | succ m ih =>
    intro queue visited inv
    rcases queue with _ | ⟨path, rest⟩
    · constructor
      · intro p h
        simp [findPathLoop] at h
      · intro _ W hW
        have hclosed : ∀ v ∈ visited, ∀ y, Adj s v y → y ∈ visited := by
          intro v hv y hy
          rcases inv.closed v hv with ⟨p, hp, -⟩ | hr
          · exact absurd hp (List.not_mem_nil p)
          · exact hr y hy
        have hend : endId ∉ visited := by
          intro h
          rcases inv.endWitness h with ⟨p, hp, -⟩
          exact absurd hp (List.not_mem_nil p)
        have hall : ∀ y ∈ W, y ∈ visited := by
          refine walk_closed hclosed W hW.2.2 ?_
          intro x hx
          rw [hW.1] at hx
          exact (Option.some_injective _ hx) ▸ inv.startMem
        exact hend (hall endId (mem_getLast? hW.2.1))
    · have hpmem : path ∈ path :: rest := List.mem_cons_self _ _
      rcases hl : path.getLast? with _ | cur
      · exfalso
        have hne := inv.nonempty path hpmem
        rcases path with _ | ⟨z, zt⟩
        · exact hne rfl
        · have := getLast?_cons_isSome zt z
          rw [hl] at this
          exact Bool.noConfusion this
      · have hcurp : cur ∈ path := mem_getLast? hl
        have hcurv : cur ∈ visited := inv.inVisited path hpmem cur hcurp
        by_cases hce : cur = endId
        · constructor
          · intro p h
            simp only [findPathLoop, hl, if_pos hce] at h
            have hpe : path = p := by simpa using h
            rw [← hpe]
            obtain ⟨hh, hch, hnd⟩ := inv.paths path hpmem
            exact ⟨⟨hh, by rw [hl, hce], hch⟩, hnd⟩
          · intro h
            simp [findPathLoop, hl, hce] at h
        · rcases hn : getNodeById s cur with _ | node
          · exfalso
            have hs := getNodeById_isSome_iff.mpr (inv.visIds cur hcurv)
            rw [hn] at hs
            exact Bool.noConfusion hs
          · have hnmem := (getNodeById_mem hn).1
            have hnid := (getNodeById_mem hn).2
            have hEs2 := bfsExpand_snd_mono path node.children node.parent
              (rest, visited)
            have hEs1 := bfsExpand_fst_mono path node.children node.parent
              (rest, visited)
            have hchar := mem_bfsExpand_fst path node.children node.parent
              (rest, visited)
            have hsndchar := mem_bfsExpand_snd path node.children node.parent
              (rest, visited)
            have hcmem := bfsExpand_children_mem path node.children
              node.parent (rest, visited)
            have hppmem := bfsExpand_parent_mem path node.children
              node.parent (rest, visited)
            have hlastw := bfsExpand_lastWitness path node.children
              node.parent (rest, visited) (fun v hv => Or.inl hv)
            have hadjc : ∀ c, (c ∈ node.children ∨ node.parent = some c) →
                Adj s cur c := by
              intro c hc
              rcases hc with hc | hc
              · rcases hWF.childParent node hnmem c hc with
                  ⟨m', hm', hmid, hmp⟩
                exact Or.inl ⟨m', hm', hmid, by rw [hmp, hnid]⟩
              · exact Or.inr ⟨node, hnmem, hnid, hc⟩
            have hcurclosed : ∀ y, Adj s cur y →
                y ∈ (bfsExpand path node.children node.parent
                  (rest, visited)).2 := by
              intro y hy
              rcases hy with hpc | hcp
              · rcases hpc with ⟨m', hm', hmid, hmp⟩
                rcases hWF.parentChild m' hm' cur hmp with
                  ⟨w, hw, hwid, hwch⟩
                have hwn : w = node := by
                  have h1 := getNodeById_eq_some_self hWF.nodupIds hw
                  rw [hwid] at h1
                  exact Option.some_injective _ (h1.symm.trans hn)
                rw [hwn] at hwch
                exact hmid ▸ hcmem m'.id hwch
              · rcases hcp with ⟨m', hm', hmid, hmp⟩
                have hmn : m' = node := by
                  have h1 := getNodeById_eq_some_self hWF.nodupIds hm'
                  rw [hmid] at h1
                  exact Option.some_injective _ (h1.symm.trans hn)
                rw [hmn] at hmp
                exact hppmem y hmp
            have inv' : BfsInv s a endId
                (bfsExpand path node.children node.parent (rest, visited)).1
                (bfsExpand path node.children node.parent
                  (rest, visited)).2 := by
              refine ⟨?_, ?_, ?_, ?_, ?_, ?_, ?_⟩
              · intro p' hp'
                rcases hchar p' hp' with h1 | ⟨c, he, -, -⟩
                · exact inv.nonempty p' (List.mem_cons_of_mem _ h1)
                · rw [he]; simp
              · intro p' hp'
                rcases hchar p' hp' with h1 | ⟨c, he, hside, hnv⟩
                · exact inv.paths p' (List.mem_cons_of_mem _ h1)
                · obtain ⟨hh, hch, hnd⟩ := inv.paths path hpmem
                  rw [he]
                  refine ⟨head?_append_left hh _, ?_, ?_⟩
                  · refine List.chain'_append.mpr
                      ⟨hch, List.chain'_singleton c, ?_⟩
                    intro x hx y hy
                    have hxc : x = cur := by
                      rw [hl] at hx
                      exact (Option.some_injective _ hx.symm)
                    have hyc : c = y := by simpa using hy
                    rw [hxc, ← hyc]
                    exact hadjc c hside
                  · refine List.nodup_append.mpr
                      ⟨hnd, List.nodup_singleton c, ?_⟩
                    intro x hx hxc
                    have : x = c := List.mem_singleton.mp hxc
                    exact hnv (this ▸ inv.inVisited path hpmem x hx)
              · intro p' hp' x hx
                rcases hchar p' hp' with h1 | ⟨c, he, hside, -⟩
                · exact hEs2 x
                    (inv.inVisited p' (List.mem_cons_of_mem _ h1) x hx)
                · rw [he] at hx
                  rcases List.mem_append.mp hx with h2 | h2
                  · exact hEs2 x (inv.inVisited path hpmem x h2)
                  · have hxc : x = c := List.mem_singleton.mp h2
                    rcases hside with hs1 | hs1
                    · exact hxc ▸ hcmem c hs1
                    · exact hxc ▸ hppmem c hs1
              · intro v hv
                rcases hsndchar v hv with h1 | h1 | h1
                · exact inv.visIds v h1
                · exact children_mem_ids hWF hnmem v h1
                · exact parent_mem_ids hWF hnmem v h1
              · exact hEs2 a inv.startMem
              · intro v hv
                by_cases hvold : v ∈ visited
                · rcases inv.closed v hvold with ⟨p', hp', hpl⟩ | hr
                  · rcases List.mem_cons.mp hp' with heq | hmem2
                    · have hvc : v = cur := by
                        rw [heq] at hpl
                        exact Option.some_injective _ (hpl.symm.trans hl)
                      right
                      intro y hy
                      exact hcurclosed y (hvc ▸ hy)
                    · exact Or.inl ⟨p', hEs1 p' hmem2, hpl⟩
                  · right
                    intro y hy
                    exact hEs2 y (hr y hy)
                · rcases hlastw v hv with h1 | hw
                  · exact absurd h1 hvold
                  · exact Or.inl hw
              · intro hev
                by_cases hold : endId ∈ visited
                · rcases inv.endWitness hold with ⟨p', hp', hpl⟩
                  rcases List.mem_cons.mp hp' with heq | hmem2
                  · exfalso
                    apply hce
                    rw [heq] at hpl
                    exact Option.some_injective _ (hl.symm.trans hpl)
                  · exact ⟨p', hEs1 p' hmem2, hpl⟩
                · rcases hlastw endId hev with h1 | hw
                  · exact absurd h1 hold
                  · exact hw
            have hres : findPathLoop s endId (m + 1) (path :: rest) visited =
                findPathLoop s endId m
                  (bfsExpand path node.children node.parent
                    (rest, visited)).1
                  (bfsExpand path node.children node.parent
                    (rest, visited)).2 := by
              simp only [findPathLoop, hl, if_neg hce, hn]
            rw [hres]
            exact ih _ _ inv'

/-! ## Claim C8: `findPath` characterization -/

/-- C8: `findPath` resolves both endpoints and returns `null` if either id
is unknown; its BFS (neighbours = parent plus children) terminates within
`|nodes| + 1` dequeues on any well-formed tree; every returned path is a
duplicate-free walk from `startId` to `endId` whose successive nodes are
parent/child-adjacent; the returned path is shortest in edge count among
all walks between the two ids; whenever the two ids resolve and any walk
connects them, a path is returned; and on the tree `A → [B, C]` it returns
`[B, A, C]` for `findPath(B, C)`. -/
theorem C8_findPath_spec {s : TreeState} (hWF : WF s) (a b : Nat) :
    (getNodeById s a = none ∨ getNodeById s b = none →
      findPath s a b = none) ∧
    ((getNodeById s a).isSome = true →
      (findPathLoop s b (s.nodes.length + 1) [[a]] [a]).isSome = true) ∧
    (∀ p, findPath s a b = some p → IsWalk s a b p ∧ p.Nodup) ∧
    (∀ p W, findPath s a b = some p → IsWalk s a b W →
      p.length ≤ W.length) ∧
    (∀ W, (getNodeById s a).isSome = true → (getNodeById s b).isSome = true →
      IsWalk s a b W → ∃ p, findPath s a b = some p) ∧
    findPath pathExampleTree 1 2 = some [1, 0, 2] := by
  have hTerm : (getNodeById s a).isSome = true →
      (findPathLoop s b (s.nodes.length + 1) [[a]] [a]).isSome = true := by
    intro hA
    rcases Option.isSome_iff_exists.mp hA with ⟨na, hna⟩
    refine findPathLoop_isSome hWF b (s.nodes.length + 1) [[a]] [a] ?_
    have hrc := remainingCount_lt_length (getNodeById_mem hna).1
      (show na.id ∈ [a] by
        rw [(getNodeById_mem hna).2]
        exact List.mem_singleton_self a)
    simp only [List.length_cons, List.length_nil]
    omega
  have hInit : (getNodeById s a).isSome = true → BfsInv s a b [[a]] [a] := by
    intro hA
    refine ⟨?_, ?_, ?_, ?_, ?_, ?_, ?_⟩
    · intro p hp
      rw [List.mem_singleton.mp hp]
      simp
    · intro p hp
      rw [List.mem_singleton.mp hp]
      exact ⟨rfl, List.chain'_singleton a, List.nodup_singleton a⟩
    · intro p hp x hx
      rw [List.mem_singleton.mp hp] at hx
      exact hx
    · intro v hv
      rw [List.mem_singleton.mp hv]
      exact getNodeById_isSome_iff.mp hA
    · exact List.mem_singleton_self a
    · intro v hv
      exact Or.inl ⟨[a], List.mem_singleton_self _,
        by rw [List.mem_singleton.mp hv]; simp⟩
    · intro hb
      exact ⟨[a], List.mem_singleton_self _,
        by rw [List.mem_singleton.mp hb]; simp⟩
  have hSound : ∀ p, findPath s a b = some p → IsWalk s a b p ∧ p.Nodup := by
    intro p hp
    rcases hA : getNodeById s a with _ | na
    · unfold findPath at hp
      simp only [hA] at hp
      exact Option.noConfusion hp
    · rcases hB : getNodeById s b with _ | nb
      · unfold findPath at hp
        simp only [hA, hB] at hp
        exact Option.noConfusion hp
      · unfold findPath at hp
        simp only [hA, hB] at hp
        rcases hr : findPathLoop s b (s.nodes.length + 1) [[a]] [a] with _ | r
        · rw [hr] at hp
          simp at hp
        · rw [hr] at hp
          have hre : r = some p := by simpa using hp
          have hr2 : findPathLoop s b (s.nodes.length + 1) [[a]] [a] =
              some (some p) := by rw [hr, hre]
          exact (findPathLoop_spec hWF a b (s.nodes.length + 1) [[a]] [a]
            (hInit (by rw [hA]; rfl))).1 p hr2
  have hMin : ∀ p W, findPath s a b = some p → IsWalk s a b W →
      p.length ≤ W.length := by
    intro p W hp hW
    obtain ⟨hwalkp, hnodp⟩ := hSound p hp
    obtain ⟨P, hP, hPlen, -⟩ :=
      exists_simple_of_walk W.length W a b (le_refl _) hW
    have hpP : p = P := simple_path_unique hWF p a P ⟨hwalkp, hnodp⟩ hP
    rw [hpP]
    exact hPlen
  refine ⟨?_, hTerm, hSound, hMin, ?_, by decide⟩
  · intro h
    rcases h with h | h
    · unfold findPath
      simp only [h]
    · rcases hA : getNodeById s a with _ | na
      · unfold findPath
        simp only [hA]
      · unfold findPath
        simp only [hA, h]
  · intro W hA hB hW
    have hT2 := hTerm hA
    rcases hr : findPathLoop s b (s.nodes.length + 1) [[a]] [a] with _ | r
    · rw [hr] at hT2
      exact Bool.noConfusion hT2
    · rcases r with _ | p
      · have hnull := (findPathLoop_spec hWF a b (s.nodes.length + 1)
          [[a]] [a] (hInit hA)).2 hr W
        exact absurd hW hnull
      · refine ⟨p, ?_⟩
        rcases Option.isSome_iff_exists.mp hA with ⟨na, hna⟩
        rcases Option.isSome_iff_exists.mp hB with ⟨nb, hnb⟩
        unfold findPath
        simp only [hna, hnb]
        rw [hr]
        rfl

/-- Witness for C8: the characterization applied at the concrete tree
`A → [B, C]` (ids `0 → [1, 2]`): `findPath B C` returns `[B, A, C]`. -/
theorem C8_findPath_spec_witness :
    findPath pathExampleTree 1 2 = some [1, 0, 2] := by
  have hWF3 : WF pathExampleTree := by
    unfold pathExampleTree
    refine wf_addNode (wf_addNode (wf_addNode WF.empty
      (fun pid h => Option.noConfusion h)) ?_) ?_
    · intro pid h
      rw [show pid = 0 from (Option.some_injective _ h).symm]
      decide
    · intro pid h
      rw [show pid = 0 from (Option.some_injective _ h).symm]
      decide
  exact (C8_findPath_spec hWF3 1 2).2.2.2.2.2

end Flowy
